import Mathlib

/-!
Verification of the simple-history artifact pipeline.

This file gives a shallow embedding, over `List Char`, of the
normalization / validation pipeline implemented in
`scripts/normalize-drafts.mjs` and the validator
(`validateFile` / `parseFrontmatter` in the concatenated
`scripts/promote-normalized.mjs` blob), and proves or refutes the
frozen specification claims about it.

JavaScript strings are modelled as lists of Unicode scalar values
(`Str := List Char`); `toLowerCase` / `toUpperCase` are modelled on the
ASCII range, which covers every constant the pipeline manipulates and
every concrete input used in counterexamples and witnesses.
-/

set_option maxRecDepth 4096

abbrev Str := List Char

/-- The double-quote character, written numerically. -/
def quoteC : Char := Char.ofNat 34

/-- The backslash character, written numerically. -/
def backslashC : Char := Char.ofNat 92

/-- The backtick character, written numerically. -/
def backtickC : Char := Char.ofNat 96

/-- Code points matched by JavaScript `\s` (and trimmed by `String.trim`):
ASCII whitespace, NBSP, BOM, and the Unicode space separators and line
terminators. -/
def jsWsNat : List Nat :=
  [9, 10, 11, 12, 13, 32, 160, 5760, 8192, 8193, 8194, 8195, 8196, 8197,
   8198, 8199, 8200, 8201, 8202, 8232, 8233, 8239, 8287, 12288, 65279]

/-- JavaScript whitespace test (`\s`). -/
def jsWs (c : Char) : Bool := decide (c.toNat ∈ jsWsNat)

/-- JavaScript `\w` (word character): ASCII letters, digits, underscore. -/
def wordChar (c : Char) : Bool :=
  decide ((48 ≤ c.toNat ∧ c.toNat ≤ 57) ∨ (65 ≤ c.toNat ∧ c.toNat ≤ 90) ∨
          (97 ≤ c.toNat ∧ c.toNat ≤ 122) ∨ c.toNat = 95)

/-- ASCII-range model of JavaScript single-character `toUpperCase`. -/
def upChar (c : Char) : Char :=
  if 97 ≤ c.toNat ∧ c.toNat ≤ 122 then Char.ofNat (c.toNat - 32) else c

/-- ASCII-range model of JavaScript single-character `toLowerCase`. -/
def lowChar (c : Char) : Char :=
  if 65 ≤ c.toNat ∧ c.toNat ≤ 90 then Char.ofNat (c.toNat + 32) else c

/-- Model of JavaScript `String.prototype.toLowerCase` (ASCII range). -/
def lowerStr (s : Str) : Str := s.map lowChar

/-- Left trim: drop leading JavaScript whitespace. -/
def ltrim (s : Str) : Str := s.dropWhile jsWs

/-- Right trim: drop trailing JavaScript whitespace. -/
def rtrim (s : Str) : Str := (s.reverse.dropWhile jsWs).reverse

/-- Model of JavaScript `String.prototype.trim`. -/
def trimS (s : Str) : Str := rtrim (ltrim s)

/-- Prefix test on character lists (JavaScript `startsWith`). -/
def listPre : Str → Str → Bool
  | [], _ => true
  | _ :: _, [] => false
  | a :: as, b :: bs => a = b && listPre as bs

/-- Substring containment (JavaScript `includes`, and regex tests whose
pattern is an alternation of literals). -/
def hasSub (pat : Str) : Str → Bool
  | [] => decide (pat = [])
  | c :: r => listPre pat (c :: r) || hasSub pat r

/-- First index `≥ i` at which `pat` occurs, scanning `s` from the left;
models `String.prototype.indexOf(pat, i)` applied to `drop i` of the
string.  Returns the absolute index. -/
def findSubAux (pat : Str) : Str → Nat → Option Nat
  | [], i => if pat = [] then some i else none
  | c :: r, i => if listPre pat (c :: r) then some i else findSubAux pat r (i + 1)

/-- Prepend a character to the first token of a token list. -/
def consHead (c : Char) : List Str → List Str
  | [] => [[c]]
  | t :: ts => (c :: t) :: ts

/-- Model of JavaScript `split(/\r?\n/)`. -/
def splitNL : Str → List Str
  | [] => [[]]
  | c :: r =>
    if c = '\n' then [] :: splitNL r
    else if c = '\r' then
      match r with
      | [] => [[c]]
      | d :: r2 => if d = '\n' then [] :: splitNL r2 else consHead c (splitNL (d :: r2))
    else consHead c (splitNL r)

/-- Model of JavaScript `split(sep)` for a single-character separator
string: every occurrence splits, adjacent separators yield empty
tokens. -/
def splitCharJS (sep : Char) : Str → List Str
  | [] => [[]]
  | c :: r => if c = sep then [] :: splitCharJS sep r else consHead c (splitCharJS sep r)

/-- State machine behind `split(/\s+/)`: the flag records whether the
scanner is inside a (maximal) whitespace run. -/
def swAux : Bool → Str → List Str
  | _, [] => [[]]
  | true, c :: r => if jsWs c then swAux true r else consHead c (swAux false r)
  | false, c :: r => if jsWs c then [] :: swAux true r else consHead c (swAux false r)

/-- Model of JavaScript `split(/\s+/)`. -/
def splitWsJS (s : Str) : List Str := swAux false s

/-- State machine behind `replace(/\s+/g, sep)` for a one-character
replacement: each maximal whitespace run becomes a single `sep`. -/
def cwAux (sep : Char) : Bool → Str → Str
  | _, [] => []
  | true, c :: r => if jsWs c then cwAux sep true r else c :: cwAux sep false r
  | false, c :: r => if jsWs c then sep :: cwAux sep true r else c :: cwAux sep false r

/-- Model of JavaScript `replace(/\s+/g, sep)` (with `sep` a single
character, as used with `' '` and `'-'` in the source). -/
def collapseWsTo (sep : Char) (s : Str) : Str := cwAux sep false s

/-- Scanner state for `replace(/\s{2,}/g, ' ')`: outside any whitespace,
after exactly one pending whitespace character, or inside an
already-replaced run. -/
inductive WsSt where
  | norm : WsSt
  | one (w : Char) : WsSt
  | run : WsSt

/-- State machine behind `replace(/\s{2,}/g, ' ')`: a run of two or more
whitespace characters becomes one space, a single whitespace character
is kept as-is. -/
def c2Aux : WsSt → Str → Str
  | .norm, [] => []
  | .one w, [] => [w]
  | .run, [] => []
  | .norm, c :: r => if jsWs c then c2Aux (.one c) r else c :: c2Aux .norm r
  | .one w, c :: r => if jsWs c then ' ' :: c2Aux .run r else w :: c :: c2Aux .norm r
  | .run, c :: r => if jsWs c then c2Aux .run r else c :: c2Aux .norm r

/-- Model of JavaScript `replace(/\s{2,}/g, ' ')`. -/
def collapse2 (s : Str) : Str := c2Aux .norm s

/-- State machine behind `replace(/\w\S*/g, w => w[0].toUpperCase() + w.slice(1))`:
the flag records whether the scanner is inside an active `\w\S*` match. -/
def tcAux : Bool → Str → Str
  | _, [] => []
  | inM, c :: r =>
    if jsWs c then c :: tcAux false r
    else if inM then c :: tcAux true r
    else if wordChar c then upChar c :: tcAux true r
    else c :: tcAux false r

/-- Model of the source's `titleCase`. -/
def titleCase (s : Str) : Str := tcAux false s

/-- Join a token list with a separator string (JavaScript `Array.join`). -/
def joinSep (sep : Str) : List Str → Str
  | [] => []
  | [x] => x
  | x :: xs => x ++ sep ++ joinSep sep xs

/-- Insert at the back unless already present (one `Set.add` step,
preserving insertion order). -/
def setAdd (l : List Str) (x : Str) : List Str :=
  if x ∈ l then l else l ++ [x]

/-- Keep the first occurrence of each element, in first-occurrence
order (JavaScript `Array.from(new Set(xs))`: `Set` iterates in
insertion order, and re-inserting an existing element does not move
it). -/
def dedupFirst (xs : List Str) : List Str := xs.foldl setAdd []

/- ### JSON string / array codec (the subset `JSON.stringify` emits for
strings and arrays of strings, and the matching fragment of
`JSON.parse`). -/

/-- Lowercase hex digit. -/
def hexDigC (n : Nat) : Char :=
  if n < 10 then Char.ofNat (48 + n) else Char.ofNat (87 + n)

/-- Hex digit value (accepting both cases, as `JSON.parse` does). -/
def hexValC (c : Char) : Option Nat :=
  if 48 ≤ c.toNat ∧ c.toNat ≤ 57 then some (c.toNat - 48)
  else if 97 ≤ c.toNat ∧ c.toNat ≤ 102 then some (c.toNat - 87)
  else if 65 ≤ c.toNat ∧ c.toNat ≤ 70 then some (c.toNat - 55)
  else none

/-- Per-character escaping of `JSON.stringify` for strings: short escapes
for quote, backslash and the usual control characters, `\u00XX` for the
remaining controls, everything else literal. -/
def escChar (c : Char) : Str :=
  if c = quoteC then [backslashC, quoteC]
  else if c = backslashC then [backslashC, backslashC]
  else if c.toNat = 8 then [backslashC, 'b']
  else if c.toNat = 9 then [backslashC, 't']
  else if c.toNat = 10 then [backslashC, 'n']
  else if c.toNat = 12 then [backslashC, 'f']
  else if c.toNat = 13 then [backslashC, 'r']
  else if c.toNat < 32 then
    [backslashC, 'u', '0', '0', hexDigC (c.toNat / 16), hexDigC (c.toNat % 16)]
  else [c]

/-- String-body escaping of `JSON.stringify`. -/
def escStr (s : Str) : Str := s.foldr (fun c acc => escChar c ++ acc) []

/-- `JSON.stringify` of a string. -/
def jsonStr (s : Str) : Str := quoteC :: escStr s ++ [quoteC]

/-- `JSON.stringify` of an array of strings (no inner whitespace). -/
def jsonArr (xs : List Str) : Str := '[' :: joinSep [','] (xs.map jsonStr) ++ [']']

/-- Parse the body of a JSON string after the opening quote, returning
the decoded content and the remainder after the closing quote.  Mirrors
`JSON.parse`'s string grammar: raw control characters are rejected,
escapes are decoded. -/
def parseStrBody : Str → Option (Str × Str)
  | [] => none
  | c :: r =>
    if c = quoteC then some ([], r)
    else if c = backslashC then
      match r with
      | [] => none
      | e :: r2 =>
        if e = quoteC then (parseStrBody r2).map (fun p => (quoteC :: p.1, p.2))
        else if e = backslashC then (parseStrBody r2).map (fun p => (backslashC :: p.1, p.2))
        else if e = '/' then (parseStrBody r2).map (fun p => ('/' :: p.1, p.2))
        else if e = 'b' then (parseStrBody r2).map (fun p => (Char.ofNat 8 :: p.1, p.2))
        else if e = 'f' then (parseStrBody r2).map (fun p => (Char.ofNat 12 :: p.1, p.2))
        else if e = 'n' then (parseStrBody r2).map (fun p => ('\n' :: p.1, p.2))
        else if e = 'r' then (parseStrBody r2).map (fun p => ('\r' :: p.1, p.2))
        else if e = 't' then (parseStrBody r2).map (fun p => ('\t' :: p.1, p.2))
        else if e = 'u' then
          match r2 with
          | h1 :: h2 :: h3 :: h4 :: r3 =>
            match hexValC h1, hexValC h2, hexValC h3, hexValC h4 with
            | some a, some b, some c', some d =>
              (parseStrBody r3).map
                (fun p => (Char.ofNat (4096 * a + 256 * b + 16 * c' + d) :: p.1, p.2))
            | _, _, _, _ => none
          | _ => none
        else none
    else if c.toNat < 32 then none
    else (parseStrBody r).map (fun p => (c :: p.1, p.2))

/-- Element loop of the array parser (fuel-indexed; one unit of fuel per
element suffices). -/
def jpArrGo : Nat → Str → Option (List Str × Str)
  | 0, _ => none
  | _ + 1, [] => none
  | fuel + 1, c :: r =>
    if c = ']' then some ([], r)
    else if c = quoteC then
      match parseStrBody r with
      | none => none
      | some (x, rest) =>
        match rest with
        | ']' :: r2 => some ([x], r2)
        | ',' :: r2 =>
          if listPre [quoteC] r2 then
            match jpArrGo fuel r2 with
            | some (xs, r3) => some (x :: xs, r3)
            | none => none
          else none
        | _ => none
    else none

/-- Parsed frontmatter value: a JSON string, a JSON array of strings, or
the raw-fallback value (`JSON.parse` failed, surrounding quotes
stripped). -/
inductive JValue where
  | str (s : Str) : JValue
  | arr (xs : List Str) : JValue
  | raw (s : Str) : JValue
deriving DecidableEq

/-- Fragment of `JSON.parse` sufficient for every value this pipeline
serializes (strings and arrays of strings); all other inputs are
treated as parse failures, which only sends more inputs to the
tolerant raw fallback. -/
def jparse (s : Str) : Option JValue :=
  match s with
  | c :: r =>
    if c = quoteC then
      match parseStrBody r with
      | some (t, rest) => if rest = [] then some (.str t) else none
      | none => none
    else if c = '[' then
      match jpArrGo (r.length + 1) r with
      | some (xs, rest) => if rest = [] then some (.arr xs) else none
      | none => none
    else none
  | [] => none

/-- Model of `val.replace(/^"|"$/g, '')`: strip one leading and one
trailing double quote. -/
def stripQ (v : Str) : Str :=
  let v1 := match v with
    | c :: r => if c = quoteC then r else v
    | [] => v
  match v1.reverse with
  | c :: r => if c = quoteC then r.reverse else v1
  | [] => v1

/-- Parse one frontmatter value as the source does: try `JSON.parse`,
fall back to the quote-stripped raw string. -/
def valParse (v : Str) : JValue :=
  match jparse v with
  | some j => j
  | none => .raw v

/- ### Pipeline data model and normalize-drafts.mjs operations -/

/-- Dynamic record flowing through the pipeline: a ClassificationResult
or (after the guard/sanitize block) a persisted ArtifactRecord's
frontmatter fields plus the optional oracle-edited `content`. -/
structure NRec where
  title : Str
  lane : Str
  status : Str
  tags : List Str
  source_refs : List Str
  summary : Str
  publish_targets : List Str
  content : Option Str
deriving DecidableEq

/-- The five allowed lanes. -/
def allowedLanes : List Str := [['A'], ['B'], ['C'], ['D'], ['E']]

/-- The controlled tag vocabulary (`tagVocab`). -/
def tagVocab : List Str :=
  [('h' :: "euristic".toList), "checklist".toList, "prompt".toList, "rubric".toList,
   "diagram".toList, "visual".toList, "schema".toList, "json".toList, "code".toList,
   "kernel".toList, "agent".toList, "loop".toList, "alpha".toList, "beta".toList,
   "gamma".toList, "north-star".toList, "donkey".toList, "task-graph".toList,
   "policy".toList, "orchestrator".toList, "reflection".toList, "insight".toList,
   "note".toList, "strategy".toList, "design".toList, "pattern".toList]

/-- The `defaultFrontmatter` object. -/
def defaultFrontmatter : NRec :=
  { title := [], lane := ['A'], status := "draft".toList, tags := [],
    source_refs := [], summary := [], publish_targets := ["github".toList],
    content := none }

/-- Model of `splitFrontmatter` from normalize-drafts.mjs: if the
document starts with the 3-character fence and a closing `\n---` is
found from index 3 on, the trimmed text strictly between the fences is
the metadata, and everything after the closing fence (trimmed) the
body; otherwise empty metadata and the whole trimmed document. -/
def splitFrontmatter (md : Str) : Str × Str :=
  if listPre ('-' :: '-' :: '-' :: []) md then
    match findSubAux ('\n' :: '-' :: '-' :: '-' :: []) (md.drop 3) 3 with
    | some e => (trimS ((md.take e).drop 3), trimS (md.drop (e + 4)))
    | none => ([], trimS md)
  else ([], trimS md)

/-- Keyword list scanned by the heuristic tag harvest. -/
def heurTagKeys : List Str :=
  ["kernel".toList, ('h' :: "euristic".toList), "prompt".toList, "diagram".toList,
   "agent".toList, "north star".toList, "donkey".toList, "alpha".toList,
   "beta".toList, "gamma".toList]

/-- Lane chosen by `heuristicNormalize` on the lowercased text: scan
for the B, C, D, E keyword sets in that order, first match wins,
default A. -/
def heuristicLane (t : Str) : Str :=
  if (hasSub "diagram".toList t || (hasSub "graph".toList t || (hasSub "visual".toList t
      || (hasSub "schematic".toList t || hasSub "svg".toList t)))) = true then ['B']
  else if (hasSub "prompt".toList t || (hasSub "rubric".toList t
      || hasSub "template".toList t)) = true then ['C']
  else if (hasSub "schema".toList t || (hasSub "json".toList t || (hasSub "code".toList t
      || (hasSub "task graph".toList t || hasSub "api".toList t)))) = true then ['D']
  else if (hasSub "insight".toList t || (hasSub "note".toList t
      || (hasSub "reflection".toList t || hasSub "aphorism".toList t))) = true then ['E']
  else ['A']

/-- Model of `heuristicNormalize`. -/
def heuristicNormalize (text : Str) : NRec :=
  let firstLine := trimS ((splitNL text).headD [])
  let title := joinSep [' '] ((splitCharJS ' ' (if firstLine = [] then text else firstLine)).take 8)
  let t := lowerStr text
  let lane := heuristicLane t
  let tags := dedupFirst ((heurTagKeys.filter (fun k => hasSub k t)).map (collapseWsTo '-'))
  let summary := trimS (collapseWsTo ' ' (text.take 140))
  { defaultFrontmatter with title := title, lane := lane, tags := tags, summary := summary }

/-- Normalization applied to each incoming tag before set-insertion:
`String(t).toLowerCase().trim().replace(/\s+/g,'-')`. -/
def normTag (t : Str) : Str := collapseWsTo '-' (trimS (lowerStr t))

/-- Vocabulary-term match key: every hyphen replaced by a space (the
source's global hyphen-to-space replace). -/
def hyphToSpace (t : Str) : Str := t.map (fun c => if c = '-' then ' ' else c)

/-- Model of `enrichTags`: union of the normalized incoming tags with
the vocabulary terms found in the lowercased text, truncated to 7,
padded with the filler tag up to 3. -/
def enrichTags (tags : List Str) (textLower : Str) : List Str :=
  let s1 := (tags.map normTag).foldl setAdd []
  let s2 := tagVocab.foldl (fun acc t => if hasSub (hyphToSpace t) textLower then setAdd acc t else acc) s1
  let arr := s2.take 7
  arr ++ List.replicate (3 - arr.length) "artifact".toList

/-- Markdown marker characters stripped from titles
(the class `[` ``` `*_[]<> ``` `]`). -/
def mkChars : Str := [backtickC, '*', '_', '[', ']', '<', '>']

/-- Marker test. -/
def isMk (c : Char) : Bool := decide (c ∈ mkChars)

/-- Title sanitization from the guard block: trim, strip markers,
collapse repeated whitespace, cut to 12 words, title-case, cut to 80
characters. -/
def sanTitle (t : Str) : Str :=
  let t1 := trimS t
  let t2 := t1.filter (fun c => !isMk c)
  let t3 := collapse2 t2
  let ws := (splitWsJS t3).take 12
  let t4 := joinSep [' '] ws
  (titleCase t4).take 80

/-- Content truncation from the guard block: if the (truthy) content
exceeds 220 words, keep 220 and append the ellipsis character. -/
def truncContent (c : Str) : Str :=
  let words := splitWsJS c
  if words.length > 220 then joinSep [' '] (words.take 220) ++ ['…'] else c

/-- Model of the guard/sanitize/enrich block of `main` in
normalize-drafts.mjs (lines 198-222), parametrized by the `--lane`
override and the source body. -/
def guardSanitize (forceLane : Str) (n : NRec) (body : Str) : NRec :=
  let lane1 := if forceLane ≠ [] ∧ forceLane ∈ allowedLanes then forceLane else n.lane
  let lane2 := if lane1 ∈ allowedLanes then lane1 else ['A']
  let pubs := if n.publish_targets = [] then ["github".toList] else n.publish_targets
  let title := if n.title = [] then n.title else sanTitle n.title
  let tags := enrichTags n.tags (lowerStr body)
  let content := match n.content with
    | some c => if c = [] then some c else some (truncContent c)
    | none => none
  { title := title, lane := lane2, status := "draft".toList, tags := tags,
    source_refs := n.source_refs, summary := n.summary, publish_targets := pubs,
    content := content }

/-- Model of `toFrontmatter`: the serialized metadata block, ending with
the closing fence and a trailing newline. -/
def toFrontmatter (obj : NRec) : Str :=
  joinSep ['\n']
    [['-', '-', '-'],
     "title: ".toList ++ jsonStr obj.title,
     "lane: ".toList ++ jsonStr (if obj.lane = [] then ['A'] else obj.lane),
     "status: ".toList ++ jsonStr (if obj.status = [] then "draft".toList else obj.status),
     "tags: ".toList ++ jsonArr obj.tags,
     "source_refs: []".toList,
     "summary: ".toList ++ jsonStr obj.summary,
     "publish_targets: ".toList ++ jsonArr obj.publish_targets,
     ['-', '-', '-'],
     []]

/-- The string the dedup hash is computed over:
`normalized.content || body`. -/
def contentOr (n : NRec) (body : Str) : Str :=
  match n.content with
  | some c => if c = [] then body else c
  | none => body

/-- The document text persisted for a sanitized record:
`toFrontmatter(normalized) + (normalized.content || body).trim() + '\n'`. -/
def outDocOf (n : NRec) (body : Str) : Str :=
  toFrontmatter n ++ trimS (contentOr n body) ++ ['\n']

/- ### Dedup fingerprint -/

/-- ECMAScript `ToInt32` on an exact integer. -/
def toInt32 (x : Int) : Int :=
  let m := x % 4294967296
  if m < 2147483648 then m else m - 4294967296

/-- One step of the source's rolling hash:
`h = ((h << 5) + h) + s.charCodeAt(i)`, with the 32-bit truncation the
`<<` operator performs and exact addition elsewhere. -/
def jsHashStep (h : Int) (c : Char) : Int :=
  toInt32 (toInt32 h * 32) + h + (c.toNat : Int)

/-- The hash value before the final `>>> 0`. -/
def jsHashVal (s : Str) : Int := s.foldl jsHashStep 5381

/-- Fuel-indexed lowercase-hex rendering of a natural number
(JavaScript `toString(16)`); 40 units of fuel cover every number
producible here. -/
def toHexAux : Nat → Nat → Str
  | 0, _ => []
  | fuel + 1, n => if n = 0 then [] else toHexAux fuel (n / 16) ++ [hexDigC (n % 16)]

/-- JavaScript `n.toString(16)` for `n : Nat`. -/
def toHexNat (n : Nat) : Str := if n = 0 then ['0'] else toHexAux 40 n

/-- The fingerprint as the source computes it:
`(h >>> 0).toString(16)`. -/
def jsFingerprint (s : Str) : Str := toHexNat (jsHashVal s % 4294967296).toNat

/-- The fingerprint as the spec describes it: the pure rolling hash
`h = h*33 + charCode` reduced to 32-bit width, rendered in hex. -/
def specFingerprint (s : Str) : Str :=
  toHexNat (s.foldl (fun h c => (h * 33 + c.toNat) % 4294967296) 5381)

/- ### Retry controller and per-document classification -/

/-- The retry loop of `main` (lines 177-193), with the remote capability
abstracted as a map from attempt index to `some` result or `none`
(throw).  The `while (attempt < 3)` loop is encoded structurally by the
number of remaining iterations.  Returns the number of calls made, the
backoff delays slept (in order, in milliseconds), and the result if any
attempt succeeded.  Each recorded delay is slept before the next call
in trace order. -/
def retryGo (oracle : Nat → Option NRec) : Nat → Nat → List Nat → Nat × List Nat × Option NRec
  | 0, attempt, delays => (attempt, delays, none)
  | rem + 1, attempt, delays =>
    match oracle attempt with
    | some r => (attempt + 1, delays, some r)
    | none => retryGo oracle rem (attempt + 1) (delays ++ [500 * 2 ^ attempt])

/-- Run the retry loop from the initial state (`attempt = 0`, three
iterations allowed). -/
def retryRun (oracle : Nat → Option NRec) : Nat × List Nat × Option NRec :=
  retryGo oracle 3 0 []

/-- Per-document classification: the retried remote call, falling back
to the local heuristic when all attempts fail.  Total by construction:
no exception escapes the step. -/
def perDocNormalize (oracle : Nat → Option NRec) (body : Str) : NRec :=
  match (retryRun oracle).2.2 with
  | some r => r
  | none => heuristicNormalize body

/-- The sanitized record `main` produces for one raw document. -/
def mainRecord (oracle : Nat → Option NRec) (forceLane : Str) (raw : Str) : NRec :=
  let p := splitFrontmatter raw
  guardSanitize forceLane (perDocNormalize oracle p.2) p.2

/- ### Pipeline loop with dedup (one invocation) -/

/-- The per-invocation loop of `main` over a list of raw documents, with
classification abstracted as `norm body fmRaw`: returns the
(fingerprint, persisted document) pairs actually written, threading the
`seenHashes` set; duplicates are skipped and consume no output slot. -/
def runAux (norm : Str → Str → NRec) (forceLane : Str) : List Str → List Str → List (Str × Str)
  | _, [] => []
  | seen, raw :: rest =>
    let p := splitFrontmatter raw
    let san := guardSanitize forceLane (norm p.2 p.1) p.2
    let h := jsFingerprint (contentOr san p.2)
    if h ∈ seen then runAux norm forceLane seen rest
    else (h, outDocOf san p.2) :: runAux norm forceLane (h :: seen) rest

/-- One pipeline invocation starting from an empty dedup set. -/
def runPipeline (norm : Str → Str → NRec) (forceLane : Str) (docs : List Str) : List (Str × Str) :=
  runAux norm forceLane [] docs

/-- First-occurrence filter relative to an already-seen set: the
fingerprints that survive dedup. -/
def dedupFirstFrom (seen : List Str) : List Str → List Str
  | [] => []
  | x :: r => if x ∈ seen then dedupFirstFrom seen r else x :: dedupFirstFrom (x :: seen) r

/-- Fingerprint of one raw document under the abstracted classifier. -/
def docFingerprint (norm : Str → Str → NRec) (forceLane : Str) (raw : Str) : Str :=
  let p := splitFrontmatter raw
  let san := guardSanitize forceLane (norm p.2 p.1) p.2
  jsFingerprint (contentOr san p.2)

/- ### Schema validator (validateFile and its tolerant frontmatter
parser, lines 142-211 of the concatenated promote-normalized.mjs blob) -/

/-- Key characters of the tolerant line parser's regex
(one or more ASCII letters or underscore before the colon). -/
def isKeyChar (c : Char) : Bool :=
  decide ((65 ≤ c.toNat ∧ c.toNat ≤ 90) ∨ (97 ≤ c.toNat ∧ c.toNat ≤ 122) ∨ c.toNat = 95)

/-- ECMAScript regex line terminators, the characters `.` never
matches: LF, CR, LINE SEPARATOR and PARAGRAPH SEPARATOR. -/
def lineTermC (c : Char) : Bool :=
  decide (c.toNat = 10 ∨ c.toNat = 13 ∨ c.toNat = 8232 ∨ c.toNat = 8233)

/-- Tolerant key-value line parser, the match
`line.match(/^([a-zA-Z_]+):\s*(.*)$/)`: a line matches iff it starts
with a nonempty run of key characters followed by a colon, and the
rest of the line, after the maximal whitespace prefix that the greedy
`\s*` consumes (whitespace includes the line terminators), contains no
line-terminator character - `.` excludes line terminators and `$`
anchors at the end of the input, so no backtracking of `\s*` can
rescue a match, and the line is skipped.  The captured value is the
rest of the line with that whitespace prefix stripped. -/
def lineKV (l : Str) : Option (Str × Str) :=
  let k := l.takeWhile isKeyChar
  match l.dropWhile isKeyChar with
  | ':' :: rest =>
    if k = [] then none
    else if (rest.dropWhile jsWs).any lineTermC then none
    else some (k, rest.dropWhile jsWs)
  | _ => none

/-- The line loop of the validator's `parseFrontmatter`: assignments in
order, malformed lines silently skipped. -/
def parseFmLines (lines : List Str) : List (Str × JValue) :=
  lines.foldl
    (fun acc l =>
      match lineKV l with
      | none => acc
      | some (k, v) => acc ++ [(k, valParse v)]) []

/-- Object lookup with JavaScript assignment semantics (the last
assignment to a key wins). -/
def fmGet (entries : List (Str × JValue)) (k : Str) : Option JValue :=
  (entries.reverse.find? (fun e => e.1 = k)).map (fun e => e.2)

/-- The validator's `parseFrontmatter`: fence handling identical to
`splitFrontmatter` (including the trimmed-whole-document fallback),
followed by the tolerant line loop over the metadata block. -/
def parseFrontmatterV (md : Str) : List (Str × JValue) × Str :=
  let p := splitFrontmatter md
  (parseFmLines (splitNL p.1), p.2)

/-- JavaScript truthiness of a parsed frontmatter value: empty strings
are falsy, arrays (even empty) are truthy. -/
def jTruthy : JValue → Bool
  | .str s => s ≠ []
  | .raw s => s ≠ []
  | .arr _ => true

/-- JavaScript `String(...)` of a parsed frontmatter value
(arrays join with commas). -/
def jToStr : JValue → Str
  | .str s => s
  | .raw s => s
  | .arr xs => joinSep [','] xs

/-- Model of `fm.key || ''` followed by `String(...)`. -/
def fmStrOr (entries : List (Str × JValue)) (k : Str) : Str :=
  match fmGet entries k with
  | some j => if jTruthy j then jToStr j else []
  | none => []

/-- Model of `Array.isArray(fm.key) ? fm.key : []`. -/
def fmArrOr (entries : List (Str × JValue)) (k : Str) : List Str :=
  match fmGet entries k with
  | some (.arr xs) => xs
  | _ => []

/-- Allowed status values. -/
def allowedStatus : List Str := ["draft".toList, "publish".toList]

/-- Allowed publish targets. -/
def allowedTargets : List Str :=
  ["twitter".toList, "github".toList, "image".toList, "gist".toList]

/-- Strip every double-quote character (`replace` with the global quote
regex), as the validator applies to lane and status. -/
def stripQuotesAll (s : Str) : Str := s.filter (fun c => c ≠ quoteC)

/-- Tag slug pattern: 1 to 30 characters, each a lowercase letter, digit
or hyphen. -/
def isSlugTag (t : Str) : Bool :=
  decide (1 ≤ t.length ∧ t.length ≤ 30) &&
  t.all (fun c => decide ((97 ≤ c.toNat ∧ c.toNat ≤ 122) ∨ (48 ≤ c.toNat ∧ c.toNat ≤ 57) ∨ c = '-'))

/-- The required frontmatter keys, in check order. -/
def reqKeys : List Str :=
  ["title".toList, "lane".toList, "status".toList, "tags".toList,
   "summary".toList, "publish_targets".toList]

/-- Model of `validateFile`: the ordered list of error descriptors for
one document (without the cross-file duplicate-slug pass, which needs
at least two files). -/
def validateFile (text : Str) (strictMode : Bool) : List Str :=
  let p := parseFrontmatterV text
  let fm := p.1
  let body := p.2
  let errs0 := reqKeys.foldl
    (fun acc k => if fmGet fm k = none then acc ++ ["missing frontmatter key: ".toList ++ k] else acc) []
  let title := trimS (fmStrOr fm "title".toList)
  let errs1 := errs0
    ++ (if title = [] then ["title is empty".toList] else [])
    ++ (if title.length > 80 then ["title exceeds 80 chars".toList] else [])
    ++ (if ((splitWsJS title).filter (fun w => w ≠ [])).length > 12 then
          ["title exceeds 12 words".toList] else [])
    ++ (if title.any isMk then ["title contains markdown characters".toList] else [])
  let lane := stripQuotesAll (fmStrOr fm "lane".toList)
  let errs2 := errs1
    ++ (if lane ∉ allowedLanes then ["invalid lane: ".toList ++ lane] else [])
  let status := stripQuotesAll (fmStrOr fm "status".toList)
  let errs3 := errs2
    ++ (if status ∉ allowedStatus then ["invalid status: ".toList ++ status] else [])
  let tags := fmArrOr fm "tags".toList
  let badTags := tags.filter (fun t => !isSlugTag t)
  let errs4 := errs3
    ++ (if tags = [] then ["tags empty".toList] else [])
    ++ (if tags.length > 10 then ["too many tags (>10)".toList] else [])
    ++ (if badTags ≠ [] then ["bad tag slugs: ".toList ++ joinSep [','] badTags] else [])
  let pub := fmArrOr fm "publish_targets".toList
  let badTargets := pub.filter (fun t => t ∉ allowedTargets)
  let errs5 := errs4
    ++ (if pub = [] then ["publish_targets empty".toList] else [])
    ++ (if badTargets ≠ [] then ["invalid publish_targets: ".toList ++ joinSep [','] badTargets] else [])
  let summary := trimS (fmStrOr fm "summary".toList)
  let errs6 := errs5
    ++ (if summary = [] then ["summary empty".toList] else [])
    ++ (if summary.length > 240 then ["summary exceeds 240 chars".toList] else [])
  let bodyLen := (trimS body).length
  errs6
    ++ (if bodyLen < 20 then ["content body too short".toList] else [])
    ++ (if strictMode ∧ bodyLen > 6000 then ["content body too long (>6000 chars)".toList] else [])

/- ### Supporting lemmas: lanes, tags, retry -/

/-- The heuristic lane is always one of the five allowed lanes. -/
lemma heuristicLane_mem (t : Str) : heuristicLane t ∈ allowedLanes := by
  unfold heuristicLane
  split_ifs <;> decide

/-- Projection of the heuristic record's lane. -/
lemma heuristicNormalize_lane (text : Str) :
    (heuristicNormalize text).lane = heuristicLane (lowerStr text) := rfl

/-- Lane produced by the guard block. -/
lemma guardSanitize_lane (forceLane : Str) (n : NRec) (body : Str) :
    (guardSanitize forceLane n body).lane =
      (if (if forceLane ≠ [] ∧ forceLane ∈ allowedLanes then forceLane else n.lane) ∈ allowedLanes
       then (if forceLane ≠ [] ∧ forceLane ∈ allowedLanes then forceLane else n.lane)
       else ['A']) := rfl

/-- Padding a list of at most 7 tags up to 3 lands in the range [3, 7]. -/
lemma pad_card (l : List Str) (h : l.length ≤ 7) :
    3 ≤ (l ++ List.replicate (3 - l.length) ("artifact".toList)).length ∧
    (l ++ List.replicate (3 - l.length) ("artifact".toList)).length ≤ 7 := by
  simp only [List.length_append, List.length_replicate]
  omega

/-- Folding `setAdd` over a list whose members are all `a`, starting
from a set already containing `a`, changes nothing. -/
lemma foldl_setAdd_const (a : Str) :
    ∀ (l : List Str) (acc : List Str), (∀ x ∈ l, x = a) → a ∈ acc →
      l.foldl setAdd acc = acc
  | [], _, _, _ => rfl
  | x :: r, acc, h, ha => by
    have hx : x = a := h x (by simp)
    subst hx
    rw [List.foldl_cons]
    have hs : setAdd acc x = acc := by simp [setAdd, ha]
    rw [hs]
    exact foldl_setAdd_const x r acc (fun y hy => h y (by simp [hy])) ha

/-- Folding a guarded `setAdd` whose guard is everywhere false changes
nothing. -/
lemma foldl_guard_none (cond : Str → Bool) :
    ∀ (l : List Str) (acc : List Str), (∀ v ∈ l, cond v = false) →
      l.foldl (fun acc t => if cond t then setAdd acc t else acc) acc = acc
  | [], _, _ => rfl
  | x :: r, acc, h => by
    rw [List.foldl_cons]
    have hx : cond x = false := h x (by simp)
    rw [hx]
    simp only [Bool.false_eq_true, if_false]
    exact foldl_guard_none cond r acc (fun y hy => h y (by simp [hy]))

/-- Call count of the retry loop is bounded by the remaining-iteration
budget. -/
lemma retryGo_calls_le (g : Nat → Option NRec) :
    ∀ (rem attempt : Nat) (d : List Nat), (retryGo g rem attempt d).1 ≤ attempt + rem
  | 0, a, d => by simp [retryGo]
  | rem + 1, a, d => by
    have ih := retryGo_calls_le g rem (a + 1) (d ++ [500 * 2 ^ a])
    unfold retryGo
    cases hg : g a with
    | some r => simp
    | none => exact Nat.le_trans ih (by omega)

/-- A remote capability that throws on every attempt exhausts the three
calls, sleeping the three backoff delays, and produces no result. -/
lemma retryRun_allFail (oracle : Nat → Option NRec) (hf : ∀ k, k < 3 → oracle k = none) :
    retryRun oracle = (3, [500, 1000, 2000], none) := by
  have h0 := hf 0 (by omega)
  have h1 := hf 1 (by omega)
  have h2 := hf 2 (by omega)
  norm_num [retryRun, retryGo, h0, h1, h2]

/- ### Claim C9 -/

/-- C9 (confirmed): for every oracle-provided tag list and every
lowercased source text, the enriched tag list has length at least 3 and
at most 7. -/
theorem tag_enrichment_cardinality (tags : List Str) (textLower : Str) :
    3 ≤ (enrichTags tags textLower).length ∧ (enrichTags tags textLower).length ≤ 7 := by
  unfold enrichTags
  exact pad_card _ (List.length_take_le 7 _)

/- ### Claim C10 -/

/-- C10 (confirmed): when every oracle-provided tag is the filler tag
(in particular when the list is empty) and no vocabulary term matches
the lowercased source text, `enrichTags` returns exactly three copies
of the filler tag, so the persisted tag list may contain duplicate
entries. -/
theorem filler_tag_triplication (tags : List Str) (textLower : Str)
    (htags : ∀ t ∈ tags, t = ("artifact".toList))
    (hvocab : ∀ v ∈ tagVocab, hasSub (hyphToSpace v) textLower = false) :
    enrichTags tags textLower =
      [("artifact".toList), ("artifact".toList), ("artifact".toList)] := by
  unfold enrichTags
  have hnorm : normTag ("artifact".toList) = ("artifact".toList) := by decide
  have hvoc : ∀ (acc : List Str),
      tagVocab.foldl (fun acc t => if hasSub (hyphToSpace t) textLower then setAdd acc t else acc) acc = acc := by
    intro acc
    exact foldl_guard_none _ tagVocab acc hvocab
  cases tags with
  | nil => simp [hvoc]
  | cons t r =>
    have ht : t = ("artifact".toList) := htags t (by simp)
    have hmap : ∀ x ∈ (r.map normTag), x = ("artifact".toList) := by
      intro x hx
      rcases List.mem_map.mp hx with ⟨y, hy, hxy⟩
      rw [← hxy, htags y (by simp [hy]), hnorm]
    have hstart : setAdd [] (normTag t) = [("artifact".toList)] := by
      rw [ht, hnorm]; rfl
    simp only [List.map_cons, List.foldl_cons, hstart]
    rw [foldl_setAdd_const ("artifact".toList) (r.map normTag) _ hmap (by simp),
        hvoc]
    rfl

/-- Concrete instance of the filler-tag theorem: an empty tag list over
a text matching no vocabulary term. -/
theorem filler_tag_triplication_witness :
    enrichTags [] ("hi".toList) =
      [("artifact".toList), ("artifact".toList), ("artifact".toList)] :=
  filler_tag_triplication [] ("hi".toList) (by simp) (by decide)

/- ### Claim C5 -/

/-- C5 (confirmed): the remote call is attempted at most 3 times; with
a capability failing on the first two attempts and succeeding on the
third, exactly 3 calls are made, the delays slept before the two
retries are 500·2⁰ and 500·2¹ milliseconds (in trace order, each slept
before the following call), and the third result is returned as-is. -/
theorem remote_retry_backoff (oracle : Nat → Option NRec)
    (h0 : oracle 0 = none) (h1 : oracle 1 = none) (r : NRec) (h2 : oracle 2 = some r) :
    retryRun oracle = (3, [500 * 2 ^ 0, 500 * 2 ^ 1], some r) ∧
    ∀ g : Nat → Option NRec, (retryRun g).1 ≤ 3 := by
  constructor
  · norm_num [retryRun, retryGo, h0, h1, h2]
  · intro g
    have := retryGo_calls_le g 3 0 []
    simpa [retryRun] using this

/-- The fail-twice-then-succeed oracle used to instantiate the retry
theorem. -/
def witOracle : Nat → Option NRec := fun n => if n = 2 then some defaultFrontmatter else none

/-- Concrete instance of the retry/backoff theorem. -/
theorem remote_retry_backoff_witness :
    retryRun witOracle = (3, [500 * 2 ^ 0, 500 * 2 ^ 1], some defaultFrontmatter) :=
  (remote_retry_backoff witOracle rfl rfl defaultFrontmatter rfl).1

/- ### Claim C8 -/

/-- Generalized skip lemma for the tolerant line loop: lines the
key-value regex rejects contribute nothing, from any accumulator. -/
lemma parseFmLines_filter_aux (lines : List Str) :
    ∀ acc : List (Str × JValue),
      lines.foldl
        (fun acc l => match lineKV l with
          | none => acc
          | some (k, v) => acc ++ [(k, valParse v)]) acc =
      (lines.filter (fun l => (lineKV l).isSome)).foldl
        (fun acc l => match lineKV l with
          | none => acc
          | some (k, v) => acc ++ [(k, valParse v)]) acc := by
  induction lines with
  | nil => intro acc; rfl
  | cons l r ih =>
    intro acc
    cases hkv : lineKV l with
    | none =>
      simp only [List.foldl_cons, List.filter_cons, hkv, Option.isSome_none,
        Bool.false_eq_true, if_false]
      exact ih acc
    | some kv =>
      simp only [List.foldl_cons, List.filter_cons, hkv, Option.isSome_some, if_true]
      exact ih _

/-- C8 (confirmed): frontmatter splitting and the tolerant key-value
parser are total.  Whenever the document does not begin with the
3-character fence, or no closing fence is found from index 3 on, both
`splitFrontmatter` and the validator's parser return empty metadata and
the whole trimmed document as body; and the line parser ignores exactly
the lines that do not match the `key: value` shape, so malformed lines
are silently skipped.  (Totality itself is inherent: all the parsing
functions are total Lean functions.) -/
theorem frontmatter_parsing_total :
    (∀ md : Str, listPre ('-' :: '-' :: '-' :: []) md = false →
      splitFrontmatter md = ([], trimS md) ∧ parseFrontmatterV md = ([], trimS md)) ∧
    (∀ md : Str, findSubAux ('\n' :: '-' :: '-' :: '-' :: []) (md.drop 3) 3 = none →
      splitFrontmatter md = ([], trimS md) ∧ parseFrontmatterV md = ([], trimS md)) ∧
    (∀ lines : List Str,
      parseFmLines lines = parseFmLines (lines.filter (fun l => (lineKV l).isSome))) := by
  refine ⟨fun md h => ?_, fun md h => ?_, fun lines => parseFmLines_filter_aux lines []⟩
  · have hs : splitFrontmatter md = ([], trimS md) := by
      unfold splitFrontmatter
      rw [h]
      rfl
    exact ⟨hs, by unfold parseFrontmatterV; rw [hs]; exact rfl⟩
  · have hs : splitFrontmatter md = ([], trimS md) := by
      unfold splitFrontmatter
      by_cases hp : listPre ('-' :: '-' :: '-' :: []) md = true
      · rw [if_pos hp, h]
      · rw [if_neg hp]
    exact ⟨hs, by unfold parseFrontmatterV; rw [hs]; exact rfl⟩

/-- Concrete instance: a fence-less document splits into empty metadata
and its trimmed self. -/
theorem frontmatter_parsing_total_witness :
    splitFrontmatter ("hello".toList) = ([], trimS ("hello".toList)) :=
  (frontmatter_parsing_total.1 ("hello".toList) (by decide)).1

/- ### Claim C6 -/

/-- C6 (corrected): when the remote capability fails on all three
attempts, the pipeline falls through to the local heuristic, and the
final per-document record is the guard/sanitize block applied to the
heuristic result; in particular, absent a lane override, its lane is
exactly the heuristic lane.  No exception escapes the step:
`mainRecord` is total.  (The claim's stronger reading — that the final
record's title and tags literally equal the heuristic output — fails,
because the sanitizer still rewrites them; see the counterexample.) -/
theorem heuristic_fallback (oracle : Nat → Option NRec) (forceLane raw : Str)
    (hf : ∀ k, k < 3 → oracle k = none) :
    mainRecord oracle forceLane raw
      = guardSanitize forceLane (heuristicNormalize (splitFrontmatter raw).2) (splitFrontmatter raw).2
    ∧ (forceLane = [] →
        (mainRecord oracle forceLane raw).lane
          = (heuristicNormalize (splitFrontmatter raw).2).lane) := by
  have hretry := retryRun_allFail oracle hf
  have hmain : mainRecord oracle forceLane raw
      = guardSanitize forceLane (heuristicNormalize (splitFrontmatter raw).2) (splitFrontmatter raw).2 := by
    unfold mainRecord perDocNormalize
    rw [hretry]
  refine ⟨hmain, fun hfl => ?_⟩
  rw [hmain, guardSanitize_lane]
  subst hfl
  have hmem : (heuristicNormalize (splitFrontmatter raw).2).lane ∈ allowedLanes := by
    rw [heuristicNormalize_lane]
    exact heuristicLane_mem _
  simp [hmem]

/-- The always-failing oracle. -/
def failOracle : Nat → Option NRec := fun _ => none

/-- Concrete instance of the fallback theorem. -/
theorem heuristic_fallback_witness :
    (mainRecord failOracle [] ("hello world one two".toList)).lane
      = (heuristicNormalize (splitFrontmatter ("hello world one two".toList)).2).lane :=
  (heuristic_fallback failOracle [] ("hello world one two".toList)
    (fun _ _ => rfl)).2 rfl

/-- C6 counterexample: with the remote capability failing on all three
attempts, the persisted record's title and tags are not literally those
of `heuristicNormalize` — the sanitizer title-cases the title and pads
the tags — refuting the claim as stated. -/
theorem heuristic_fallback_counterexample :
    (mainRecord failOracle [] ("hello world one two".toList)).title
        ≠ (heuristicNormalize ("hello world one two".toList)).title
    ∧ (mainRecord failOracle [] ("hello world one two".toList)).tags
        ≠ (heuristicNormalize ("hello world one two".toList)).tags := by
  constructor <;> decide

/- ### Claim C4 -/

/-- Modelled from the spec: the keyword sets of the local heuristic, in
the fixed scan priority order B, C, D, E. -/
def laneKeywordOrder : List (Str × List Str) :=
  [(['B'], ["diagram".toList, "graph".toList, "visual".toList, "schematic".toList, "svg".toList]),
   (['C'], ["prompt".toList, "rubric".toList, "template".toList]),
   (['D'], ["schema".toList, "json".toList, "code".toList, "task graph".toList, "api".toList]),
   (['E'], ["insight".toList, "note".toList, "reflection".toList, "aphorism".toList])]

/-- Modelled from the spec: first-match-wins scan over an ordered list
of (lane, keyword set) pairs. -/
def scanLanes : List (Str × List Str) → Str → Str
  | [], _ => ['A']
  | (lane, kws) :: rest, t =>
    if kws.any (fun k => hasSub k t) = true then lane else scanLanes rest t

/-- Modelled from the spec: scan the lowercased text for the keyword
sets in the fixed order B, C, D, E — first match wins — defaulting to
A when none match. -/
def laneSpecScan (t : Str) : Str := scanLanes laneKeywordOrder t

/-- C4 (confirmed): the heuristic lane is computed by scanning the
lowercased text for the keyword sets in the fixed priority order
B, C, D, E with the first match winning and A as the default; in
particular, any input whose lowercased text contains the substring
`diagram` resolves to lane B regardless of the other lanes'
keywords. -/
theorem heuristic_lane_priority (text : Str) :
    (heuristicNormalize text).lane = laneSpecScan (lowerStr text) ∧
    (hasSub ("diagram".toList) (lowerStr text) = true →
      (heuristicNormalize text).lane = ['B']) := by
  rw [heuristicNormalize_lane]
  constructor
  · unfold laneSpecScan laneKeywordOrder heuristicLane
    simp only [scanLanes, List.any_cons, List.any_nil, Bool.or_false]
  · intro h
    unfold heuristicLane
    rw [h]
    simp

/-- Concrete instance: a text containing both `diagram` and the C-lane
keyword `prompt` still resolves to lane B. -/
theorem heuristic_lane_priority_witness :
    (heuristicNormalize ("a diagram of prompt rubrics".toList)).lane = ['B'] :=
  (heuristic_lane_priority ("a diagram of prompt rubrics".toList)).2 (by decide)

/- ### Claim C7 -/

/-- `ToInt32` preserves the residue modulo 2³². -/
lemma toInt32_emod (x : Int) : toInt32 x % 4294967296 = x % 4294967296 := by
  unfold toInt32
  simp only []
  split <;> omega

/-- One step of the JavaScript hash agrees with one step of the pure
mod-2³² rolling hash, on residues. -/
lemma jsHashStep_emod (h : Int) (H : Nat) (c : Char)
    (hh : h % 4294967296 = (H : Int) % 4294967296) :
    jsHashStep h c % 4294967296 = (((H * 33 + c.toNat) % 4294967296 : Nat) : Int) % 4294967296 := by
  unfold jsHashStep
  have e1 : toInt32 (toInt32 h * 32) % 4294967296 = (h * 32) % 4294967296 := by
    rw [toInt32_emod]
    exact Int.ModEq.mul_right 32 (toInt32_emod h)
  have e2 : (((H * 33 + c.toNat) % 4294967296 : Nat) : Int)
      = ((H : Int) * 33 + (c.toNat : Int)) % 4294967296 := by
    push_cast
    rfl
  rw [e2]
  omega

/-- The folded hashes agree on residues. -/
lemma jsHashVal_emod (s : Str) :
    ∀ (h : Int) (H : Nat), h % 4294967296 = (H : Int) % 4294967296 →
      (s.foldl jsHashStep h) % 4294967296
        = ((s.foldl (fun h c => (h * 33 + c.toNat) % 4294967296) H : Nat) : Int) % 4294967296 := by
  induction s with
  | nil => intro h H hh; simpa using hh
  | cons c r ih =>
    intro h H hh
    simp only [List.foldl_cons]
    exact ih (jsHashStep h c) ((H * 33 + c.toNat) % 4294967296) (jsHashStep_emod h H c hh)

/-- The pure rolling hash stays below 2³². -/
lemma specHashFold_lt (s : Str) :
    ∀ H : Nat, H < 4294967296 →
      s.foldl (fun h c => (h * 33 + c.toNat) % 4294967296) H < 4294967296 := by
  induction s with
  | nil => intro H hH; simpa using hH
  | cons c r ih =>
    intro H hH
    simp only [List.foldl_cons]
    exact ih _ (Nat.mod_lt _ (by omega))

/-- The source's fingerprint equals the spec's description of it: the
pure `h*33 + charCode` rolling hash reduced to 32 bits, in hex. -/
lemma jsFingerprint_eq_spec (s : Str) : jsFingerprint s = specFingerprint s := by
  unfold jsFingerprint specFingerprint jsHashVal
  congr 1
  have hfold := jsHashVal_emod s 5381 5381 rfl
  have hlt : s.foldl (fun h c => (h * 33 + c.toNat) % 4294967296) 5381 < 4294967296 :=
    specHashFold_lt s 5381 (by omega)
  have hge : (0 : Int) ≤ s.foldl jsHashStep 5381 % 4294967296 :=
    Int.emod_nonneg _ (by omega)
  omega

/-- The written fingerprints of a run are exactly the first-occurrence
filter of the per-document fingerprints, relative to the starting seen
set. -/
lemma runAux_fps (norm : Str → Str → NRec) (forceLane : Str) :
    ∀ (docs : List Str) (seen : List Str),
      (runAux norm forceLane seen docs).map Prod.fst
        = dedupFirstFrom seen (docs.map (docFingerprint norm forceLane)) := by
  intro docs
  induction docs with
  | nil => intro seen; rfl
  | cons raw rest ih =>
    intro seen
    show (runAux norm forceLane seen (raw :: rest)).map Prod.fst = _
    rw [runAux]
    simp only [List.map_cons]
    rw [dedupFirstFrom]
    by_cases hmem : docFingerprint norm forceLane raw ∈ seen
    · have : jsFingerprint (contentOr (guardSanitize forceLane
          (norm (splitFrontmatter raw).2 (splitFrontmatter raw).1) (splitFrontmatter raw).2)
          (splitFrontmatter raw).2) ∈ seen := hmem
      simp only [this, if_true, hmem]
      exact ih seen
    · have : ¬ (jsFingerprint (contentOr (guardSanitize forceLane
          (norm (splitFrontmatter raw).2 (splitFrontmatter raw).1) (splitFrontmatter raw).2)
          (splitFrontmatter raw).2) ∈ seen) := hmem
      simp only [this, if_false, hmem, List.map_cons]
      exact congrArg _ (ih _)

/-- The first-occurrence filter never repeats an element and never
emits a member of the starting seen set. -/
lemma dedupFirstFrom_nodup :
    ∀ (l : List Str) (seen : List Str),
      (dedupFirstFrom seen l).Nodup ∧ ∀ x ∈ dedupFirstFrom seen l, x ∉ seen := by
  intro l
  induction l with
  | nil => intro seen; exact ⟨List.nodup_nil, by simp [dedupFirstFrom]⟩
  | cons x r ih =>
    intro seen
    rw [dedupFirstFrom]
    by_cases hx : x ∈ seen
    · simp only [hx, if_true]
      exact ih seen
    · simp only [hx, if_false]
      obtain ⟨hnd, hdisj⟩ := ih (x :: seen)
      refine ⟨List.nodup_cons.mpr ⟨fun hxin => ?_, hnd⟩, ?_⟩
      · exact hdisj x hxin (by simp)
      · intro y hy
        rcases List.mem_cons.mp hy with rfl | hy2
        · exact hx
        · intro hyseen
          exact hdisj y hy2 (by simp [hyseen])

/-- C7 (confirmed): the fingerprint is exactly the spec's rolling hash
(multiplier 33, reduced to 32-bit width, rendered in hexadecimal) of
the sanitized content (or original body), so identical content strings
get identical fingerprints; within one invocation the written records'
fingerprints are the first-occurrence filter of the per-document
fingerprints — pairwise distinct — and for two documents with the same
fingerprinted content exactly one record is written, the later
duplicate being skipped without error. -/
theorem dedup_single_write :
    (∀ s : Str, jsFingerprint s = specFingerprint s) ∧
    (∀ (norm : Str → Str → NRec) (forceLane : Str) (docs : List Str),
      (runPipeline norm forceLane docs).map Prod.fst
        = dedupFirstFrom [] (docs.map (docFingerprint norm forceLane))) ∧
    (∀ (norm : Str → Str → NRec) (forceLane : Str) (docs : List Str),
      ((runPipeline norm forceLane docs).map Prod.fst).Nodup) ∧
    (∀ (norm : Str → Str → NRec) (forceLane : Str) (d e : Str),
      docFingerprint norm forceLane d = docFingerprint norm forceLane e →
      (runPipeline norm forceLane [d, e]).length = 1) := by
  refine ⟨jsFingerprint_eq_spec, fun norm fl docs => runAux_fps norm fl docs [],
    fun norm fl docs => ?_, fun norm fl d e hde => ?_⟩
  · rw [runPipeline, runAux_fps norm fl docs []]
    exact (dedupFirstFrom_nodup _ []).1
  · have hlen : (runPipeline norm fl [d, e]).length
        = ((runPipeline norm fl [d, e]).map Prod.fst).length := by
      rw [List.length_map]
    rw [hlen, runPipeline, runAux_fps norm fl [d, e] []]
    simp [dedupFirstFrom, hde]

/-- The classifier used by the dry-run/fallback path. -/
def heuristicOnly : Str → Str → NRec := fun body _ => heuristicNormalize body

/-- Concrete instance: two documents with the same body produce one
written record. -/
theorem dedup_single_write_witness :
    (runPipeline heuristicOnly []
      [("the same content twice over".toList), ("the same content twice over".toList)]).length = 1 :=
  dedup_single_write.2.2.2 heuristicOnly []
    ("the same content twice over".toList) ("the same content twice over".toList) rfl

/- ### JSON codec round-trip -/

/-- Reading back a hex digit recovers its value. -/
lemma hexValC_hexDigC (n : Nat) (h : n < 16) : hexValC (hexDigC n) = some n := by
  interval_cases n <;> decide

/-- Bounded `Char.ofNat` round-trip on code points. -/
lemma toNat_ofNat_lt (n : Nat) (h : n < 55296) : (Char.ofNat n).toNat = n := by
  unfold Char.ofNat
  split
  · rfl
  · exact absurd (Or.inl (by omega)) (by assumption)

/-- Decoding the escape of one character, followed by any
continuation, consumes exactly the escape and emits the character. -/
lemma parseStrBody_escChar (c : Char) (tail : Str) (out : Str × Str)
    (htail : parseStrBody tail = some out) :
    parseStrBody (escChar c ++ tail) = some (c :: out.1, out.2) := by
  unfold escChar
  by_cases h1 : c = quoteC
  · subst h1
    simp only [if_pos rfl, List.cons_append, List.nil_append]
    unfold parseStrBody
    simp +decide [quoteC, backslashC, htail]
  · rw [if_neg h1]
    by_cases h2 : c = backslashC
    · subst h2
      simp only [if_pos rfl, List.cons_append, List.nil_append]
      unfold parseStrBody
      simp +decide [quoteC, backslashC, htail]
    · rw [if_neg h2]
      by_cases h3 : c.toNat = 8
      · rw [if_pos h3]
        have hc : Char.ofNat 8 = c := by
          rw [← h3, Char.ofNat_toNat]
        unfold parseStrBody
        simp +decide [quoteC, backslashC, htail, hc]
        exact hc
      · rw [if_neg h3]
        by_cases h4 : c.toNat = 9
        · rw [if_pos h4]
          have hc : ('\t' : Char) = c := by
            have : ('\t' : Char) = Char.ofNat 9 := by decide
            rw [this, ← h4, Char.ofNat_toNat]
          unfold parseStrBody
          simp +decide [quoteC, backslashC, htail, hc]
          exact hc
        · rw [if_neg h4]
          by_cases h5 : c.toNat = 10
          · rw [if_pos h5]
            have hc : ('\n' : Char) = c := by
              have : ('\n' : Char) = Char.ofNat 10 := by decide
              rw [this, ← h5, Char.ofNat_toNat]
            unfold parseStrBody
            simp +decide [quoteC, backslashC, htail, hc]
            exact hc
          · rw [if_neg h5]
            by_cases h6 : c.toNat = 12
            · rw [if_pos h6]
              have hc : Char.ofNat 12 = c := by
                rw [← h6, Char.ofNat_toNat]
              unfold parseStrBody
              simp +decide [quoteC, backslashC, htail, hc]
              exact hc
            · rw [if_neg h6]
              by_cases h7 : c.toNat = 13
              · rw [if_pos h7]
                have hc : ('\r' : Char) = c := by
                  have : ('\r' : Char) = Char.ofNat 13 := by decide
                  rw [this, ← h7, Char.ofNat_toNat]
                unfold parseStrBody
                simp +decide [quoteC, backslashC, htail, hc]
                exact hc
              · rw [if_neg h7]
                by_cases h8 : c.toNat < 32
                · rw [if_pos h8]
                  have hhi : hexValC (hexDigC (c.toNat / 16)) = some (c.toNat / 16) :=
                    hexValC_hexDigC _ (by omega)
                  have hlo : hexValC (hexDigC (c.toNat % 16)) = some (c.toNat % 16) :=
                    hexValC_hexDigC _ (Nat.mod_lt _ (by omega))
                  have hc : Char.ofNat (4096 * 0 + 256 * 0 + 16 * (c.toNat / 16) + c.toNat % 16) = c := by
                    have : 4096 * 0 + 256 * 0 + 16 * (c.toNat / 16) + c.toNat % 16 = c.toNat := by
                      omega
                    rw [this, Char.ofNat_toNat]
                  have h0 : hexValC ('0') = some 0 := by decide
                  unfold parseStrBody
                  simp +decide [quoteC, backslashC, htail, h0, hhi, hlo]
                  have hdm : 16 * (c.toNat / 16) + c.toNat % 16 = c.toNat := by omega
                  rw [hdm, Char.ofNat_toNat]
                · rw [if_neg h8]
                  simp only [List.cons_append, List.nil_append]
                  unfold parseStrBody
                  have hq : ¬ c = quoteC := h1
                  have hb : ¬ c = backslashC := h2
                  simp +decide [hq, hb, h8, htail]

/-- Decoding an escaped string body followed by the closing quote and
any remainder recovers the string and the remainder. -/
lemma parseStrBody_escStr (s : Str) :
    ∀ r : Str, parseStrBody (escStr s ++ quoteC :: r) = some (s, r) := by
  induction s with
  | nil =>
    intro r
    show parseStrBody (quoteC :: r) = some ([], r)
    unfold parseStrBody
    simp
  | cons c s' ih =>
    intro r
    have : escStr (c :: s') = escChar c ++ escStr s' := rfl
    rw [this, List.append_assoc]
    exact parseStrBody_escChar c (escStr s' ++ quoteC :: r) (s', r) (ih r)

/-- `JSON.parse` of `JSON.stringify` of a string. -/
lemma jparse_jsonStr (s : Str) : jparse (jsonStr s) = some (.str s) := by
  unfold jparse jsonStr
  have h := parseStrBody_escStr s []
  simp [h]

/-- Every character emitted by the escaper is printable — in
particular neither a newline nor a carriage return, so escaped values
stay on one line. -/
lemma escChar_no_ctrl (c : Char) : ∀ x ∈ escChar c, 32 ≤ x.toNat := by
  have hdig : ∀ n : Nat, n < 16 → 32 ≤ (hexDigC n).toNat := by
    intro n hn
    unfold hexDigC
    split
    · rw [toNat_ofNat_lt _ (by omega)]; omega
    · rw [toNat_ofNat_lt _ (by omega)]; omega
  intro x hx
  unfold escChar at hx
  split_ifs at hx with h1 h2 h3 h4 h5 h6 h7 h8
  all_goals simp only [List.mem_cons, List.not_mem_nil, or_false] at hx
  · rcases hx with rfl | rfl <;> decide
  · rcases hx with rfl | rfl <;> decide
  · rcases hx with rfl | rfl <;> decide
  · rcases hx with rfl | rfl <;> decide
  · rcases hx with rfl | rfl <;> decide
  · rcases hx with rfl | rfl <;> decide
  · rcases hx with rfl | rfl <;> decide
  · rcases hx with rfl | rfl | rfl | rfl | rfl | rfl
    · decide
    · decide
    · decide
    · decide
    · exact hdig _ (by omega)
    · exact hdig _ (Nat.mod_lt _ (by omega))
  · subst hx
    omega

/-- Characters of an escaped string are printable. -/
lemma escStr_no_ctrl (s : Str) : ∀ x ∈ escStr s, 32 ≤ x.toNat := by
  induction s with
  | nil => intro x hx; cases hx
  | cons c s' ih =>
    intro x hx
    have : escStr (c :: s') = escChar c ++ escStr s' := rfl
    rw [this] at hx
    rcases List.mem_append.mp hx with h | h
    · exact escChar_no_ctrl c x h
    · exact ih x h

/-- Characters of a serialized string value are printable. -/
lemma jsonStr_no_ctrl (s : Str) : ∀ x ∈ jsonStr s, 32 ≤ x.toNat := by
  intro x hx
  unfold jsonStr at hx
  rcases List.mem_cons.mp hx with rfl | hx
  · decide
  · rcases List.mem_append.mp hx with h | h
    · exact escStr_no_ctrl s x h
    · simp only [List.mem_singleton] at h
      subst h
      decide

/-- Every character a string escape emits is printable ASCII, or the
escaped character itself, which is then printable. -/
lemma escChar_ascii_or_self (c : Char) :
    ∀ x ∈ escChar c, (32 ≤ x.toNat ∧ x.toNat < 128) ∨ (x = c ∧ 32 ≤ x.toNat) := by
  have hdig : ∀ n : Nat, n < 16 → 32 ≤ (hexDigC n).toNat ∧ (hexDigC n).toNat < 128 := by
    intro n hn
    unfold hexDigC
    split
    · rw [toNat_ofNat_lt _ (by omega)]
      omega
    · rw [toNat_ofNat_lt _ (by omega)]
      omega
  intro x hx
  unfold escChar at hx
  split_ifs at hx with h1 h2 h3 h4 h5 h6 h7 h8
  all_goals simp only [List.mem_cons, List.not_mem_nil, or_false] at hx
  · rcases hx with rfl | rfl <;> left <;> decide
  · rcases hx with rfl | rfl <;> left <;> decide
  · rcases hx with rfl | rfl <;> left <;> decide
  · rcases hx with rfl | rfl <;> left <;> decide
  · rcases hx with rfl | rfl <;> left <;> decide
  · rcases hx with rfl | rfl <;> left <;> decide
  · rcases hx with rfl | rfl <;> left <;> decide
  · rcases hx with rfl | rfl | rfl | rfl | rfl | rfl
    · left; decide
    · left; decide
    · left; decide
    · left; decide
    · exact Or.inl (hdig _ (by omega))
    · exact Or.inl (hdig _ (by omega))
  · rcases hx with rfl
    right
    exact ⟨rfl, by omega⟩

/-- Provenance through the string-body escape. -/
lemma escStr_mem (s : Str) : ∀ x ∈ escStr s, ∃ c ∈ s, x ∈ escChar c := by
  induction s with
  | nil =>
    intro x hx
    cases hx
  | cons c s2 ih =>
    intro x hx
    have hstep : escStr (c :: s2) = escChar c ++ escStr s2 := rfl
    rw [hstep] at hx
    rcases List.mem_append.mp hx with h | h
    · exact ⟨c, List.mem_cons_self _ _, h⟩
    · obtain ⟨d, hd, hxd⟩ := ih x h
      exact ⟨d, List.mem_cons_of_mem _ hd, hxd⟩

/-- No LINE SEPARATOR or PARAGRAPH SEPARATOR anywhere in the string.
`JSON.stringify` escapes every control character but emits U+2028 and
U+2029 literally, and the validator's line regex then fails to match
the serialized line. -/
abbrev noLineSep (s : Str) : Prop := ∀ c ∈ s, c.toNat ≠ 8232 ∧ c.toNat ≠ 8233

/-- A printable character other than the two separators is not a line
terminator. -/
lemma lineTermC_false_of (x : Char) (h1 : 32 ≤ x.toNat)
    (h2 : x.toNat ≠ 8232) (h3 : x.toNat ≠ 8233) : lineTermC x = false := by
  unfold lineTermC
  simp
  omega

/-- Characters of a serialized string value are never line terminators
when the string carries no separator character. -/
lemma jsonStr_chars_no_term (s : Str) (h : noLineSep s) :
    ∀ x ∈ jsonStr s, lineTermC x = false := by
  intro x hx
  unfold jsonStr at hx
  rcases List.mem_cons.mp hx with rfl | hx2
  · decide
  · rcases List.mem_append.mp hx2 with hm | hm
    · obtain ⟨c, hc, hxc⟩ := escStr_mem s x hm
      rcases escChar_ascii_or_self c x hxc with ⟨ha, hb⟩ | ⟨rfl, ha⟩
      · exact lineTermC_false_of x ha (by omega) (by omega)
      · obtain ⟨h2, h3⟩ := h x hc
        exact lineTermC_false_of x ha h2 h3
    · simp only [List.mem_singleton] at hm
      subst hm
      decide

/-- A serialized string value passes the line-terminator scan. -/
lemma jsonStr_no_term (s : Str) (h : noLineSep s) :
    (jsonStr s).any lineTermC = false := by
  rw [List.any_eq_false]
  intro x hx
  rw [jsonStr_chars_no_term s h x hx]
  simp

/-- Characters of a joined list are either separator characters or
characters of the elements. -/
lemma joinSep_mem (sep : Str) :
    ∀ (l : List Str) (x : Char), x ∈ joinSep sep l → x ∈ sep ∨ ∃ t ∈ l, x ∈ t
  | [], x, hx => by cases hx
  | [t], x, hx => by
    right
    exact ⟨t, by simp, hx⟩
  | t :: u :: rest, x, hx => by
    have hx2 : x ∈ t ++ sep ++ joinSep sep (u :: rest) := hx
    rcases List.mem_append.mp hx2 with h | h
    · rcases List.mem_append.mp h with h2 | h2
      · exact Or.inr ⟨t, by simp, h2⟩
      · exact Or.inl h2
    · rcases joinSep_mem sep (u :: rest) x h with h2 | ⟨t2, ht2, hxt2⟩
      · exact Or.inl h2
      · exact Or.inr ⟨t2, List.mem_cons_of_mem t ht2, hxt2⟩

/-- Characters of a serialized array value are printable. -/
lemma jsonArr_no_ctrl (xs : List Str) : ∀ x ∈ jsonArr xs, 32 ≤ x.toNat := by
  intro x hx
  unfold jsonArr at hx
  rcases List.mem_cons.mp hx with rfl | hx
  · decide
  · rcases List.mem_append.mp hx with h | h
    · rcases joinSep_mem [','] (xs.map jsonStr) x h with h2 | ⟨t, ht, hxt⟩
      · simp only [List.mem_singleton] at h2
        subst h2
        decide
      · rcases List.mem_map.mp ht with ⟨s, _, rfl⟩
        exact jsonStr_no_ctrl s x hxt
    · simp only [List.mem_singleton] at h
      subst h
      decide

/-- A serialized array value passes the line-terminator scan. -/
lemma jsonArr_no_term (xs : List Str) (h : ∀ t ∈ xs, noLineSep t) :
    (jsonArr xs).any lineTermC = false := by
  rw [List.any_eq_false]
  intro x hx
  unfold jsonArr at hx
  rcases List.mem_cons.mp hx with rfl | hx2
  · decide
  · rcases List.mem_append.mp hx2 with hm | hm
    · rcases joinSep_mem [','] (xs.map jsonStr) x hm with h2 | ⟨t, ht, hxt⟩
      · simp only [List.mem_singleton] at h2
        subst h2
        decide
      · rcases List.mem_map.mp ht with ⟨s, hs, rfl⟩
        rw [jsonStr_chars_no_term s (h s hs) x hxt]
        simp
    · simp only [List.mem_singleton] at hm
      subst hm
      decide

/-- A joined nonempty token list starts with its first token. -/
lemma joinSep_cons_decomp (sep : Str) (a : Str) (l : List Str) :
    ∃ w : Str, joinSep sep (a :: l) = a ++ w := by
  cases l with
  | nil => exact ⟨[], by simp [joinSep]⟩
  | cons b t => exact ⟨sep ++ joinSep sep (b :: t), by simp [joinSep]⟩

/-- Decoding the encoded elements of an array, followed by the closing
bracket and any remainder, recovers the elements and the remainder,
given one unit of fuel per element plus one. -/
lemma jpArrGo_rt (xs : List Str) :
    ∀ (fuel : Nat) (r : Str), xs.length + 1 ≤ fuel →
      jpArrGo fuel (joinSep [','] (xs.map jsonStr) ++ ']' :: r) = some (xs, r) := by
  induction xs with
  | nil =>
    intro fuel r hf
    match fuel, hf with
    | f + 1, _ =>
      show jpArrGo (f + 1) (']' :: r) = some ([], r)
      unfold jpArrGo
      simp
  | cons x rest ih =>
    intro fuel r hf
    match fuel, hf with
    | f + 1, hf =>
      cases rest with
      | nil =>
        show jpArrGo (f + 1) (jsonStr x ++ ']' :: r) = some ([x], r)
        have harr : jsonStr x ++ ']' :: r = quoteC :: (escStr x ++ quoteC :: (']' :: r)) := by
          unfold jsonStr
          simp
        rw [harr]
        unfold jpArrGo
        have hps := parseStrBody_escStr x (']' :: r)
        simp +decide [hps]
      | cons y t =>
        have hjoin : joinSep [','] ((x :: y :: t).map jsonStr)
            = jsonStr x ++ [','] ++ joinSep [','] ((y :: t).map jsonStr) := rfl
        rw [hjoin]
        have harr : (jsonStr x ++ [','] ++ joinSep [','] ((y :: t).map jsonStr)) ++ ']' :: r
            = quoteC :: (escStr x ++ quoteC :: (',' :: (joinSep [','] ((y :: t).map jsonStr) ++ ']' :: r))) := by
          unfold jsonStr
          simp
        rw [harr]
        unfold jpArrGo
        have hps := parseStrBody_escStr x (',' :: (joinSep [','] ((y :: t).map jsonStr) ++ ']' :: r))
        have hpre : listPre [quoteC] (joinSep [','] ((y :: t).map jsonStr) ++ ']' :: r) = true := by
          obtain ⟨w, hw⟩ := joinSep_cons_decomp [','] (jsonStr y) ((t).map jsonStr)
          have : (y :: t).map jsonStr = jsonStr y :: t.map jsonStr := rfl
          rw [this, hw]
          unfold jsonStr
          simp [listPre]
        have hih := ih f r (by simpa using Nat.le_of_succ_le_succ hf)
        simp only [List.map_cons] at hps hpre hih ⊢
        simp +decide [hps, hpre, hih]

/-- The encoded elements are at least as long as the element count. -/
lemma joinSep_jsonStr_len (xs : List Str) :
    xs.length ≤ (joinSep [','] (xs.map jsonStr)).length := by
  induction xs with
  | nil => simp [joinSep]
  | cons x rest ih =>
    have hx : 1 ≤ (jsonStr x).length := by
      unfold jsonStr
      simp
    cases rest with
    | nil => exact hx
    | cons y t =>
      have heq : joinSep [','] ((x :: y :: t).map jsonStr)
          = jsonStr x ++ [','] ++ joinSep [','] ((y :: t).map jsonStr) := rfl
      rw [heq]
      simp only [List.length_append, List.length_cons, List.length_map] at *
      omega

/-- `JSON.parse` of `JSON.stringify` of an array of strings. -/
lemma jparse_jsonArr (xs : List Str) : jparse (jsonArr xs) = some (.arr xs) := by
  unfold jparse jsonArr
  have hlen : xs.length + 1 ≤ (joinSep [','] (xs.map jsonStr) ++ [']']).length + 1 := by
    have := joinSep_jsonStr_len xs
    simp only [List.length_append, List.length_cons, List.length_nil]
    omega
  have hrt := jpArrGo_rt xs ((joinSep [','] (xs.map jsonStr) ++ [']']).length + 1) [] hlen
  simp only [List.length_append, List.length_cons, List.length_nil] at hrt
  simp +decide [hrt]

/- ### Locating the closing fence and splitting the metadata block -/

/-- Unfolding equation for the prefix test on two cons cells. -/
lemma listPre_cons_cons (a b : Char) (as bs : Str) :
    listPre (a :: as) (b :: bs) = (decide (a = b) && listPre as bs) := rfl

/-- Scanning for a pattern that starts with a newline skips any
newline-free chunk. -/
lemma findSubAux_skip_chunk (p : Str) (u : Str) (hu : ∀ x ∈ u, x ≠ '\n') :
    ∀ (v : Str) (i : Nat),
      findSubAux ('\n' :: p) (u ++ v) i = findSubAux ('\n' :: p) v (i + u.length) := by
  induction u with
  | nil => intro v i; simp
  | cons c r ih =>
    intro v i
    have hc : c ≠ '\n' := hu c (by simp)
    show findSubAux ('\n' :: p) (c :: (r ++ v)) i = _
    unfold findSubAux
    have hpre : listPre ('\n' :: p) (c :: (r ++ v)) = false := by
      unfold listPre
      simp [hc.symm]
    rw [hpre]
    simp only [Bool.false_eq_true, if_false]
    rw [ih (fun x hx => hu x (by simp [hx])) v (i + 1)]
    have harith : i + 1 + r.length = i + (c :: r).length := by
      simp only [List.length_cons]
      omega
    rw [harith, findSubAux.eq_def]

/-- Scanning a joined block of fence-safe lines finds the closing
fence exactly at the end of the block.  A line is fence-safe when it is
nonempty, does not start with a dash, and contains no newline. -/
lemma findSubAux_fence (w : Str) :
    ∀ (ls : List Str) (i : Nat),
      (∀ l ∈ ls, l ≠ [] ∧ l.head? ≠ some '-' ∧ ∀ x ∈ l, x ≠ '\n') →
      findSubAux ('\n' :: '-' :: '-' :: '-' :: [])
          (joinSep ['\n'] ls ++ '\n' :: '-' :: '-' :: '-' :: w) i
        = some (i + (joinSep ['\n'] ls).length) := by
  intro ls
  induction ls with
  | nil =>
    intro i h
    show findSubAux _ ('\n' :: '-' :: '-' :: '-' :: w) i = _
    unfold findSubAux
    simp [listPre, joinSep]
  | cons l rest ih =>
    intro i h
    obtain ⟨hne, hdash, hnl⟩ := h l (by simp)
    cases rest with
    | nil =>
      show findSubAux _ (l ++ '\n' :: '-' :: '-' :: '-' :: w) i = some (i + l.length)
      rw [findSubAux_skip_chunk _ l hnl]
      unfold findSubAux
      simp [listPre]
    | cons l2 t =>
      have hjoin : joinSep ['\n'] (l :: l2 :: t) = l ++ '\n' :: joinSep ['\n'] (l2 :: t) := by
        show l ++ ['\n'] ++ joinSep ['\n'] (l2 :: t) = _
        simp
      rw [hjoin, List.append_assoc]
      rw [findSubAux_skip_chunk _ l hnl]
      show findSubAux _ ('\n' :: (joinSep ['\n'] (l2 :: t) ++ '\n' :: '-' :: '-' :: '-' :: w)) (i + l.length) = _
      unfold findSubAux
      have hpre : listPre ('\n' :: '-' :: '-' :: '-' :: [])
          ('\n' :: (joinSep ['\n'] (l2 :: t) ++ '\n' :: '-' :: '-' :: '-' :: w)) = false := by
        obtain ⟨hne2, hdash2, _⟩ := h l2 (by simp)
        obtain ⟨w2, hw2⟩ := joinSep_cons_decomp ['\n'] l2 t
        rw [hw2]
        cases l2 with
        | nil => exact absurd rfl hne2
        | cons c2 r2 =>
          have hcd : c2 ≠ '-' := by
            intro hcon
            apply hdash2
            simp [hcon]
          simp only [List.cons_append, List.append_assoc]
          rw [listPre_cons_cons, listPre_cons_cons]
          simp [Ne.symm hcd]
      rw [hpre]
      simp only [Bool.false_eq_true, if_false]
      rw [ih (i + l.length + 1) (fun l' hl' => h l' (by simp [hl']))]
      refine congrArg some ?_
      simp only [List.length_append, List.length_cons]
      omega

/-- A newline- and carriage-return-free string does not split. -/
lemma splitNL_free (l : Str) (h : ∀ x ∈ l, x ≠ '\n' ∧ x ≠ '\r') :
    splitNL l = [l] := by
  induction l with
  | nil => rfl
  | cons c r ih =>
    obtain ⟨hn, hr⟩ := h c (by simp)
    have hrest := ih (fun x hx => h x (by simp [hx]))
    show splitNL (c :: r) = [c :: r]
    unfold splitNL
    rw [if_neg hn, if_neg hr, hrest]
    rfl

/-- Splitting a line-free chunk glued before a newline produces the
chunk as the first token. -/
lemma splitNL_chunk (l : Str) (h : ∀ x ∈ l, x ≠ '\n' ∧ x ≠ '\r') :
    ∀ v : Str, splitNL (l ++ '\n' :: v) = l :: splitNL v := by
  induction l with
  | nil =>
    intro v
    show splitNL ('\n' :: v) = [] :: splitNL v
    conv_lhs => rw [splitNL.eq_def]
    simp
  | cons c r ih =>
    intro v
    obtain ⟨hn, hr⟩ := h c (by simp)
    have hrest := ih (fun x hx => h x (by simp [hx])) v
    show splitNL (c :: (r ++ '\n' :: v)) = (c :: r) :: splitNL v
    conv_lhs => rw [splitNL.eq_def]
    simp only [hn, hr, if_false]
    rw [hrest]
    rfl

/-- Splitting a joined list of newline-free lines recovers the lines. -/
lemma splitNL_joinSep (ls : List Str) (hne : ls ≠ [])
    (h : ∀ l ∈ ls, ∀ x ∈ l, x ≠ '\n' ∧ x ≠ '\r') :
    splitNL (joinSep ['\n'] ls) = ls := by
  induction ls with
  | nil => exact absurd rfl hne
  | cons l rest ih =>
    cases rest with
    | nil => exact splitNL_free l (h l (by simp))
    | cons l2 t =>
      have hjoin : joinSep ['\n'] (l :: l2 :: t) = l ++ '\n' :: joinSep ['\n'] (l2 :: t) := by
        show l ++ ['\n'] ++ joinSep ['\n'] (l2 :: t) = _
        simp
      rw [hjoin, splitNL_chunk l (h l (by simp))]
      rw [ih (by simp) (fun l' hl' x hx => h l' (by simp [hl']) x hx)]

/- ### Trim lemmas -/

/-- Trimming discards a leading whitespace character. -/
lemma trimS_ws_cons (c : Char) (hc : jsWs c = true) (s : Str) :
    trimS (c :: s) = trimS s := by
  unfold trimS ltrim
  rw [List.dropWhile_cons]
  simp [hc]

/-- A string with non-whitespace first and last characters trims to
itself. -/
lemma trimS_eq_self (c : Char) (hc : jsWs c = false) :
    ∀ (u : Str) (d : Char), jsWs d = false → trimS (c :: u ++ [d]) = c :: u ++ [d] := by
  intro u d hd
  have hstep : c :: u ++ [d] = c :: (u ++ [d]) := by simp
  unfold trimS ltrim rtrim
  rw [hstep, List.dropWhile_cons]
  simp only [hc, Bool.false_eq_true, if_false]
  have hrev : (c :: (u ++ [d])).reverse = d :: (u.reverse ++ [c]) := by simp
  rw [hrev, List.dropWhile_cons]
  simp only [hd, Bool.false_eq_true, if_false]
  simp

/-- A singleton non-whitespace string trims to itself. -/
lemma trimS_single (c : Char) (hc : jsWs c = false) : trimS [c] = [c] := by
  unfold trimS ltrim rtrim
  rw [List.dropWhile_cons]
  simp [hc, List.dropWhile_cons]

/-- Trimming never grows a string. -/
lemma trimS_length_le (s : Str) : (trimS s).length ≤ s.length := by
  unfold trimS ltrim rtrim
  calc ((s.dropWhile jsWs).reverse.dropWhile jsWs).reverse.length
      = ((s.dropWhile jsWs).reverse.dropWhile jsWs).length := by rw [List.length_reverse]
    _ ≤ (s.dropWhile jsWs).reverse.length := (List.dropWhile_sublist _).length_le
    _ = (s.dropWhile jsWs).length := by rw [List.length_reverse]
    _ ≤ s.length := (List.dropWhile_sublist _).length_le

/-- Trimmed strings are subsets of the original. -/
lemma trimS_subset (s : Str) : ∀ x ∈ trimS s, x ∈ s := by
  intro x hx
  unfold trimS ltrim rtrim at hx
  rw [List.mem_reverse] at hx
  have h1 := List.dropWhile_sublist (l := (s.dropWhile jsWs).reverse) (p := jsWs)
  have h2 := List.dropWhile_sublist (l := s) (p := jsWs)
  have hx2 := h1.mem hx
  rw [List.mem_reverse] at hx2
  exact h2.mem hx2

/- ### Parsing back a serialized record -/

/-- The seven serialized metadata lines of `toFrontmatter`, in order. -/
def fmLines (obj : NRec) : List Str :=
  ["title: ".toList ++ jsonStr obj.title,
   "lane: ".toList ++ jsonStr (if obj.lane = [] then ['A'] else obj.lane),
   "status: ".toList ++ jsonStr (if obj.status = [] then "draft".toList else obj.status),
   "tags: ".toList ++ jsonArr obj.tags,
   "source_refs: []".toList,
   "summary: ".toList ++ jsonStr obj.summary,
   "publish_targets: ".toList ++ jsonArr obj.publish_targets]

/-- The frontmatter entries recovered from a serialized record. -/
def fmEntries (obj : NRec) : List (Str × JValue) :=
  [("title".toList, JValue.str obj.title),
   ("lane".toList, JValue.str (if obj.lane = [] then ['A'] else obj.lane)),
   ("status".toList, JValue.str (if obj.status = [] then "draft".toList else obj.status)),
   ("tags".toList, JValue.arr obj.tags),
   ("source_refs".toList, JValue.arr []),
   ("summary".toList, JValue.str obj.summary),
   ("publish_targets".toList, JValue.arr obj.publish_targets)]

/-- The serializer output is the opening fence, the joined lines, and
the closing fence with its trailing newline. -/
lemma toFrontmatter_decomp (obj : NRec) :
    toFrontmatter obj
      = ('-' :: '-' :: '-' :: '\n' :: []) ++ joinSep ['\n'] (fmLines obj)
        ++ ('\n' :: '-' :: '-' :: '-' :: '\n' :: []) := by
  unfold toFrontmatter fmLines
  simp [joinSep, List.append_assoc]

/-- Every serialized line is nonempty, does not start with a dash, and
contains only printable characters. -/
lemma fmLines_ok (obj : NRec) :
    ∀ l ∈ fmLines obj, l ≠ [] ∧ l.head? ≠ some '-' ∧ ∀ x ∈ l, 32 ≤ x.toNat := by
  intro l hl
  unfold fmLines at hl
  simp only [List.mem_cons, List.not_mem_nil, or_false] at hl
  have hpre : ∀ (p : Str) (j : Str), (∀ x ∈ p, 32 ≤ x.toNat) → (∀ x ∈ j, 32 ≤ x.toNat) →
      ∀ x ∈ p ++ j, 32 ≤ x.toNat := by
    intro p j hp hj x hx
    rcases List.mem_append.mp hx with h | h
    · exact hp x h
    · exact hj x h
  rcases hl with rfl | rfl | rfl | rfl | rfl | rfl | rfl
  · exact ⟨by simp, by simp, hpre _ _ (by decide) (jsonStr_no_ctrl _)⟩
  · exact ⟨by simp, by simp, hpre _ _ (by decide) (jsonStr_no_ctrl _)⟩
  · exact ⟨by simp, by simp, hpre _ _ (by decide) (jsonStr_no_ctrl _)⟩
  · exact ⟨by simp, by simp, hpre _ _ (by decide) (jsonArr_no_ctrl _)⟩
  · exact ⟨by decide, by decide, by decide⟩
  · exact ⟨by simp, by simp, hpre _ _ (by decide) (jsonStr_no_ctrl _)⟩
  · exact ⟨by simp, by simp, hpre _ _ (by decide) (jsonArr_no_ctrl _)⟩

/-- Left trim is the identity when the first character is not
whitespace. -/
lemma ltrim_eq_self (l : Str) (hh : ∀ c, l.head? = some c → jsWs c = false) :
    ltrim l = l := by
  cases l with
  | nil => rfl
  | cons c r =>
    unfold ltrim
    rw [List.dropWhile_cons]
    simp [hh c rfl]

/-- Right trim is the identity when the last character is not
whitespace. -/
lemma rtrim_eq_self (l : Str) (hl : ∀ c, l.getLast? = some c → jsWs c = false) :
    rtrim l = l := by
  unfold rtrim
  cases hrev : l.reverse with
  | nil =>
    have : l = [] := by
      have := congrArg List.reverse hrev
      simpa using this
    simp [this]
  | cons c r =>
    have hc : l.getLast? = some c := by
      rw [← List.head?_reverse, hrev]
      rfl
    rw [List.dropWhile_cons]
    simp only [hl c hc, Bool.false_eq_true, if_false]
    have := congrArg List.reverse hrev
    simpa using this.symm

/-- Combined trim identity. -/
lemma trimS_eq_self₂ (l : Str) (hh : ∀ c, l.head? = some c → jsWs c = false)
    (hl : ∀ c, l.getLast? = some c → jsWs c = false) : trimS l = l := by
  unfold trimS
  rw [ltrim_eq_self l hh, rtrim_eq_self l hl]

/-- A joined list whose last element ends in `d` ends in `d`. -/
lemma joinSep_snoc_decomp (sep : Str) :
    ∀ (ls : List Str) (l : Str), ∃ w : Str, joinSep sep (ls ++ [l]) = w ++ l := by
  intro ls
  induction ls with
  | nil => intro l; exact ⟨[], rfl⟩
  | cons x rest ih =>
    intro l
    obtain ⟨w, hw⟩ := ih l
    have hne : rest ++ [l] ≠ [] := by simp
    have hjoin : joinSep sep ((x :: rest) ++ [l]) = x ++ sep ++ joinSep sep (rest ++ [l]) := by
      cases hr : rest ++ [l] with
      | nil => exact absurd hr hne
      | cons y t =>
        rw [List.cons_append, hr]
        rfl
    refine ⟨x ++ sep ++ w, ?_⟩
    rw [hjoin, hw]
    simp [List.append_assoc]

/-- Right trim is the identity on a string ending in a non-whitespace
character. -/
lemma rtrim_concat (u : Str) (d : Char) (hd : jsWs d = false) :
    rtrim (u ++ [d]) = u ++ [d] := by
  unfold rtrim
  rw [List.reverse_append]
  show ((d :: u.reverse).dropWhile jsWs).reverse = u ++ [d]
  rw [List.dropWhile_cons]
  simp [hd]

/-- The joined metadata block trims to itself. -/
lemma trimS_joined_fmLines (obj : NRec) :
    trimS (joinSep ['\n'] (fmLines obj)) = joinSep ['\n'] (fmLines obj) := by
  obtain ⟨w1, hw1⟩ := joinSep_cons_decomp ['\n'] ("title: ".toList ++ jsonStr obj.title)
    (fmLines obj).tail
  have hfl : fmLines obj = ("title: ".toList ++ jsonStr obj.title) :: (fmLines obj).tail := rfl
  have hlast : fmLines obj
      = [("title: ".toList ++ jsonStr obj.title),
         ("lane: ".toList ++ jsonStr (if obj.lane = [] then ['A'] else obj.lane)),
         ("status: ".toList ++ jsonStr (if obj.status = [] then "draft".toList else obj.status)),
         ("tags: ".toList ++ jsonArr obj.tags),
         ("source_refs: []".toList),
         ("summary: ".toList ++ jsonStr obj.summary)]
        ++ [("publish_targets: ".toList ++ jsonArr obj.publish_targets)] := rfl
  obtain ⟨w2, hw2⟩ := joinSep_snoc_decomp ['\n']
    [("title: ".toList ++ jsonStr obj.title),
     ("lane: ".toList ++ jsonStr (if obj.lane = [] then ['A'] else obj.lane)),
     ("status: ".toList ++ jsonStr (if obj.status = [] then "draft".toList else obj.status)),
     ("tags: ".toList ++ jsonArr obj.tags),
     ("source_refs: []".toList),
     ("summary: ".toList ++ jsonStr obj.summary)]
    ("publish_targets: ".toList ++ jsonArr obj.publish_targets)
  have harr : jsonArr obj.publish_targets
      = ('[' :: joinSep [','] (obj.publish_targets.map jsonStr)) ++ [']'] := by
    unfold jsonArr
    simp
  have hL : joinSep ['\n'] (fmLines obj)
      = (w2 ++ ("publish_targets: ".toList ++ ('[' :: joinSep [','] (obj.publish_targets.map jsonStr)))) ++ [']'] := by
    conv_lhs => rw [hlast]
    rw [hw2, harr]
    simp [List.append_assoc]
  have hlt : ltrim (joinSep ['\n'] (fmLines obj)) = joinSep ['\n'] (fmLines obj) := by
    apply ltrim_eq_self
    intro c hc
    rw [hfl, hw1] at hc
    simp only [List.cons_append, List.append_assoc] at hc
    have : c = 't' := by
      simp only [List.head?] at hc
      injection hc with h
      exact h.symm
    subst this
    decide
  have hrt : rtrim (joinSep ['\n'] (fmLines obj)) = joinSep ['\n'] (fmLines obj) := by
    rw [hL]
    exact rtrim_concat _ _ (by decide)
  show rtrim (ltrim (joinSep ['\n'] (fmLines obj))) = joinSep ['\n'] (fmLines obj)
  rw [hlt, hrt]

/-- The fence pattern does not match a newline followed by a line that
does not start with a dash. -/
lemma listPre_nl_dash_false (L z : Str) (c : Char) (hL : L.head? = some c) (hc : c ≠ '-') :
    listPre ('\n' :: '-' :: '-' :: '-' :: []) ('\n' :: (L ++ z)) = false := by
  cases L with
  | nil => cases hL
  | cons d r =>
    have hd : d = c := by
      injection hL
    subst hd
    simp only [List.cons_append]
    rw [listPre_cons_cons, listPre_cons_cons]
    simp [Ne.symm hc]

/-- The first character of the joined metadata block. -/
lemma fmLines_joined_head (obj : NRec) :
    (joinSep ['\n'] (fmLines obj)).head? = some 't' := by
  obtain ⟨w1, hw1⟩ := joinSep_cons_decomp ['\n'] ("title: ".toList ++ jsonStr obj.title)
    (fmLines obj).tail
  have hw1' : joinSep ['\n'] (fmLines obj)
      = ("title: ".toList ++ jsonStr obj.title) ++ w1 := hw1
  rw [hw1']
  have hsplit : "title: ".toList = 't' :: "itle: ".toList := rfl
  rw [hsplit]
  simp

/-- Serialized lines are fence-safe. -/
lemma fmLines_fence_safe (obj : NRec) :
    ∀ l ∈ fmLines obj, l ≠ [] ∧ l.head? ≠ some '-' ∧ ∀ x ∈ l, x ≠ '\n' := by
  intro l hl
  obtain ⟨h1, h2, h3⟩ := fmLines_ok obj l hl
  refine ⟨h1, h2, fun x hx hcon => ?_⟩
  have := h3 x hx
  subst hcon
  exact absurd this (by decide)

/-- Splitting a serialized record recovers the joined metadata block
and the trimmed remainder. -/
lemma splitFrontmatter_serialize (obj : NRec) (b : Str) :
    splitFrontmatter (toFrontmatter obj ++ b)
      = (joinSep ['\n'] (fmLines obj), trimS b) := by
  have hdoc : toFrontmatter obj ++ b
      = '-' :: '-' :: '-' :: '\n' :: (joinSep ['\n'] (fmLines obj)
          ++ '\n' :: '-' :: '-' :: '-' :: ('\n' :: b)) := by
    rw [toFrontmatter_decomp]
    simp [List.append_assoc]
  have hfind : findSubAux ('\n' :: '-' :: '-' :: '-' :: []) ((toFrontmatter obj ++ b).drop 3) 3
      = some (3 + (1 + (joinSep ['\n'] (fmLines obj)).length)) := by
    rw [hdoc]
    show findSubAux _ ('\n' :: (joinSep ['\n'] (fmLines obj)
        ++ '\n' :: '-' :: '-' :: '-' :: ('\n' :: b))) 3 = _
    rw [findSubAux.eq_def]
    simp only []
    rw [listPre_nl_dash_false _ _ 't' (fmLines_joined_head obj) (by decide)]
    simp only [Bool.false_eq_true, if_false]
    rw [findSubAux_fence ('\n' :: b) (fmLines obj) 4 (fmLines_fence_safe obj)]
    refine congrArg some ?_
    omega
  unfold splitFrontmatter
  have hstart : listPre ('-' :: '-' :: '-' :: []) (toFrontmatter obj ++ b) = true := by
    rw [hdoc]
    rw [listPre_cons_cons, listPre_cons_cons, listPre_cons_cons]
    simp [listPre]
  rw [hstart, hfind]
  simp only [if_true]
  have htake : ((toFrontmatter obj ++ b).take (3 + (1 + (joinSep ['\n'] (fmLines obj)).length))).drop 3
      = '\n' :: joinSep ['\n'] (fmLines obj) := by
    rw [hdoc]
    have harith : 3 + (1 + (joinSep ['\n'] (fmLines obj)).length)
        = (joinSep ['\n'] (fmLines obj)).length + 1 + 1 + 1 + 1 := by omega
    rw [harith]
    simp only [List.take_succ_cons]
    have htk : (joinSep ['\n'] (fmLines obj)
          ++ '\n' :: '-' :: '-' :: '-' :: ('\n' :: b)).take (joinSep ['\n'] (fmLines obj)).length
        = joinSep ['\n'] (fmLines obj) := List.take_left _ _
    rw [htk]
    simp [List.drop]
  have hdrop : (toFrontmatter obj ++ b).drop (3 + (1 + (joinSep ['\n'] (fmLines obj)).length) + 4)
      = '\n' :: b := by
    rw [hdoc]
    have harith : 3 + (1 + (joinSep ['\n'] (fmLines obj)).length) + 4
        = ((joinSep ['\n'] (fmLines obj)).length + 4) + 1 + 1 + 1 + 1 := by omega
    rw [harith]
    simp only [List.drop_succ_cons]
    rw [List.drop_append 4]
    simp [List.drop]
  rw [htake, hdrop]
  rw [trimS_ws_cons '\n' (by decide), trimS_ws_cons '\n' (by decide)]
  rw [trimS_joined_fmLines]

/-- The key run of a serialized line is exactly the key. -/
lemma key_split (k : Str) (hk : ∀ x ∈ k, isKeyChar x = true) (rest : Str) :
    (k ++ ':' :: rest).takeWhile isKeyChar = k ∧
    (k ++ ':' :: rest).dropWhile isKeyChar = ':' :: rest := by
  induction k with
  | nil =>
    constructor
    · show (':' :: rest).takeWhile isKeyChar = []
      rw [List.takeWhile_cons]
      simp +decide []
    · show (':' :: rest).dropWhile isKeyChar = ':' :: rest
      rw [List.dropWhile_cons]
      simp +decide []
  | cons c r ih =>
    obtain ⟨ht, hd⟩ := ih (fun x hx => hk x (by simp [hx]))
    have hc : isKeyChar c = true := hk c (by simp)
    constructor
    · show ((c :: r) ++ ':' :: rest).takeWhile isKeyChar = c :: r
      rw [List.cons_append, List.takeWhile_cons]
      simp [hc, ht]
    · show ((c :: r) ++ ':' :: rest).dropWhile isKeyChar = ':' :: rest
      rw [List.cons_append, List.dropWhile_cons]
      simp [hc, hd]

/-- The tolerant line parser on a serialized `key: value` line whose
value is free of line terminators. -/
lemma lineKV_keyline (k : Str) (hk : k ≠ []) (hkc : ∀ x ∈ k, isKeyChar x = true) (v : Str)
    (hnt : (v.dropWhile jsWs).any lineTermC = false) :
    lineKV (k ++ ':' :: ' ' :: v) = some (k, v.dropWhile jsWs) := by
  unfold lineKV
  obtain ⟨ht, hd⟩ := key_split k hkc (' ' :: v)
  rw [ht, hd]
  simp only [hk, if_false]
  have hdw : (' ' :: v).dropWhile jsWs = v.dropWhile jsWs := by
    rw [List.dropWhile_cons]
    simp +decide []
  rw [hdw, hnt]
  simp

/-- Leading whitespace never precedes a serialized string value. -/
lemma dropWhile_jsonStr (s : Str) : (jsonStr s).dropWhile jsWs = jsonStr s := by
  unfold jsonStr
  simp only [List.cons_append]
  rw [List.dropWhile_cons]
  simp +decide []

/-- Leading whitespace never precedes a serialized array value. -/
lemma dropWhile_jsonArr (xs : List Str) : (jsonArr xs).dropWhile jsWs = jsonArr xs := by
  unfold jsonArr
  simp only [List.cons_append]
  rw [List.dropWhile_cons]
  simp +decide []

/-- Value parsing on a serialized string value. -/
lemma valParse_jsonStr (s : Str) : valParse (jsonStr s) = .str s := by
  unfold valParse
  rw [jparse_jsonStr]

/-- Value parsing on a serialized array value. -/
lemma valParse_jsonArr (xs : List Str) : valParse (jsonArr xs) = .arr xs := by
  unfold valParse
  rw [jparse_jsonArr]

/-- Running the tolerant line loop over the serialized lines recovers
the record's fields. -/
lemma parseFmLines_fmLines (obj : NRec) (hT : noLineSep obj.title)
    (hL : noLineSep obj.lane) (hS : noLineSep obj.status)
    (hTg : ∀ t ∈ obj.tags, noLineSep t) (hSm : noLineSep obj.summary)
    (hP : ∀ p ∈ obj.publish_targets, noLineSep p) :
    parseFmLines (fmLines obj) = fmEntries obj := by
  have hL2 : noLineSep (if obj.lane = [] then ['A'] else obj.lane) := by
    split_ifs
    · intro c hc
      simp only [List.mem_singleton] at hc
      subst hc
      decide
    · exact hL
  have hS2 : noLineSep (if obj.status = [] then "draft".toList else obj.status) := by
    split_ifs
    · exact (by decide : noLineSep ("draft".toList))
    · exact hS
  have e1 : lineKV ("title: ".toList ++ jsonStr obj.title)
      = some ("title".toList, jsonStr obj.title) := by
    have h := lineKV_keyline ("title".toList) (by decide) (by decide) (jsonStr obj.title)
    rw [dropWhile_jsonStr] at h
    exact h (jsonStr_no_term obj.title hT)
  have e2 : lineKV ("lane: ".toList ++ jsonStr (if obj.lane = [] then ['A'] else obj.lane))
      = some ("lane".toList, jsonStr (if obj.lane = [] then ['A'] else obj.lane)) := by
    have h := lineKV_keyline ("lane".toList) (by decide) (by decide)
      (jsonStr (if obj.lane = [] then ['A'] else obj.lane))
    rw [dropWhile_jsonStr] at h
    exact h (jsonStr_no_term _ hL2)
  have e3 : lineKV ("status: ".toList ++ jsonStr (if obj.status = [] then "draft".toList else obj.status))
      = some ("status".toList, jsonStr (if obj.status = [] then "draft".toList else obj.status)) := by
    have h := lineKV_keyline ("status".toList) (by decide) (by decide)
      (jsonStr (if obj.status = [] then "draft".toList else obj.status))
    rw [dropWhile_jsonStr] at h
    exact h (jsonStr_no_term _ hS2)
  have e4 : lineKV ("tags: ".toList ++ jsonArr obj.tags)
      = some ("tags".toList, jsonArr obj.tags) := by
    have h := lineKV_keyline ("tags".toList) (by decide) (by decide) (jsonArr obj.tags)
    rw [dropWhile_jsonArr] at h
    exact h (jsonArr_no_term obj.tags hTg)
  have e5 : lineKV ("source_refs: []".toList) = some ("source_refs".toList, "[]".toList) := by
    decide
  have e6 : lineKV ("summary: ".toList ++ jsonStr obj.summary)
      = some ("summary".toList, jsonStr obj.summary) := by
    have h := lineKV_keyline ("summary".toList) (by decide) (by decide) (jsonStr obj.summary)
    rw [dropWhile_jsonStr] at h
    exact h (jsonStr_no_term obj.summary hSm)
  have e7 : lineKV ("publish_targets: ".toList ++ jsonArr obj.publish_targets)
      = some ("publish_targets".toList, jsonArr obj.publish_targets) := by
    have h := lineKV_keyline ("publish_targets".toList) (by decide) (by decide)
      (jsonArr obj.publish_targets)
    rw [dropWhile_jsonArr] at h
    exact h (jsonArr_no_term obj.publish_targets hP)
  have e5v : valParse ("[]".toList) = .arr [] := by decide
  unfold parseFmLines fmLines fmEntries
  simp only [List.foldl_cons, List.foldl_nil, e1, e2, e3, e4, e5, e6, e7,
    valParse_jsonStr, valParse_jsonArr, e5v]
  simp

/-- The validator's parser on a serialized record plus body, for a
record whose serialized values carry no line separator. -/
lemma parseFrontmatterV_serialize (obj : NRec) (b : Str) (hT : noLineSep obj.title)
    (hL : noLineSep obj.lane) (hS : noLineSep obj.status)
    (hTg : ∀ t ∈ obj.tags, noLineSep t) (hSm : noLineSep obj.summary)
    (hP : ∀ p ∈ obj.publish_targets, noLineSep p) :
    parseFrontmatterV (toFrontmatter obj ++ b) = (fmEntries obj, trimS b) := by
  unfold parseFrontmatterV
  rw [splitFrontmatter_serialize]
  have hsplit : splitNL (joinSep ['\n'] (fmLines obj)) = fmLines obj := by
    apply splitNL_joinSep _ (by simp [fmLines])
    intro l hl x hx
    have h3 := (fmLines_ok obj l hl).2.2 x hx
    constructor
    · intro hcon
      subst hcon
      exact absurd h3 (by decide)
    · intro hcon
      subst hcon
      exact absurd h3 (by decide)
  show (parseFmLines (splitNL (joinSep ['\n'] (fmLines obj))), trimS b) = _
  rw [hsplit, parseFmLines_fmLines obj hT hL hS hTg hSm hP]

/- ### Claim C2 -/

/-- Looking up each key in the recovered entries. -/
lemma fmGet_fmEntries (obj : NRec) :
    fmGet (fmEntries obj) ("title".toList) = some (.str obj.title) ∧
    fmGet (fmEntries obj) ("lane".toList) = some (.str (if obj.lane = [] then ['A'] else obj.lane)) ∧
    fmGet (fmEntries obj) ("status".toList) = some (.str (if obj.status = [] then "draft".toList else obj.status)) ∧
    fmGet (fmEntries obj) ("tags".toList) = some (.arr obj.tags) ∧
    fmGet (fmEntries obj) ("source_refs".toList) = some (.arr []) ∧
    fmGet (fmEntries obj) ("summary".toList) = some (.str obj.summary) ∧
    fmGet (fmEntries obj) ("publish_targets".toList) = some (.arr obj.publish_targets) := by
  unfold fmGet fmEntries
  refine ⟨?_, ?_, ?_, ?_, ?_, ?_, ?_⟩ <;>
    simp +decide [List.find?]

/-- Schema validity of a record, as the validator checks it: non-empty
bounded title free of markup characters, lane and status in their
closed sets, 1-10 slug tags, non-empty allowed publish targets, and a
non-empty summary of at most 240 characters. -/
def ValidRecord (r : NRec) : Prop :=
  r.title ≠ [] ∧ r.title.length ≤ 80 ∧
  ((splitWsJS r.title).filter (fun w => w ≠ [])).length ≤ 12 ∧
  r.title.any isMk = false ∧
  r.lane ∈ allowedLanes ∧ r.status ∈ allowedStatus ∧
  r.tags ≠ [] ∧ r.tags.length ≤ 10 ∧ (∀ t ∈ r.tags, isSlugTag t = true) ∧
  r.publish_targets ≠ [] ∧ (∀ p ∈ r.publish_targets, p ∈ allowedTargets) ∧
  trimS r.summary ≠ [] ∧ r.summary.length ≤ 240

/-- Allowed lanes are nonempty strings. -/
lemma mem_allowedLanes_ne_nil (l : Str) (h : l ∈ allowedLanes) : l ≠ [] := by
  fin_cases h <;> decide

/-- Allowed status values are nonempty strings. -/
lemma mem_allowedStatus_ne_nil (l : Str) (h : l ∈ allowedStatus) : l ≠ [] := by
  fin_cases h <;> decide

/-- Allowed lanes carry no line separator. -/
lemma mem_allowedLanes_noSep (l : Str) (h : l ∈ allowedLanes) : noLineSep l := by
  fin_cases h <;> decide

/-- Allowed status values carry no line separator. -/
lemma mem_allowedStatus_noSep (l : Str) (h : l ∈ allowedStatus) : noLineSep l := by
  fin_cases h <;> decide

/-- Allowed publish targets carry no line separator. -/
lemma mem_allowedTargets_noSep (l : Str) (h : l ∈ allowedTargets) : noLineSep l := by
  fin_cases h <;> decide

/-- A valid tag slug carries no line separator. -/
lemma isSlugTag_noSep (t : Str) (h : isSlugTag t = true) : noLineSep t := by
  intro c hc
  unfold isSlugTag at h
  simp only [Bool.and_eq_true, decide_eq_true_eq, List.all_eq_true] at h
  have h2 := h.2 c hc
  simp only [decide_eq_true_eq] at h2
  rcases h2 with h3 | h3 | h3
  · exact ⟨by omega, by omega⟩
  · exact ⟨by omega, by omega⟩
  · subst h3
    exact ⟨by decide, by decide⟩

/-- C2 (corrected): serializing a valid record whose `source_refs` is
empty and whose title and summary contain no LINE/PARAGRAPH SEPARATOR,
then re-parsing the metadata block, recovers every field exactly —
title, lane, status, tags, source_refs, summary and publish_targets.
(For records with non-empty `source_refs` the claim fails, because the
serializer hardcodes `source_refs: []`; and for records whose title or
summary contains U+2028 or U+2029 it fails because `JSON.stringify`
emits these characters literally and the validator's line regex then
does not match the serialized line; see the counterexample for both.) -/
theorem frontmatter_roundtrip (r : NRec) (hv : ValidRecord r)
    (hsrc : r.source_refs = []) (hTsep : noLineSep r.title)
    (hSsep : noLineSep r.summary) (b : Str) :
    fmGet (parseFrontmatterV (toFrontmatter r ++ b)).1 ("title".toList) = some (.str r.title) ∧
    fmGet (parseFrontmatterV (toFrontmatter r ++ b)).1 ("lane".toList) = some (.str r.lane) ∧
    fmGet (parseFrontmatterV (toFrontmatter r ++ b)).1 ("status".toList) = some (.str r.status) ∧
    fmGet (parseFrontmatterV (toFrontmatter r ++ b)).1 ("tags".toList) = some (.arr r.tags) ∧
    fmGet (parseFrontmatterV (toFrontmatter r ++ b)).1 ("source_refs".toList) = some (.arr r.source_refs) ∧
    fmGet (parseFrontmatterV (toFrontmatter r ++ b)).1 ("summary".toList) = some (.str r.summary) ∧
    fmGet (parseFrontmatterV (toFrontmatter r ++ b)).1 ("publish_targets".toList) = some (.arr r.publish_targets) := by
  have hlane : r.lane ≠ [] := mem_allowedLanes_ne_nil _ hv.2.2.2.2.1
  have hstatus : r.status ≠ [] := mem_allowedStatus_ne_nil _ hv.2.2.2.2.2.1
  rw [parseFrontmatterV_serialize r b hTsep
    (mem_allowedLanes_noSep _ hv.2.2.2.2.1)
    (mem_allowedStatus_noSep _ hv.2.2.2.2.2.1)
    (fun t ht => isSlugTag_noSep t (hv.2.2.2.2.2.2.2.2.1 t ht))
    hSsep
    (fun p hp => mem_allowedTargets_noSep p (hv.2.2.2.2.2.2.2.2.2.2.1 p hp))]
  obtain ⟨g1, g2, g3, g4, g5, g6, g7⟩ := fmGet_fmEntries r
  rw [if_neg hlane] at g2
  rw [if_neg hstatus] at g3
  rw [← hsrc] at g5
  exact ⟨g1, g2, g3, g4, g5, g6, g7⟩

/-- A schema-valid record carrying a non-empty `source_refs`. -/
def c2rec : NRec :=
  { title := "Valid Title".toList, lane := ['A'], status := "draft".toList,
    tags := ["alpha".toList, "beta".toList, "gamma".toList],
    source_refs := ["note.md".toList], summary := "a short summary".toList,
    publish_targets := ["github".toList], content := none }

/-- A valid record with empty `source_refs` whose summary contains the
LINE SEPARATOR U+2028 (valid: the separator is whitespace, not a
markup character, and the trimmed summary stays nonempty). -/
def c2sep : NRec :=
  { title := "Valid Title".toList, lane := ['A'], status := "draft".toList,
    tags := ["alpha".toList, "beta".toList, "gamma".toList],
    source_refs := [], summary := 'a' :: Char.ofNat 8232 :: 'b' :: [],
    publish_targets := ["github".toList], content := none }

/-- C2 counterexample, in both directions the original claim fails:
for the valid record `c2rec`, whose `source_refs` is `["note.md"]`,
the round trip returns `source_refs` as the empty array — the
serializer hardcodes `source_refs: []`; and for the valid record
`c2sep`, whose summary contains U+2028, the summary line is emitted
with the raw separator, the validator's line regex does not match it,
and the summary key is missing from the re-parsed record. -/
theorem frontmatter_roundtrip_counterexample :
    (ValidRecord c2rec ∧
      fmGet (parseFrontmatterV (toFrontmatter c2rec ++ ("body".toList))).1 ("source_refs".toList)
        ≠ some (.arr c2rec.source_refs)) ∧
    (ValidRecord c2sep ∧ c2sep.source_refs = [] ∧
      fmGet (parseFrontmatterV (toFrontmatter c2sep ++ ("body".toList))).1 ("summary".toList)
        = none) := by
  constructor
  · constructor
    · unfold ValidRecord
      refine ⟨?_, ?_, ?_, ?_, ?_, ?_, ?_, ?_, ?_, ?_, ?_, ?_, ?_⟩ <;> decide
    · rw [parseFrontmatterV_serialize c2rec _ (by decide) (by decide) (by decide)
        (by decide) (by decide) (by decide)]
      have h5 := (fmGet_fmEntries c2rec).2.2.2.2.1
      rw [h5]
      decide
  · refine ⟨?_, rfl, ?_⟩
    · unfold ValidRecord
      refine ⟨?_, ?_, ?_, ?_, ?_, ?_, ?_, ?_, ?_, ?_, ?_, ?_, ?_⟩ <;> decide
    · decide

/-- A schema-valid record with empty `source_refs`, used to instantiate
the round-trip theorem. -/
def c2good : NRec :=
  { title := "Valid Title".toList, lane := ['B'], status := "draft".toList,
    tags := ["alpha".toList, "beta".toList, "gamma".toList],
    source_refs := [], summary := "a short summary".toList,
    publish_targets := ["github".toList], content := none }

/-- Concrete instance of the round-trip theorem. -/
theorem frontmatter_roundtrip_witness :
    fmGet (parseFrontmatterV (toFrontmatter c2good ++ ("body".toList))).1 ("lane".toList)
      = some (.str c2good.lane) :=
  (frontmatter_roundtrip c2good
    (by unfold ValidRecord; refine ⟨?_, ?_, ?_, ?_, ?_, ?_, ?_, ?_, ?_, ?_, ?_, ?_, ?_⟩ <;> decide)
    rfl (by decide) (by decide) ("body".toList)).2.1

/- ### Character class facts -/

/-- Characters are determined by their code points. -/
lemma char_eq_of_toNat (a b : Char) (h : a.toNat = b.toNat) : a = b :=
  Char.ext (UInt32.ext h)

/-- Character equality at the code-point level. -/
lemma char_eq_iff_toNat (c d : Char) : c = d ↔ c.toNat = d.toNat :=
  ⟨congrArg _, char_eq_of_toNat c d⟩

/-- Whitespace at the code-point level. -/
lemma jsWs_mem_iff (c : Char) : jsWs c = true ↔ c.toNat ∈ jsWsNat := by
  unfold jsWs
  simp

/-- Code point of an uppercased character. -/
lemma upChar_toNat (c : Char) :
    (upChar c).toNat = if 97 ≤ c.toNat ∧ c.toNat ≤ 122 then c.toNat - 32 else c.toNat := by
  unfold upChar
  split
  · rename_i h
    exact toNat_ofNat_lt _ (by omega)
  · rfl

/-- Code point of a lowercased character. -/
lemma lowChar_toNat (c : Char) :
    (lowChar c).toNat = if 65 ≤ c.toNat ∧ c.toNat ≤ 90 then c.toNat + 32 else c.toNat := by
  unfold lowChar
  split
  · rename_i h
    exact toNat_ofNat_lt _ (by omega)
  · rfl

/-- Uppercasing does not change whitespace-ness. -/
lemma jsWs_upChar (c : Char) : jsWs (upChar c) = jsWs c := by
  rw [Bool.eq_iff_iff, jsWs_mem_iff, jsWs_mem_iff]
  have h := upChar_toNat c
  by_cases hr : 97 ≤ c.toNat ∧ c.toNat ≤ 122
  · rw [if_pos hr] at h
    simp only [jsWsNat, List.mem_cons, List.not_mem_nil, or_false, h]
    omega
  · rw [if_neg hr] at h
    rw [h]

/-- Uppercasing does not change markup-marker-ness. -/
lemma isMk_mem_iff (c : Char) : isMk c = true ↔
    (c.toNat = 96 ∨ c.toNat = 42 ∨ c.toNat = 95 ∨ c.toNat = 91 ∨
     c.toNat = 93 ∨ c.toNat = 60 ∨ c.toNat = 62) := by
  unfold isMk mkChars backtickC
  simp only [List.mem_cons, List.not_mem_nil, or_false, decide_eq_true_eq]
  rw [char_eq_iff_toNat, char_eq_iff_toNat, char_eq_iff_toNat, char_eq_iff_toNat,
    char_eq_iff_toNat, char_eq_iff_toNat, char_eq_iff_toNat]
  have h96 : (Char.ofNat 96).toNat = 96 := by decide
  have e1 : ('*').toNat = 42 := by decide
  have e2 : ('_').toNat = 95 := by decide
  have e3 : ('[').toNat = 91 := by decide
  have e4 : (']').toNat = 93 := by decide
  have e5 : ('<').toNat = 60 := by decide
  have e6 : ('>').toNat = 62 := by decide
  rw [h96, e1, e2, e3, e4, e5, e6]

/-- Uppercasing does not create or destroy markup markers. -/
lemma isMk_upChar (c : Char) : isMk (upChar c) = isMk c := by
  rw [Bool.eq_iff_iff, isMk_mem_iff, isMk_mem_iff]
  have h := upChar_toNat c
  by_cases hr : 97 ≤ c.toNat ∧ c.toNat ≤ 122
  · rw [if_pos hr] at h
    rw [h]
    omega
  · rw [if_neg hr] at h
    rw [h]

/-- Uppercasing does not change word-character-ness. -/
lemma wordChar_upChar (c : Char) : wordChar (upChar c) = wordChar c := by
  unfold wordChar
  rw [Bool.eq_iff_iff]
  simp only [decide_eq_true_eq]
  have h := upChar_toNat c
  by_cases hr : 97 ≤ c.toNat ∧ c.toNat ≤ 122
  · rw [if_pos hr] at h
    rw [h]
    omega
  · rw [if_neg hr] at h
    rw [h]

/-- Uppercasing is idempotent. -/
lemma upChar_idem (c : Char) : upChar (upChar c) = upChar c := by
  apply char_eq_of_toNat
  have h1 := upChar_toNat c
  have h2 := upChar_toNat (upChar c)
  by_cases hr : 97 ≤ c.toNat ∧ c.toNat ≤ 122
  · rw [if_pos hr] at h1
    rw [h2, h1]
    have hout : ¬ (97 ≤ c.toNat - 32 ∧ c.toNat - 32 ≤ 122) := by omega
    rw [if_neg hout]
  · rw [if_neg hr] at h1
    rw [h2, h1, if_neg hr]

/-- Uppercasing maps only the space character to a space. -/
lemma upChar_eq_space_iff (c : Char) : upChar c = ' ' ↔ c = ' ' := by
  rw [char_eq_iff_toNat, char_eq_iff_toNat]
  have h := upChar_toNat c
  have hs : (' ' : Char).toNat = 32 := by decide
  rw [hs]
  by_cases hr : 97 ≤ c.toNat ∧ c.toNat ≤ 122
  · rw [if_pos hr] at h
    rw [h]
    omega
  · rw [if_neg hr] at h
    rw [h]

/-- Lowercasing is idempotent. -/
lemma lowChar_idem (c : Char) : lowChar (lowChar c) = lowChar c := by
  apply char_eq_of_toNat
  have h1 := lowChar_toNat c
  have h2 := lowChar_toNat (lowChar c)
  by_cases hr : 65 ≤ c.toNat ∧ c.toNat ≤ 90
  · rw [if_pos hr] at h1
    rw [h2, h1]
    have hout : ¬ (65 ≤ c.toNat + 32 ∧ c.toNat + 32 ≤ 90) := by omega
    rw [if_neg hout]
  · rw [if_neg hr] at h1
    rw [h2, h1, if_neg hr]

/- ### Title-case structure -/

/-- One-step equation for the title-case machine on a cons cell. -/
lemma tcAux_cons (b : Bool) (c : Char) (r : Str) :
    tcAux b (c :: r) =
      if jsWs c = true then c :: tcAux false r
      else if b = true then c :: tcAux true r
      else if wordChar c = true then upChar c :: tcAux true r
      else c :: tcAux false r := rfl


/-- Pointwise action of the title-case machine: every character is
kept in place or uppercased in place. -/
lemma tcAux_forall2 : ∀ (s : Str) (b : Bool),
    List.Forall₂ (fun a b2 => b2 = a ∨ b2 = upChar a) s (tcAux b s)
  | [], _ => List.Forall₂.nil
  | c :: r, b => by
    rw [tcAux_cons]
    split_ifs with h1 h2 h3
    · exact List.Forall₂.cons (Or.inl rfl) (tcAux_forall2 r false)
    · exact List.Forall₂.cons (Or.inl rfl) (tcAux_forall2 r true)
    · exact List.Forall₂.cons (Or.inr rfl) (tcAux_forall2 r true)
    · exact List.Forall₂.cons (Or.inl rfl) (tcAux_forall2 r false)

/-- Character provenance through the title-case machine. -/
lemma tcAux_mem : ∀ (s : Str) (b : Bool) (x : Char), x ∈ tcAux b s →
    ∃ a ∈ s, x = a ∨ x = upChar a
  | [], _, x, hx => by cases hx
  | c :: r, b, x, hx => by
    rw [tcAux_cons] at hx
    split_ifs at hx with h1 h2 h3 <;>
      rcases List.mem_cons.mp hx with h | hx2
    · exact ⟨c, by simp, Or.inl h⟩
    · obtain ⟨a, ha, hor⟩ := tcAux_mem r false x hx2
      exact ⟨a, by simp [ha], hor⟩
    · exact ⟨c, by simp, Or.inl h⟩
    · obtain ⟨a, ha, hor⟩ := tcAux_mem r true x hx2
      exact ⟨a, by simp [ha], hor⟩
    · exact ⟨c, by simp, Or.inr h⟩
    · obtain ⟨a, ha, hor⟩ := tcAux_mem r true x hx2
      exact ⟨a, by simp [ha], hor⟩
    · exact ⟨c, by simp, Or.inl h⟩
    · obtain ⟨a, ha, hor⟩ := tcAux_mem r false x hx2
      exact ⟨a, by simp [ha], hor⟩

/-- The whitespace- and space-mask relation preserved by title casing. -/
def wsEqR (a b2 : Char) : Prop := jsWs b2 = jsWs a ∧ (b2 = ' ' ↔ a = ' ')

/-- Title casing preserves the whitespace and space masks, pointwise. -/
lemma tcAux_wsEq (s : Str) (b : Bool) :
    List.Forall₂ wsEqR s (tcAux b s) := by
  refine (tcAux_forall2 s b).imp ?_
  intro a b2 h
  rcases h with rfl | rfl
  · exact ⟨rfl, Iff.rfl⟩
  · exact ⟨jsWs_upChar a, upChar_eq_space_iff a⟩

/-- Title casing is idempotent, also on any truncation of its output. -/
lemma tcAux_take_idem : ∀ (s : Str) (b : Bool) (n : Nat),
    tcAux b ((tcAux b s).take n) = (tcAux b s).take n
  | [], b, n => by simp [tcAux]
  | c :: r, b, n => by
    cases n with
    | zero => simp [tcAux]
    | succ m =>
      rw [tcAux_cons]
      split_ifs with h1 h2 h3
      · rw [List.take_succ_cons]
        rw [tcAux_cons]
        rw [if_pos h1, tcAux_take_idem r false m]
      · rw [List.take_succ_cons]
        rw [tcAux_cons]
        rw [if_neg h1, if_pos h2, tcAux_take_idem r true m]
      · rw [List.take_succ_cons]
        rw [tcAux_cons]
        have hws : ¬ jsWs (upChar c) = true := by
          rw [jsWs_upChar]; simpa using h1
        have hwc : wordChar (upChar c) = true := by
          rw [wordChar_upChar]; exact h3
        rw [if_neg hws, if_neg h2, if_pos hwc, upChar_idem,
          tcAux_take_idem r true m]
      · rw [List.take_succ_cons]
        rw [tcAux_cons]
        rw [if_neg h1, if_neg h2, if_neg h3, tcAux_take_idem r false m]

/- ### Token structure of the whitespace splitter -/

/-- The head-cons helper never returns the empty token list. -/
lemma consHead_ne_nil (c : Char) (l : List Str) : consHead c l ≠ [] := by
  cases l <;> simp [consHead]

/-- One-step equation for the splitter in skipping state. -/
lemma swAux_true_cons (c : Char) (r : Str) :
    swAux true (c :: r) =
      if jsWs c = true then swAux true r else consHead c (swAux false r) := rfl

/-- One-step equation for the splitter in collecting state. -/
lemma swAux_false_cons (c : Char) (r : Str) :
    swAux false (c :: r) =
      if jsWs c = true then [] :: swAux true r else consHead c (swAux false r) := rfl

/-- The whitespace splitter never returns the empty token list. -/
lemma swAux_ne_nil : ∀ (b : Bool) (s : Str), swAux b s ≠ []
  | b, [] => by cases b <;> simp [swAux]
  | true, c :: r => by
    rw [swAux_true_cons]
    split_ifs
    · exact swAux_ne_nil true r
    · exact consHead_ne_nil c _
  | false, c :: r => by
    rw [swAux_false_cons]
    split_ifs
    · simp
    · exact consHead_ne_nil c _

/-- Membership in the head-cons helper, by cases on the token list. -/
lemma consHead_cases (c : Char) (l : List Str) (t : Str) (ht : t ∈ consHead c l) :
    (l = [] ∧ t = [c]) ∨ (∃ t0 ts, l = t0 :: ts ∧ (t = c :: t0 ∨ t ∈ ts)) := by
  cases l with
  | nil =>
    left
    exact ⟨rfl, by simpa [consHead] using ht⟩
  | cons t0 ts =>
    right
    refine ⟨t0, ts, rfl, ?_⟩
    simpa [consHead] using ht

/-- Every character of every token produced by the whitespace splitter
comes from the input and is not whitespace. -/
lemma swAux_token_chars : ∀ (s : Str) (b : Bool) (t : Str), t ∈ swAux b s →
    ∀ c ∈ t, c ∈ s ∧ jsWs c = false
  | [], b, t, ht => by
    have hte : t = [] := by cases b <;> simpa [swAux] using ht
    subst hte
    intro c hc
    cases hc
  | c :: r, true, t, ht => by
    rw [swAux_true_cons] at ht
    by_cases hc : jsWs c = true
    · rw [if_pos hc] at ht
      intro x hx
      obtain ⟨hmem, hws⟩ := swAux_token_chars r true t ht x hx
      exact ⟨List.mem_cons_of_mem _ hmem, hws⟩
    · rw [if_neg hc] at ht
      intro x hx
      rcases consHead_cases c _ t ht with ⟨_, rfl⟩ | ⟨t0, ts, hl, hor⟩
      · rcases List.mem_singleton.mp hx with rfl
        exact ⟨List.mem_cons_self _ _, by simpa using hc⟩
      · rcases hor with rfl | hts
        · rcases List.mem_cons.mp hx with rfl | hx2
          · exact ⟨List.mem_cons_self _ _, by simpa using hc⟩
          · have ht0 : t0 ∈ swAux false r := by rw [hl]; exact List.mem_cons_self _ _
            obtain ⟨hmem, hws⟩ := swAux_token_chars r false t0 ht0 x hx2
            exact ⟨List.mem_cons_of_mem _ hmem, hws⟩
        · have htm : t ∈ swAux false r := by rw [hl]; exact List.mem_cons_of_mem _ hts
          obtain ⟨hmem, hws⟩ := swAux_token_chars r false t htm x hx
          exact ⟨List.mem_cons_of_mem _ hmem, hws⟩
  | c :: r, false, t, ht => by
    rw [swAux_false_cons] at ht
    by_cases hc : jsWs c = true
    · rw [if_pos hc] at ht
      rcases List.mem_cons.mp ht with rfl | ht2
      · intro x hx; cases hx
      · intro x hx
        obtain ⟨hmem, hws⟩ := swAux_token_chars r true t ht2 x hx
        exact ⟨List.mem_cons_of_mem _ hmem, hws⟩
    · rw [if_neg hc] at ht
      intro x hx
      rcases consHead_cases c _ t ht with ⟨_, rfl⟩ | ⟨t0, ts, hl, hor⟩
      · rcases List.mem_singleton.mp hx with rfl
        exact ⟨List.mem_cons_self _ _, by simpa using hc⟩
      · rcases hor with rfl | hts
        · rcases List.mem_cons.mp hx with rfl | hx2
          · exact ⟨List.mem_cons_self _ _, by simpa using hc⟩
          · have ht0 : t0 ∈ swAux false r := by rw [hl]; exact List.mem_cons_self _ _
            obtain ⟨hmem, hws⟩ := swAux_token_chars r false t0 ht0 x hx2
            exact ⟨List.mem_cons_of_mem _ hmem, hws⟩
        · have htm : t ∈ swAux false r := by rw [hl]; exact List.mem_cons_of_mem _ hts
          obtain ⟨hmem, hws⟩ := swAux_token_chars r false t htm x hx
          exact ⟨List.mem_cons_of_mem _ hmem, hws⟩

/-- Every token except the last is nonempty. -/
def tailOKB : List Str → Bool
  | [] => true
  | [_] => true
  | t :: u :: r => decide (t ≠ []) && tailOKB (u :: r)

/-- Every token except the first and the last is nonempty. -/
def midOKB : List Str → Bool
  | [] => true
  | _ :: ts => tailOKB ts

/-- The first token is nonempty or is the only token. -/
def firstOKB : List Str → Bool
  | [] => false
  | [_] => true
  | t :: _ :: _ => decide (t ≠ [])

/-- Interior shape is preserved by extending the head token. -/
lemma midOKB_consHead (c : Char) (l : List Str) (h : midOKB l = true) :
    midOKB (consHead c l) = true := by
  cases l with
  | nil => simp [consHead, midOKB, tailOKB]
  | cons t ts => simpa [consHead, midOKB] using h

/-- The head-cons helper always yields a nonempty first token. -/
lemma firstOKB_consHead (c : Char) (l : List Str) :
    firstOKB (consHead c l) = true := by
  cases l with
  | nil => simp [consHead, firstOKB]
  | cons t ts =>
    cases ts with
    | nil => simp [consHead, firstOKB]
    | cons u r => simp [consHead, firstOKB]

/-- A good first token upgrades the interior shape to the tail shape. -/
lemma tailOKB_of_first_mid (l : List Str) (hf : firstOKB l = true)
    (hm : midOKB l = true) : tailOKB l = true := by
  cases l with
  | nil => cases hf
  | cons t ts =>
    cases ts with
    | nil => simp [tailOKB]
    | cons u r =>
      simp only [firstOKB, decide_eq_true_eq] at hf
      simp only [midOKB] at hm
      simp [tailOKB, hf, hm]

/-- Splitter invariant: interior tokens are nonempty, and in skipping
state the first token is nonempty or unique. -/
lemma swAux_shape : ∀ (s : Str),
    midOKB (swAux false s) = true ∧ midOKB (swAux true s) = true ∧
      firstOKB (swAux true s) = true
  | [] => by refine ⟨?_, ?_, ?_⟩ <;> simp [swAux, midOKB, tailOKB, firstOKB]
  | c :: r => by
    obtain ⟨ihf, iht, ihfst⟩ := swAux_shape r
    by_cases hc : jsWs c = true
    · refine ⟨?_, ?_, ?_⟩
      · rw [swAux_false_cons, if_pos hc]
        show tailOKB (swAux true r) = true
        exact tailOKB_of_first_mid _ ihfst iht
      · rw [swAux_true_cons, if_pos hc]; exact iht
      · rw [swAux_true_cons, if_pos hc]; exact ihfst
    · refine ⟨?_, ?_, ?_⟩
      · rw [swAux_false_cons, if_neg hc]; exact midOKB_consHead c _ ihf
      · rw [swAux_true_cons, if_neg hc]; exact midOKB_consHead c _ ihf
      · rw [swAux_true_cons, if_neg hc]; exact firstOKB_consHead c _

/-- Taking a prefix of the token list preserves the tail shape. -/
lemma tailOKB_take : ∀ (l : List Str) (n : Nat), tailOKB l = true →
    tailOKB (l.take n) = true
  | [], n, _ => by simp [tailOKB]
  | [t], n, _ => by cases n <;> simp [tailOKB]
  | t :: u :: r, 0, _ => by simp [tailOKB]
  | t :: u :: r, n + 1, h => by
    simp only [tailOKB, Bool.and_eq_true, decide_eq_true_eq] at h
    rw [List.take_succ_cons]
    cases n with
    | zero => simp [tailOKB]
    | succ m =>
      rw [List.take_succ_cons]
      have := tailOKB_take (u :: r) (m + 1) h.2
      rw [List.take_succ_cons] at this
      simp [tailOKB, h.1, this]

/-- Taking a prefix of the token list preserves the interior shape. -/
lemma midOKB_take (l : List Str) (n : Nat) (h : midOKB l = true) :
    midOKB (l.take n) = true := by
  cases l with
  | nil => simp [midOKB]
  | cons t ts =>
    cases n with
    | zero => simp [midOKB]
    | succ m =>
      rw [List.take_succ_cons]
      exact tailOKB_take ts m h

/-- Splitting a whitespace-free string yields that single token. -/
lemma swAux_wsFree_single : ∀ (t : Str), (∀ c ∈ t, jsWs c = false) →
    swAux false t = [t]
  | [], _ => rfl
  | c :: r, h => by
    have hc : jsWs c = false := h c (List.mem_cons_self _ _)
    rw [swAux_false_cons, if_neg (by simp [hc]),
      swAux_wsFree_single r (fun x hx => h x (List.mem_cons_of_mem _ hx))]
    rfl

/-- Splitting a whitespace-free token followed by a space: the token is
closed and the splitter continues in skipping state. -/
lemma swAux_wsFree_sep : ∀ (t w : Str), (∀ c ∈ t, jsWs c = false) →
    swAux false (t ++ ' ' :: w) = t :: swAux true w
  | [], w, _ => by
    rw [List.nil_append, swAux_false_cons, if_pos (by decide)]
  | c :: r, w, h => by
    have hc : jsWs c = false := h c (List.mem_cons_self _ _)
    rw [List.cons_append, swAux_false_cons, if_neg (by simp [hc]),
      swAux_wsFree_sep r w (fun x hx => h x (List.mem_cons_of_mem _ hx))]
    rfl

/-- On a string with a non-whitespace head the two splitter states
agree. -/
lemma swAux_true_cons_nonws (d : Char) (v : Str) (hd : jsWs d = false) :
    swAux true (d :: v) = swAux false (d :: v) := by
  rw [swAux_true_cons, swAux_false_cons, if_neg (by simp [hd]), if_neg (by simp [hd])]

/-- Splitting a space-join of well-shaped whitespace-free tokens
recovers exactly those tokens. -/
lemma splitWs_joinSep : ∀ (ts : List Str), ts ≠ [] →
    (∀ t ∈ ts, ∀ c ∈ t, jsWs c = false) → midOKB ts = true →
    swAux false (joinSep [' '] ts) = ts
  | [], hne, _, _ => absurd rfl hne
  | [t], _, hfree, _ => by
    show swAux false (joinSep [' '] [t]) = [t]
    have : joinSep [' '] [t] = t := rfl
    rw [this]
    exact swAux_wsFree_single t (hfree t (List.mem_cons_self _ _))
  | t :: u :: rest, _, hfree, hmid => by
    have hjoin : joinSep [' '] (t :: u :: rest) = t ++ ' ' :: joinSep [' '] (u :: rest) := by
      show t ++ [' '] ++ joinSep [' '] (u :: rest) = _
      simp
    rw [hjoin, swAux_wsFree_sep t _ (hfree t (List.mem_cons_self _ _))]
    cases u with
    | nil =>
      have hrest : rest = [] := by
        cases rest with
        | nil => rfl
        | cons v r2 => simp [midOKB, tailOKB] at hmid
      subst hrest
      rfl
    | cons d u2 =>
      have hd : jsWs d = false :=
        hfree (d :: u2) (List.mem_cons_of_mem _ (List.mem_cons_self _ _)) d
          (List.mem_cons_self _ _)
      obtain ⟨w, hw⟩ := joinSep_cons_decomp [' '] (d :: u2) rest
      have hw2 : joinSep [' '] ((d :: u2) :: rest) = d :: (u2 ++ w) := by
        rw [hw]; rfl
      have hsub : swAux false (joinSep [' '] ((d :: u2) :: rest)) = (d :: u2) :: rest := by
        refine splitWs_joinSep ((d :: u2) :: rest) (by simp) ?_ ?_
        · intro x hx c hc
          exact hfree x (List.mem_cons_of_mem _ hx) c hc
        · show tailOKB rest = true
          simp only [midOKB] at hmid
          cases rest with
          | nil => rfl
          | cons v r2 =>
            simp only [tailOKB, Bool.and_eq_true] at hmid
            exact hmid.2
      rw [hw2, swAux_true_cons_nonws d _ hd, ← hw2, hsub]

/-- Single-space shape: every whitespace character is a plain space and
no two whitespace characters are adjacent. -/
def singleSpB : Str → Bool
  | [] => true
  | [c] => !jsWs c || decide (c = ' ')
  | c1 :: c2 :: r =>
    (!jsWs c1 || (decide (c1 = ' ') && !jsWs c2)) && singleSpB (c2 :: r)

/-- The single-space shape passes to the tail. -/
lemma singleSpB_tail (c : Char) (v : Str) (h : singleSpB (c :: v) = true) :
    singleSpB v = true := by
  cases v with
  | nil => rfl
  | cons d r =>
    simp only [singleSpB, Bool.and_eq_true] at h
    exact h.2

/-- In a single-space string, a whitespace head is a plain space and is
followed by nothing or by a non-whitespace character. -/
lemma singleSpB_ws_head (c : Char) (v : Str) (h : singleSpB (c :: v) = true)
    (hc : jsWs c = true) :
    c = ' ' ∧ (v = [] ∨ ∃ d v2, v = d :: v2 ∧ jsWs d = false) := by
  cases v with
  | nil =>
    simp only [singleSpB, hc, Bool.not_true, Bool.false_or,
      decide_eq_true_eq] at h
    exact ⟨h, Or.inl rfl⟩
  | cons d r =>
    simp only [singleSpB, hc, Bool.not_true, Bool.false_or, Bool.and_eq_true,
      decide_eq_true_eq] at h
    refine ⟨h.1.1, Or.inr ⟨d, r, rfl, ?_⟩⟩
    have := h.1.2
    cases hws : jsWs d
    · rfl
    · rw [hws] at this; cases this

/-- The double-whitespace collapse is the identity on single-space
strings. -/
lemma c2_id : ∀ (u : Str), singleSpB u = true → c2Aux .norm u = u
  | [], _ => rfl
  | [c], _ => by
    by_cases hc : jsWs c = true
    · show (if jsWs c = true then c2Aux (.one c) [] else c :: c2Aux .norm []) = [c]
      rw [if_pos hc]
      rfl
    · show (if jsWs c = true then c2Aux (.one c) [] else c :: c2Aux .norm []) = [c]
      rw [if_neg hc]
      rfl
  | c :: d :: r, h => by
    have htail : singleSpB (d :: r) = true := singleSpB_tail c _ h
    have htail2 : singleSpB r = true := singleSpB_tail d _ htail
    by_cases hc : jsWs c = true
    · have hd : jsWs d = false := by
        obtain ⟨-, hv⟩ := singleSpB_ws_head c _ h hc
        rcases hv with hnil | ⟨d2, v2, hdv, hd0⟩
        · exact absurd hnil (by simp)
        · cases hdv; exact hd0
      show (if jsWs c = true then c2Aux (.one c) (d :: r) else c :: c2Aux .norm (d :: r)) = c :: d :: r
      rw [if_pos hc]
      show (if jsWs d = true then ' ' :: c2Aux .run r else c :: d :: c2Aux .norm r) = c :: d :: r
      rw [if_neg (by simp [hd]), c2_id r htail2]
    · show (if jsWs c = true then c2Aux (.one c) (d :: r) else c :: c2Aux .norm (d :: r)) = c :: d :: r
      rw [if_neg hc, c2_id (d :: r) htail]

/-- Joining after an empty head token prepends a single space. -/
lemma joinSep_nil_cons (l : List Str) (hl : l ≠ []) :
    joinSep [' '] ([] :: l) = ' ' :: joinSep [' '] l := by
  cases l with
  | nil => exact absurd rfl hl
  | cons t ts =>
    show [] ++ [' '] ++ joinSep [' '] (t :: ts) = _
    simp

/-- Joining after extending the head token prepends that character. -/
lemma joinSep_consHead (sep : Str) (c : Char) (l : List Str) (hl : l ≠ []) :
    joinSep sep (consHead c l) = c :: joinSep sep l := by
  cases l with
  | nil => exact absurd rfl hl
  | cons t ts =>
    cases ts with
    | nil => rfl
    | cons u r =>
      show (c :: t) ++ sep ++ joinSep sep (u :: r) = _
      simp [joinSep]

/-- Splitting a single-space string and re-joining with spaces is the
identity. -/
lemma joinSep_splitWs_id : ∀ (u : Str), singleSpB u = true →
    joinSep [' '] (swAux false u) = u
  | [], _ => rfl
  | c :: v, h => by
    by_cases hc : jsWs c = true
    · obtain ⟨hcsp, hv⟩ := singleSpB_ws_head c v h hc
      rw [swAux_false_cons, if_pos hc]
      rcases hv with rfl | ⟨d, v2, rfl, hd⟩
      · show joinSep [' '] [[], []] = [c]
        rw [hcsp]
        rfl
      · rw [joinSep_nil_cons _ (swAux_ne_nil true _),
          swAux_true_cons_nonws d v2 hd,
          joinSep_splitWs_id (d :: v2) (singleSpB_tail c _ h), hcsp]
    · rw [swAux_false_cons, if_neg hc,
        joinSep_consHead [' '] c _ (swAux_ne_nil false v),
        joinSep_splitWs_id v (singleSpB_tail c _ h)]

/-- A whitespace-free prefix does not affect the single-space shape. -/
lemma singleSpB_wsFree_append : ∀ (t u : Str), (∀ c ∈ t, jsWs c = false) →
    singleSpB (t ++ u) = singleSpB u
  | [], _, _ => rfl
  | c :: t2, u, h => by
    have hc : jsWs c = false := h c (List.mem_cons_self _ _)
    have ih := singleSpB_wsFree_append t2 u
      (fun x hx => h x (List.mem_cons_of_mem _ hx))
    rw [List.cons_append]
    cases hcase : t2 ++ u with
    | nil =>
      have hu : u = [] := (List.append_eq_nil.mp hcase).2
      rw [hu]
      simp [singleSpB, hc]
    | cons d w =>
      show ((!jsWs c || (decide (c = ' ') && !jsWs d)) && singleSpB (d :: w))
          = singleSpB u
      rw [hc]
      simp only [Bool.not_false, Bool.true_or, Bool.true_and]
      rw [← hcase]
      exact ih

/-- The interior shape passes to the tail of the token list. -/
lemma midOKB_of_cons (t : Str) (ts : List Str) (h : midOKB (t :: ts) = true) :
    midOKB ts = true := by
  cases ts with
  | nil => rfl
  | cons u r =>
    show tailOKB r = true
    cases r with
    | nil => rfl
    | cons v r2 =>
      simp only [midOKB, tailOKB, Bool.and_eq_true] at h
      exact h.2

/-- Joining well-shaped whitespace-free tokens with single spaces
produces a single-space string. -/
lemma singleSpB_joinSep : ∀ (ts : List Str),
    (∀ t ∈ ts, ∀ c ∈ t, jsWs c = false) → midOKB ts = true →
    singleSpB (joinSep [' '] ts) = true
  | [], _, _ => rfl
  | [t], hfree, _ => by
    show singleSpB (joinSep [' '] [t]) = true
    have hj : joinSep [' '] [t] = t ++ [] := by simp [joinSep]
    rw [hj, singleSpB_wsFree_append t [] (hfree t (List.mem_cons_self _ _))]
    rfl
  | t :: u :: rest, hfree, hmid => by
    have hjoin : joinSep [' '] (t :: u :: rest) =
        t ++ ' ' :: joinSep [' '] (u :: rest) := by
      show t ++ [' '] ++ joinSep [' '] (u :: rest) = _
      simp
    rw [hjoin, singleSpB_wsFree_append t _ (hfree t (List.mem_cons_self _ _))]
    have hrec : singleSpB (joinSep [' '] (u :: rest)) = true :=
      singleSpB_joinSep (u :: rest)
        (fun x hx => hfree x (List.mem_cons_of_mem _ hx))
        (midOKB_of_cons t _ hmid)
    cases hj : joinSep [' '] (u :: rest) with
    | nil => decide
    | cons d w =>
      have hd : jsWs d = false := by
        cases u with
        | nil =>
          cases rest with
          | nil => rw [show joinSep [' '] [([] : Str)] = [] from rfl] at hj; cases hj
          | cons v r2 => simp [midOKB, tailOKB] at hmid
        | cons e u2 =>
          obtain ⟨w2, hw2⟩ := joinSep_cons_decomp [' '] (e :: u2) rest
          rw [hw2] at hj
          have he : e = d := by
            have hh := congrArg (fun l => l.head?) hj
            simpa using hh
          rw [← he]
          exact hfree (e :: u2) (by simp) e (List.mem_cons_self _ _)
      rw [hj] at hrec
      show ((!jsWs ' ' || (decide (' ' = ' ') && !jsWs d)) && singleSpB (d :: w)) = true
      rw [hd, hrec]
      simp

/-- The single-space shape only depends on the whitespace and space
masks. -/
lemma singleSpB_rel : ∀ {s t : Str}, List.Forall₂ wsEqR s t →
    singleSpB t = singleSpB s := by
  intro s t h
  induction h with
  | nil => rfl
  | @cons a b2 s2 t2 h1 h2 ih =>
    cases h2 with
    | nil =>
      show (!jsWs b2 || decide (b2 = ' ')) = (!jsWs a || decide (a = ' '))
      rw [h1.1, decide_eq_decide.mpr h1.2]
    | @cons a2 b3 s3 t3 h3 h4 =>
      show ((!jsWs b2 || (decide (b2 = ' ') && !jsWs b3)) && singleSpB (b3 :: t3))
          = ((!jsWs a || (decide (a = ' ') && !jsWs a2)) && singleSpB (a2 :: s3))
      rw [h1.1, decide_eq_decide.mpr h1.2, h3.1, ih]

/-- The single-space shape is preserved by truncation. -/
lemma singleSpB_take : ∀ (s : Str) (n : Nat), singleSpB s = true →
    singleSpB (s.take n) = true
  | [], n, _ => by simp [singleSpB]
  | [c], n, h => by
    cases n with
    | zero => rfl
    | succ m => simpa using h
  | c1 :: c2 :: r, n, h => by
    have h2 : ((!jsWs c1 || (decide (c1 = ' ') && !jsWs c2))
        && singleSpB (c2 :: r)) = true := h
    simp only [Bool.and_eq_true] at h2
    have hpair := h2.1
    have htail := h2.2
    cases n with
    | zero => rfl
    | succ m =>
      rw [List.take_succ_cons]
      cases m with
      | zero =>
        show (!jsWs c1 || decide (c1 = ' ')) = true
        cases hw : jsWs c1
        · simp
        · rw [hw] at hpair
          simp only [Bool.not_true, Bool.false_or, Bool.and_eq_true] at hpair
          simp [hpair.1]
      | succ m2 =>
        rw [List.take_succ_cons]
        have ih := singleSpB_take (c2 :: r) (m2 + 1) htail
        rw [List.take_succ_cons] at ih
        show ((!jsWs c1 || (decide (c1 = ' ') && !jsWs c2))
            && singleSpB (c2 :: List.take m2 r)) = true
        rw [hpair, ih]
        rfl

/-- Extending a nonempty token list's head keeps its length. -/
lemma consHead_length (c : Char) (l : List Str) (hl : l ≠ []) :
    (consHead c l).length = l.length := by
  cases l with
  | nil => exact absurd rfl hl
  | cons t ts => rfl

/-- The splitter's token count only depends on the whitespace mask. -/
lemma swAux_len_rel : ∀ {s t : Str}, List.Forall₂ wsEqR s t →
    ∀ b, (swAux b s).length = (swAux b t).length := by
  intro s t h
  induction h with
  | nil => intro b; rfl
  | @cons a b2 s2 t2 h1 h2 ih =>
    intro b
    have hws : jsWs b2 = jsWs a := h1.1
    cases b with
    | false =>
      rw [swAux_false_cons, swAux_false_cons, hws]
      by_cases hw : jsWs a = true
      · rw [if_pos hw, if_pos hw]
        simp [ih true]
      · rw [if_neg hw, if_neg hw,
          consHead_length _ _ (swAux_ne_nil false s2),
          consHead_length _ _ (swAux_ne_nil false t2)]
        exact ih false
    | true =>
      rw [swAux_true_cons, swAux_true_cons, hws]
      by_cases hw : jsWs a = true
      · rw [if_pos hw, if_pos hw]
        exact ih true
      · rw [if_neg hw, if_neg hw,
          consHead_length _ _ (swAux_ne_nil false s2),
          consHead_length _ _ (swAux_ne_nil false t2)]
        exact ih false

/-- Truncating the input cannot increase the splitter's token count. -/
lemma swAux_take_len_le : ∀ (s : Str) (n : Nat) (b : Bool),
    (swAux b (s.take n)).length ≤ (swAux b s).length
  | [], n, b => by simp
  | c :: r, 0, b => by
    have h1 : swAux b (c :: r) ≠ [] := swAux_ne_nil b _
    have h2 : 0 < (swAux b (c :: r)).length := List.length_pos.mpr h1
    have h3 : (swAux b (List.take 0 (c :: r))).length = 1 := by
      cases b <;> rfl
    omega
  | c :: r, n + 1, b => by
    rw [List.take_succ_cons]
    cases b with
    | false =>
      rw [swAux_false_cons, swAux_false_cons]
      by_cases hw : jsWs c = true
      · rw [if_pos hw, if_pos hw]
        simpa using swAux_take_len_le r n true
      · rw [if_neg hw, if_neg hw,
          consHead_length _ _ (swAux_ne_nil false (r.take n)),
          consHead_length _ _ (swAux_ne_nil false r)]
        exact swAux_take_len_le r n false
    | true =>
      rw [swAux_true_cons, swAux_true_cons]
      by_cases hw : jsWs c = true
      · rw [if_pos hw, if_pos hw]
        exact swAux_take_len_le r n true
      · rw [if_neg hw, if_neg hw,
          consHead_length _ _ (swAux_ne_nil false (r.take n)),
          consHead_length _ _ (swAux_ne_nil false r)]
        exact swAux_take_len_le r n false

/-- One-step equation for the double-whitespace collapse, idle state. -/
lemma c2Aux_norm_cons (c : Char) (r : Str) :
    c2Aux .norm (c :: r) =
      if jsWs c = true then c2Aux (.one c) r else c :: c2Aux .norm r := rfl

/-- One-step equation, one pending whitespace character. -/
lemma c2Aux_one_cons (w c : Char) (r : Str) :
    c2Aux (.one w) (c :: r) =
      if jsWs c = true then ' ' :: c2Aux .run r else w :: c :: c2Aux .norm r := rfl

/-- One-step equation, inside a replaced whitespace run. -/
lemma c2Aux_run_cons (c : Char) (r : Str) :
    c2Aux .run (c :: r) =
      if jsWs c = true then c2Aux .run r else c :: c2Aux .norm r := rfl

/-- Pending characters carried by a collapse state. -/
def wsStChars : WsSt → Str
  | .norm => []
  | .one w => [w]
  | .run => []

/-- Every character emitted by the double-whitespace collapse comes
from the input, the pending state, or is the replacement space. -/
lemma c2Aux_mem : ∀ (st : WsSt) (s : Str) (x : Char), x ∈ c2Aux st s →
    x ∈ wsStChars st ∨ x ∈ s ∨ x = ' '
  | .norm, [], x, hx => by cases hx
  | .one w, [], x, hx => by
    left
    have hxx : x ∈ [w] := hx
    simpa [wsStChars] using hxx
  | .run, [], x, hx => by cases hx
  | .norm, c :: r, x, hx => by
    rw [c2Aux_norm_cons] at hx
    split_ifs at hx with h1
    · rcases c2Aux_mem (.one c) r x hx with hst | hmem | hsp
      · right; left
        simp only [wsStChars, List.mem_singleton] at hst
        simp [hst]
      · right; left; exact List.mem_cons_of_mem _ hmem
      · right; right; exact hsp
    · rcases List.mem_cons.mp hx with rfl | hx2
      · right; left; exact List.mem_cons_self _ _
      · rcases c2Aux_mem .norm r x hx2 with hst | hmem | hsp
        · cases hst
        · right; left; exact List.mem_cons_of_mem _ hmem
        · right; right; exact hsp
  | .one w, c :: r, x, hx => by
    rw [c2Aux_one_cons] at hx
    split_ifs at hx with h1
    · rcases List.mem_cons.mp hx with rfl | hx2
      · right; right; rfl
      · rcases c2Aux_mem .run r x hx2 with hst | hmem | hsp
        · cases hst
        · right; left; exact List.mem_cons_of_mem _ hmem
        · right; right; exact hsp
    · rcases List.mem_cons.mp hx with rfl | hx2
      · left; simp [wsStChars]
      · rcases List.mem_cons.mp hx2 with rfl | hx3
        · right; left; exact List.mem_cons_self _ _
        · rcases c2Aux_mem .norm r x hx3 with hst | hmem | hsp
          · cases hst
          · right; left; exact List.mem_cons_of_mem _ hmem
          · right; right; exact hsp
  | .run, c :: r, x, hx => by
    rw [c2Aux_run_cons] at hx
    split_ifs at hx with h1
    · rcases c2Aux_mem .run r x hx with hst | hmem | hsp
      · cases hst
      · right; left; exact List.mem_cons_of_mem _ hmem
      · right; right; exact hsp
    · rcases List.mem_cons.mp hx with rfl | hx2
      · right; left; exact List.mem_cons_self _ _
      · rcases c2Aux_mem .norm r x hx2 with hst | hmem | hsp
        · cases hst
        · right; left; exact List.mem_cons_of_mem _ hmem
        · right; right; exact hsp

/-- Unfolding of the title sanitizer into its stages. -/
lemma sanTitle_eq (t : Str) : sanTitle t =
    (tcAux false (joinSep [' ']
      ((swAux false (collapse2 ((trimS t).filter (fun c => !isMk c)))).take 12))).take 80 := rfl

/-- No marker character survives the sanitizer chain downstream of the
marker filter. -/
lemma title_chain_no_mk (t2 : Str) (h2 : ∀ c ∈ t2, isMk c = false) (c : Char)
    (hc : c ∈ (tcAux false (joinSep [' ']
      ((swAux false (collapse2 t2)).take 12))).take 80) :
    isMk c = false := by
  have hc1 : c ∈ tcAux false (joinSep [' '] ((swAux false (collapse2 t2)).take 12)) :=
    List.take_subset _ _ hc
  obtain ⟨a, ha4, hor⟩ := tcAux_mem _ false c hc1
  have hamk : isMk a = false := by
    rcases joinSep_mem [' '] _ a ha4 with hsep | ⟨tok, htok, hatok⟩
    · simp only [List.mem_singleton] at hsep
      subst hsep
      decide
    · have htok2 : tok ∈ swAux false (collapse2 t2) := List.take_subset _ _ htok
      have ha3 : a ∈ collapse2 t2 := (swAux_token_chars _ false tok htok2 a hatok).1
      rcases c2Aux_mem .norm t2 a ha3 with hst | hmem | hsp
      · cases hst
      · exact h2 a hmem
      · subst hsp
        decide
  rcases hor with rfl | rfl
  · exact hamk
  · rw [isMk_upChar]
    exact hamk

/-- The sanitized title contains no marker characters. -/
lemma sanTitle_no_mk (t : Str) : ∀ c ∈ sanTitle t, isMk c = false := by
  intro c hc
  rw [sanTitle_eq t] at hc
  refine title_chain_no_mk _ ?_ c hc
  intro x hx
  have hpx := (List.mem_filter.mp hx).2
  simpa using hpx

/-- The sanitized title is a single-space string. -/
lemma sanTitle_singleSp (t : Str) : singleSpB (sanTitle t) = true := by
  rw [sanTitle_eq t]
  apply singleSpB_take
  rw [singleSpB_rel (tcAux_wsEq _ false)]
  apply singleSpB_joinSep
  · intro tok htok x hx
    exact (swAux_token_chars _ false tok (List.take_subset _ _ htok) x hx).2
  · exact midOKB_take _ 12 (swAux_shape _).1

/-- The sanitized title splits into at most 12 whitespace tokens. -/
lemma sanTitle_tok_le (t : Str) : (splitWsJS (sanTitle t)).length ≤ 12 := by
  rw [sanTitle_eq t]
  show (swAux false ((tcAux false (joinSep [' ']
    ((swAux false (collapse2 ((trimS t).filter (fun c => !isMk c)))).take 12))).take 80)).length ≤ 12
  have h1 := swAux_take_len_le (tcAux false (joinSep [' ']
    ((swAux false (collapse2 ((trimS t).filter (fun c => !isMk c)))).take 12))) 80 false
  have h2 := swAux_len_rel (tcAux_wsEq (joinSep [' ']
    ((swAux false (collapse2 ((trimS t).filter (fun c => !isMk c)))).take 12)) false) false
  have h3 : swAux false (joinSep [' ']
      ((swAux false (collapse2 ((trimS t).filter (fun c => !isMk c)))).take 12))
      = (swAux false (collapse2 ((trimS t).filter (fun c => !isMk c)))).take 12 := by
    refine splitWs_joinSep _ ?_ ?_ ?_
    · rw [Ne, List.take_eq_nil_iff]
      push_neg
      exact ⟨by omega, swAux_ne_nil false _⟩
    · intro tok htok x hx
      exact (swAux_token_chars _ false tok (List.take_subset _ _ htok) x hx).2
    · exact midOKB_take _ 12 (swAux_shape _).1
  have h3l := congrArg List.length h3
  have h4 : ((swAux false (collapse2 ((trimS t).filter (fun c => !isMk c)))).take 12).length ≤ 12 := by
    rw [List.length_take]
    omega
  omega

/-- The sanitized title has at most 80 characters. -/
lemma sanTitle_len_le (t : Str) : (sanTitle t).length ≤ 80 := by
  rw [sanTitle_eq t, List.length_take]
  omega

/-- The title sanitizer fixes any of its outputs that is already
trimmed. -/
lemma sanTitle_fix (t : Str) (h : trimS (sanTitle t) = sanTitle t) :
    sanTitle (sanTitle t) = sanTitle t := by
  have hmk : (trimS (sanTitle t)).filter (fun c => !isMk c) = sanTitle t := by
    rw [h]
    refine List.filter_eq_self.mpr ?_
    intro a ha
    simp [sanTitle_no_mk t a ha]
  have hsp : singleSpB (sanTitle t) = true := sanTitle_singleSp t
  have hc2 : collapse2 (sanTitle t) = sanTitle t := c2_id _ hsp
  have htake12 : (swAux false (sanTitle t)).take 12 = swAux false (sanTitle t) :=
    List.take_of_length_le (sanTitle_tok_le t)
  have hjoin : joinSep [' '] (swAux false (sanTitle t)) = sanTitle t :=
    joinSep_splitWs_id _ hsp
  have htc : tcAux false (sanTitle t) = sanTitle t := by
    rw [sanTitle_eq t]
    exact tcAux_take_idem _ false 80
  calc sanTitle (sanTitle t)
      = (tcAux false (joinSep [' ']
          ((swAux false (collapse2 ((trimS (sanTitle t)).filter (fun c => !isMk c)))).take 12))).take 80 := rfl
    _ = (tcAux false (sanTitle t)).take 80 := by rw [hmk, hc2, htake12, hjoin]
    _ = (sanTitle t).take 80 := by rw [htc]
    _ = sanTitle t := List.take_of_length_le (sanTitle_len_le t)

/- ### Set-fold structure for tag enrichment -/

/-- An inserted element is present. -/
lemma setAdd_mem_self (l : List Str) (x : Str) : x ∈ setAdd l x := by
  unfold setAdd
  split_ifs with h
  · exact h
  · simp

/-- Insertion preserves membership. -/
lemma setAdd_mem_mono (l : List Str) (x y : Str) (h : y ∈ l) : y ∈ setAdd l x := by
  unfold setAdd
  split_ifs
  · exact h
  · exact List.mem_append_left _ h

/-- Inserting a present element is a no-op. -/
lemma setAdd_eq_of_mem (l : List Str) (x : Str) (h : x ∈ l) : setAdd l x = l := by
  unfold setAdd
  rw [if_pos h]

/-- Insertion preserves distinctness. -/
lemma setAdd_nodup (l : List Str) (x : Str) (h : l.Nodup) : (setAdd l x).Nodup := by
  unfold setAdd
  split_ifs with hx
  · exact h
  · simp [List.nodup_append, h, hx]

/-- Folding insertion over a fresh distinct list appends it. -/
lemma foldl_setAdd_fresh : ∀ (l acc : List Str), l.Nodup → (∀ x ∈ l, x ∉ acc) →
    l.foldl setAdd acc = acc ++ l
  | [], acc, _, _ => by simp
  | x :: r, acc, hnd, hfr => by
    have hx : x ∉ acc := hfr x (List.mem_cons_self _ _)
    have hxr : x ∉ r := (List.nodup_cons.mp hnd).1
    have hstep : setAdd acc x = acc ++ [x] := by
      unfold setAdd
      rw [if_neg hx]
    have hfr2 : ∀ y ∈ r, y ∉ acc ++ [x] := by
      intro y hy
      have h1 : y ∉ acc := hfr y (List.mem_cons_of_mem _ hy)
      have h2 : y ≠ x := fun he => hxr (he ▸ hy)
      simp [h1, h2]
    rw [List.foldl_cons, hstep,
      foldl_setAdd_fresh r (acc ++ [x]) (List.nodup_cons.mp hnd).2 hfr2]
    simp

/-- Provenance through the insertion fold. -/
lemma mem_foldl_setAdd : ∀ (l acc : List Str) (x : Str),
    x ∈ l.foldl setAdd acc → x ∈ acc ∨ x ∈ l
  | [], _, _, h => Or.inl h
  | y :: r, acc, x, h => by
    rw [List.foldl_cons] at h
    rcases mem_foldl_setAdd r (setAdd acc y) x h with hacc | hr
    · unfold setAdd at hacc
      split_ifs at hacc with hy
      · exact Or.inl hacc
      · rcases List.mem_append.mp hacc with h1 | h2
        · exact Or.inl h1
        · right
          simp only [List.mem_singleton] at h2
          simp [h2]
    · right
      exact List.mem_cons_of_mem _ hr

/-- Membership is monotone along the insertion fold. -/
lemma foldl_setAdd_mono : ∀ (l acc : List Str) (x : Str), x ∈ acc →
    x ∈ l.foldl setAdd acc
  | [], _, _, h => h
  | y :: r, acc, x, h => foldl_setAdd_mono r _ x (setAdd_mem_mono acc y x h)

/-- The insertion fold preserves distinctness. -/
lemma foldl_setAdd_nodup : ∀ (l acc : List Str), acc.Nodup →
    (l.foldl setAdd acc).Nodup
  | [], _, h => h
  | y :: r, acc, h => foldl_setAdd_nodup r _ (setAdd_nodup acc y h)

/-- The insertion fold is a no-op when everything is already present. -/
lemma foldl_setAdd_all_mem : ∀ (l acc : List Str), (∀ x ∈ l, x ∈ acc) →
    l.foldl setAdd acc = acc
  | [], _, _ => rfl
  | y :: r, acc, h => by
    rw [List.foldl_cons, setAdd_eq_of_mem acc y (h y (List.mem_cons_self _ _))]
    exact foldl_setAdd_all_mem r acc (fun x hx => h x (List.mem_cons_of_mem _ hx))

/-- The guarded insertion fold appends some suffix. -/
lemma foldl_guard_ex (cond : Str → Bool) : ∀ (l acc : List Str),
    ∃ extra, l.foldl (fun acc t => if cond t then setAdd acc t else acc) acc
      = acc ++ extra
  | [], acc => ⟨[], by simp⟩
  | y :: r, acc => by
    rw [List.foldl_cons]
    by_cases hc : cond y = true
    · rw [if_pos hc]
      by_cases hy : y ∈ acc
      · rw [setAdd_eq_of_mem acc y hy]
        exact foldl_guard_ex cond r acc
      · have hstep : setAdd acc y = acc ++ [y] := by
          unfold setAdd
          rw [if_neg hy]
        obtain ⟨e2, he2⟩ := foldl_guard_ex cond r (acc ++ [y])
        exact ⟨[y] ++ e2, by rw [hstep, he2, List.append_assoc]⟩
    · rw [if_neg hc]
      exact foldl_guard_ex cond r acc

/-- The guarded insertion fold is a no-op when every matching element
is already present. -/
lemma foldl_guard_all_mem (cond : Str → Bool) : ∀ (l acc : List Str),
    (∀ t ∈ l, cond t = true → t ∈ acc) →
    l.foldl (fun acc t => if cond t then setAdd acc t else acc) acc = acc
  | [], _, _ => rfl
  | y :: r, acc, h => by
    rw [List.foldl_cons]
    by_cases hc : cond y = true
    · rw [if_pos hc, setAdd_eq_of_mem acc y (h y (List.mem_cons_self _ _) hc)]
      exact foldl_guard_all_mem cond r acc
        (fun t ht hct => h t (List.mem_cons_of_mem _ ht) hct)
    · rw [if_neg hc]
      exact foldl_guard_all_mem cond r acc
        (fun t ht hct => h t (List.mem_cons_of_mem _ ht) hct)

/-- Membership is monotone along the guarded insertion fold. -/
lemma foldl_guard_mono (cond : Str → Bool) : ∀ (l acc : List Str) (x : Str),
    x ∈ acc → x ∈ l.foldl (fun acc t => if cond t then setAdd acc t else acc) acc
  | [], _, _, h => h
  | y :: r, acc, x, h => by
    rw [List.foldl_cons]
    by_cases hc : cond y = true
    · rw [if_pos hc]
      exact foldl_guard_mono cond r _ x (setAdd_mem_mono acc y x h)
    · rw [if_neg hc]
      exact foldl_guard_mono cond r acc x h

/-- Every matching element of the scanned list ends up in the guarded
insertion fold. -/
lemma foldl_guard_adds (cond : Str → Bool) : ∀ (l acc : List Str) (t : Str),
    t ∈ l → cond t = true →
    t ∈ l.foldl (fun acc t => if cond t then setAdd acc t else acc) acc
  | [], _, _, ht, _ => absurd ht (List.not_mem_nil _)
  | y :: r, acc, t, ht, hct => by
    rw [List.foldl_cons]
    rcases List.mem_cons.mp ht with rfl | ht2
    · rw [if_pos hct]
      exact foldl_guard_mono cond r _ t (setAdd_mem_self acc t)
    · by_cases hc : cond y = true
      · rw [if_pos hc]
        exact foldl_guard_adds cond r _ t ht2 hct
      · rw [if_neg hc]
        exact foldl_guard_adds cond r acc t ht2 hct

/-- Provenance through the guarded insertion fold. -/
lemma mem_foldl_guard (cond : Str → Bool) : ∀ (l acc : List Str) (x : Str),
    x ∈ l.foldl (fun acc t => if cond t then setAdd acc t else acc) acc →
    x ∈ acc ∨ x ∈ l
  | [], _, _, h => Or.inl h
  | y :: r, acc, x, h => by
    rw [List.foldl_cons] at h
    by_cases hc : cond y = true
    · rw [if_pos hc] at h
      rcases mem_foldl_guard cond r (setAdd acc y) x h with hacc | hr
      · unfold setAdd at hacc
        split_ifs at hacc with hy
        · exact Or.inl hacc
        · rcases List.mem_append.mp hacc with h1 | h2
          · exact Or.inl h1
          · right
            simp only [List.mem_singleton] at h2
            simp [h2]
      · right
        exact List.mem_cons_of_mem _ hr
    · rw [if_neg hc] at h
      rcases mem_foldl_guard cond r acc x h with hacc | hr
      · exact Or.inl hacc
      · right
        exact List.mem_cons_of_mem _ hr

/-- The guarded insertion fold preserves distinctness. -/
lemma foldl_guard_nodup (cond : Str → Bool) : ∀ (l acc : List Str), acc.Nodup →
    (l.foldl (fun acc t => if cond t then setAdd acc t else acc) acc).Nodup
  | [], _, h => h
  | y :: r, acc, h => by
    rw [List.foldl_cons]
    by_cases hc : cond y = true
    · rw [if_pos hc]
      exact foldl_guard_nodup cond r _ (setAdd_nodup acc y h)
    · rw [if_neg hc]
      exact foldl_guard_nodup cond r acc h

/- ### Tag normalization idempotence -/

/-- One-step equation for the whitespace-collapse machine, idle. -/
lemma cwAux_false_cons (sep c : Char) (r : Str) :
    cwAux sep false (c :: r) =
      if jsWs c = true then sep :: cwAux sep true r else c :: cwAux sep false r := rfl

/-- One-step equation for the whitespace-collapse machine, in a run. -/
lemma cwAux_true_cons (sep c : Char) (r : Str) :
    cwAux sep true (c :: r) =
      if jsWs c = true then cwAux sep true r else c :: cwAux sep false r := rfl

/-- Every character emitted by the whitespace collapse is the separator
or a non-whitespace input character. -/
lemma cwAux_mem : ∀ (sep : Char) (b : Bool) (s : Str) (x : Char),
    x ∈ cwAux sep b s → x = sep ∨ (x ∈ s ∧ jsWs x = false)
  | _, b, [], x, hx => by cases b <;> cases hx
  | sep, true, c :: r, x, hx => by
    rw [cwAux_true_cons] at hx
    split_ifs at hx with h1
    · rcases cwAux_mem sep true r x hx with hs | ⟨hm, hw⟩
      · exact Or.inl hs
      · exact Or.inr ⟨List.mem_cons_of_mem _ hm, hw⟩
    · rcases List.mem_cons.mp hx with rfl | hx2
      · exact Or.inr ⟨List.mem_cons_self _ _, by simpa using h1⟩
      · rcases cwAux_mem sep false r x hx2 with hs | ⟨hm, hw⟩
        · exact Or.inl hs
        · exact Or.inr ⟨List.mem_cons_of_mem _ hm, hw⟩
  | sep, false, c :: r, x, hx => by
    rw [cwAux_false_cons] at hx
    split_ifs at hx with h1
    · rcases List.mem_cons.mp hx with rfl | hx2
      · exact Or.inl rfl
      · rcases cwAux_mem sep true r x hx2 with hs | ⟨hm, hw⟩
        · exact Or.inl hs
        · exact Or.inr ⟨List.mem_cons_of_mem _ hm, hw⟩
    · rcases List.mem_cons.mp hx with rfl | hx2
      · exact Or.inr ⟨List.mem_cons_self _ _, by simpa using h1⟩
      · rcases cwAux_mem sep false r x hx2 with hs | ⟨hm, hw⟩
        · exact Or.inl hs
        · exact Or.inr ⟨List.mem_cons_of_mem _ hm, hw⟩

/-- The whitespace collapse is the identity on whitespace-free input. -/
lemma cwAux_wsFree_id : ∀ (sep : Char) (s : Str), (∀ c ∈ s, jsWs c = false) →
    cwAux sep false s = s
  | _, [], _ => rfl
  | sep, c :: r, h => by
    have hc := h c (List.mem_cons_self _ _)
    rw [cwAux_false_cons, if_neg (by simp [hc]),
      cwAux_wsFree_id sep r (fun x hx => h x (List.mem_cons_of_mem _ hx))]

/-- A map whose function fixes every member is the identity. -/
lemma map_id_of_fixed {α : Type} (f : α → α) : ∀ (l : List α),
    (∀ x ∈ l, f x = x) → l.map f = l
  | [], _ => rfl
  | x :: r, h => by
    rw [List.map_cons, h x (List.mem_cons_self _ _),
      map_id_of_fixed f r (fun y hy => h y (List.mem_cons_of_mem _ hy))]

/-- Trimming is the identity on whitespace-free strings. -/
lemma trimS_wsFree_id (l : Str) (h : ∀ c ∈ l, jsWs c = false) : trimS l = l := by
  refine trimS_eq_self₂ l ?_ ?_
  · intro c hc
    exact h c (List.mem_of_mem_head? (Option.mem_def.mpr hc))
  · intro c hc
    exact h c (List.mem_of_mem_getLast? (Option.mem_def.mpr hc))

/-- Normalized tags are whitespace-free. -/
lemma normTag_wsFree (t : Str) : ∀ c ∈ normTag t, jsWs c = false := by
  intro c hc
  unfold normTag collapseWsTo at hc
  rcases cwAux_mem '-' false _ c hc with rfl | ⟨_, hws⟩
  · decide
  · exact hws

/-- Every character of a normalized tag is fixed by lowercasing. -/
lemma normTag_lower_fixed (t : Str) : ∀ c ∈ normTag t, lowChar c = c := by
  intro c hc
  unfold normTag collapseWsTo at hc
  rcases cwAux_mem '-' false _ c hc with rfl | ⟨hmem, _⟩
  · decide
  · have h2 : c ∈ lowerStr t := trimS_subset _ c hmem
    unfold lowerStr at h2
    obtain ⟨y, _, rfl⟩ := List.mem_map.mp h2
    exact lowChar_idem y

/-- Tag normalization is idempotent. -/
lemma normTag_idem (t : Str) : normTag (normTag t) = normTag t := by
  show cwAux '-' false (trimS (lowerStr (normTag t))) = normTag t
  have h1 : lowerStr (normTag t) = normTag t :=
    map_id_of_fixed lowChar _ (normTag_lower_fixed t)
  rw [h1, trimS_wsFree_id _ (normTag_wsFree t)]
  exact cwAux_wsFree_id '-' _ (normTag_wsFree t)

/-- Every vocabulary term is fixed by tag normalization. -/
lemma tagVocab_fixed : ∀ t ∈ tagVocab, normTag t = t := by decide

/-- The filler tag is fixed by tag normalization. -/
lemma artifact_fixed : normTag ("artifact".toList) = "artifact".toList := by decide

/-- Core fixed-point of tag enrichment: a distinct, normalization-fixed
tag array of at most 7 entries that either contains every matched
vocabulary term or is full, padded with the filler, is fixed by a
second enrichment pass over the same text. -/
lemma enrichTags_pad_fix (L : Str) (arr : List Str)
    (hnd : arr.Nodup) (hfix : ∀ x ∈ arr, normTag x = x) (hlen7 : arr.length ≤ 7)
    (hcase : (∀ t ∈ tagVocab, hasSub (hyphToSpace t) L = true → t ∈ arr) ∨
      arr.length = 7) :
    enrichTags (arr ++ List.replicate (3 - arr.length) ("artifact".toList)) L
      = arr ++ List.replicate (3 - arr.length) ("artifact".toList) := by
  have hfixE : ∀ x ∈ arr ++ List.replicate (3 - arr.length) ("artifact".toList),
      normTag x = x := by
    intro x hx
    rcases List.mem_append.mp hx with h1 | h2
    · exact hfix x h1
    · rw [List.eq_of_mem_replicate h2]
      exact artifact_fixed
  have h_mapE : List.map normTag
      (arr ++ List.replicate (3 - arr.length) ("artifact".toList))
      = arr ++ List.replicate (3 - arr.length) ("artifact".toList) :=
    map_id_of_fixed normTag _ hfixE
  have hfold_arr : arr.foldl setAdd [] = arr := by
    have h := foldl_setAdd_fresh arr [] hnd (fun x _ => List.not_mem_nil x)
    simpa using h
  show (tagVocab.foldl
      (fun acc t => if hasSub (hyphToSpace t) L = true then setAdd acc t else acc)
      ((List.map normTag
        (arr ++ List.replicate (3 - arr.length) ("artifact".toList))).foldl setAdd [])).take 7 ++
    List.replicate (3 - ((tagVocab.foldl
      (fun acc t => if hasSub (hyphToSpace t) L = true then setAdd acc t else acc)
      ((List.map normTag
        (arr ++ List.replicate (3 - arr.length) ("artifact".toList))).foldl setAdd [])).take 7).length)
      ("artifact".toList)
    = arr ++ List.replicate (3 - arr.length) ("artifact".toList)
  rw [h_mapE, List.foldl_append, hfold_arr]
  by_cases hlen3 : 3 ≤ arr.length
  · have hrep0 : 3 - arr.length = 0 := by omega
    rw [hrep0, List.replicate_zero, List.foldl_nil, List.append_nil]
    rcases hcase with hm | h7
    · rw [foldl_guard_all_mem _ _ _ hm, List.take_of_length_le hlen7,
        hrep0, List.replicate_zero, List.append_nil]
    · obtain ⟨extra, hex⟩ :=
        foldl_guard_ex (fun t => hasSub (hyphToSpace t) L) tagVocab arr
      rw [hex, List.take_left' h7, hrep0, List.replicate_zero, List.append_nil]
  · rcases hcase with hm | h7
    · by_cases hA : ("artifact".toList) ∈ arr
      · rw [foldl_setAdd_const ("artifact".toList) _ _
          (fun x hx => List.eq_of_mem_replicate hx) hA,
          foldl_guard_all_mem _ _ _ hm, List.take_of_length_le hlen7]
      · have hk1 : 3 - arr.length = (2 - arr.length) + 1 := by omega
        rw [hk1, List.replicate_succ, List.foldl_cons]
        have hstep : setAdd arr ("artifact".toList) = arr ++ ["artifact".toList] := by
          unfold setAdd
          rw [if_neg hA]
        rw [hstep, foldl_setAdd_const ("artifact".toList) _ _
          (fun x hx => List.eq_of_mem_replicate hx) (by simp)]
        have hm2 : ∀ t ∈ tagVocab, hasSub (hyphToSpace t) L = true →
            t ∈ arr ++ ["artifact".toList] :=
          fun t ht hct => List.mem_append_left _ (hm t ht hct)
        rw [foldl_guard_all_mem _ _ _ hm2]
        have hlen1 : (arr ++ ["artifact".toList]).length ≤ 7 := by
          simp only [List.length_append, List.length_cons, List.length_nil]
          omega
        rw [List.take_of_length_le hlen1]
        have hlen2 : (arr ++ ["artifact".toList]).length = arr.length + 1 := by
          simp
        rw [hlen2, show 3 - (arr.length + 1) = 2 - arr.length from by omega,
          List.append_assoc]
        rfl
    · exact absurd h7 (by omega)

/-- Tag enrichment is idempotent over the same lowercased text. -/
lemma enrichTags_idem (tags : List Str) (L : Str) :
    enrichTags (enrichTags tags L) L = enrichTags tags L := by
  have hnd2 : (tagVocab.foldl
      (fun acc t => if hasSub (hyphToSpace t) L = true then setAdd acc t else acc)
      ((tags.map normTag).foldl setAdd [])).Nodup :=
    foldl_guard_nodup _ tagVocab _ (foldl_setAdd_nodup _ [] List.nodup_nil)
  have hnd : ((tagVocab.foldl
      (fun acc t => if hasSub (hyphToSpace t) L = true then setAdd acc t else acc)
      ((tags.map normTag).foldl setAdd [])).take 7).Nodup :=
    (List.take_sublist 7 _).nodup hnd2
  have hfix2 : ∀ x ∈ tagVocab.foldl
      (fun acc t => if hasSub (hyphToSpace t) L = true then setAdd acc t else acc)
      ((tags.map normTag).foldl setAdd []), normTag x = x := by
    intro x hx
    rcases mem_foldl_guard _ tagVocab _ x hx with h1 | hvoc
    · rcases mem_foldl_setAdd _ [] x h1 with h0 | hmap
      · exact absurd h0 (List.not_mem_nil x)
      · obtain ⟨y, _, rfl⟩ := List.mem_map.mp hmap
        exact normTag_idem y
    · exact tagVocab_fixed x hvoc
  have hfix : ∀ x ∈ (tagVocab.foldl
      (fun acc t => if hasSub (hyphToSpace t) L = true then setAdd acc t else acc)
      ((tags.map normTag).foldl setAdd [])).take 7, normTag x = x :=
    fun x hx => hfix2 x (List.take_subset 7 _ hx)
  have hlen7 : ((tagVocab.foldl
      (fun acc t => if hasSub (hyphToSpace t) L = true then setAdd acc t else acc)
      ((tags.map normTag).foldl setAdd [])).take 7).length ≤ 7 :=
    List.length_take_le 7 _
  have hcase : (∀ t ∈ tagVocab, hasSub (hyphToSpace t) L = true →
      t ∈ (tagVocab.foldl
        (fun acc t => if hasSub (hyphToSpace t) L = true then setAdd acc t else acc)
        ((tags.map normTag).foldl setAdd [])).take 7) ∨
      ((tagVocab.foldl
        (fun acc t => if hasSub (hyphToSpace t) L = true then setAdd acc t else acc)
        ((tags.map normTag).foldl setAdd [])).take 7).length = 7 := by
    by_cases h7 : (tagVocab.foldl
        (fun acc t => if hasSub (hyphToSpace t) L = true then setAdd acc t else acc)
        ((tags.map normTag).foldl setAdd [])).length ≤ 7
    · left
      intro t ht hct
      rw [List.take_of_length_le h7]
      exact foldl_guard_adds _ tagVocab _ t ht hct
    · right
      rw [List.length_take]
      omega
  have h1 : enrichTags tags L = (tagVocab.foldl
      (fun acc t => if hasSub (hyphToSpace t) L = true then setAdd acc t else acc)
      ((tags.map normTag).foldl setAdd [])).take 7 ++
    List.replicate (3 - ((tagVocab.foldl
      (fun acc t => if hasSub (hyphToSpace t) L = true then setAdd acc t else acc)
      ((tags.map normTag).foldl setAdd [])).take 7).length) ("artifact".toList) := rfl
  rw [h1]
  exact enrichTags_pad_fix L _ hnd hfix hlen7 hcase

/- ### Content truncation idempotence -/

/-- Appending one non-whitespace character does not change the
splitter's token count. -/
lemma swAux_append_nonws_len (d : Char) (hd : jsWs d = false) :
    ∀ (b : Bool) (s : Str), (swAux b (s ++ [d])).length = (swAux b s).length
  | b, [] => by
    cases b
    · show (swAux false [d]).length = 1
      rw [swAux_false_cons, if_neg (by simp [hd])]
      rfl
    · show (swAux true [d]).length = 1
      rw [swAux_true_cons, if_neg (by simp [hd])]
      rfl
  | b, c :: r => by
    rw [List.cons_append]
    cases b
    · rw [swAux_false_cons, swAux_false_cons]
      by_cases hc : jsWs c = true
      · rw [if_pos hc, if_pos hc]
        simpa using swAux_append_nonws_len d hd true r
      · rw [if_neg hc, if_neg hc,
          consHead_length _ _ (swAux_ne_nil false (r ++ [d])),
          consHead_length _ _ (swAux_ne_nil false r)]
        exact swAux_append_nonws_len d hd false r
    · rw [swAux_true_cons, swAux_true_cons]
      by_cases hc : jsWs c = true
      · rw [if_pos hc, if_pos hc]
        exact swAux_append_nonws_len d hd true r
      · rw [if_neg hc, if_neg hc,
          consHead_length _ _ (swAux_ne_nil false (r ++ [d])),
          consHead_length _ _ (swAux_ne_nil false r)]
        exact swAux_append_nonws_len d hd false r

/-- Content truncation is idempotent. -/
lemma truncContent_idem (c : Str) : truncContent (truncContent c) = truncContent c := by
  by_cases h : (splitWsJS c).length > 220
  · have htc : truncContent c = joinSep [' '] ((splitWsJS c).take 220) ++ ['…'] := by
      show (if (splitWsJS c).length > 220
        then joinSep [' '] ((splitWsJS c).take 220) ++ ['…'] else c) = _
      rw [if_pos h]
    have htoks_free : ∀ t ∈ (splitWsJS c).take 220, ∀ x ∈ t, jsWs x = false :=
      fun t ht x hx => (swAux_token_chars c false t (List.take_subset _ _ ht) x hx).2
    have htoks_mid : midOKB ((splitWsJS c).take 220) = true :=
      midOKB_take _ 220 (swAux_shape c).1
    have htoks_ne : (splitWsJS c).take 220 ≠ [] := by
      rw [Ne, List.take_eq_nil_iff]
      push_neg
      exact ⟨by omega, swAux_ne_nil false c⟩
    have hsplit : swAux false (joinSep [' '] ((splitWsJS c).take 220))
        = (splitWsJS c).take 220 :=
      splitWs_joinSep _ htoks_ne htoks_free htoks_mid
    have hlen : (splitWsJS (truncContent c)).length = 220 := by
      rw [htc]
      show (swAux false (joinSep [' '] ((splitWsJS c).take 220) ++ ['…'])).length = 220
      rw [swAux_append_nonws_len '…' (by decide) false _, hsplit, List.length_take]
      omega
    show (if (splitWsJS (truncContent c)).length > 220
      then joinSep [' '] ((splitWsJS (truncContent c)).take 220) ++ ['…']
      else truncContent c) = truncContent c
    rw [if_neg (by omega)]
  · have htc : truncContent c = c := by
      show (if (splitWsJS c).length > 220
        then joinSep [' '] ((splitWsJS c).take 220) ++ ['…'] else c) = c
      rw [if_neg h]
    rw [htc]
    exact htc

/- ### Field equations of the guard/sanitize block -/

/-- Title field of the sanitized record. -/
lemma guardSanitize_title (f : Str) (n : NRec) (b : Str) :
    (guardSanitize f n b).title = if n.title = [] then n.title else sanTitle n.title := rfl

/-- Status field of the sanitized record. -/
lemma guardSanitize_status (f : Str) (n : NRec) (b : Str) :
    (guardSanitize f n b).status = "draft".toList := rfl

/-- Tags field of the sanitized record. -/
lemma guardSanitize_tags (f : Str) (n : NRec) (b : Str) :
    (guardSanitize f n b).tags = enrichTags n.tags (lowerStr b) := rfl

/-- Source-reference field of the sanitized record. -/
lemma guardSanitize_refs (f : Str) (n : NRec) (b : Str) :
    (guardSanitize f n b).source_refs = n.source_refs := rfl

/-- Summary field of the sanitized record. -/
lemma guardSanitize_summary (f : Str) (n : NRec) (b : Str) :
    (guardSanitize f n b).summary = n.summary := rfl

/-- Publish-target field of the sanitized record. -/
lemma guardSanitize_pubs (f : Str) (n : NRec) (b : Str) :
    (guardSanitize f n b).publish_targets =
      if n.publish_targets = [] then ["github".toList] else n.publish_targets := rfl

/-- Content field of the sanitized record. -/
lemma guardSanitize_content (f : Str) (n : NRec) (b : Str) :
    (guardSanitize f n b).content =
      match n.content with
      | some c => if c = [] then some c else some (truncContent c)
      | none => none := rfl

/-- Record extensionality for normalized records. -/
lemma nrec_ext (a b : NRec) (h1 : a.title = b.title) (h2 : a.lane = b.lane)
    (h3 : a.status = b.status) (h4 : a.tags = b.tags)
    (h5 : a.source_refs = b.source_refs) (h6 : a.summary = b.summary)
    (h7 : a.publish_targets = b.publish_targets) (h8 : a.content = b.content) :
    a = b := by
  cases a
  cases b
  simp_all

/-- The sanitized record's lane is always an allowed lane. -/
lemma guardSanitize_lane_allowed (f : Str) (n : NRec) (b : Str) :
    (guardSanitize f n b).lane ∈ allowedLanes := by
  rw [guardSanitize_lane]
  split_ifs with h1 h2 h3
  · exact h2
  · decide
  · exact h3
  · decide

/- ### Claim C3 -/

/-- C3: Idempotence of the Sanitizer/Enricher. As literally stated the
claim fails: the sanitizer can emit a title with a leading space (an
empty first whitespace token is re-joined before title casing), and the
second pass trims that space away, so re-applying the stage is not
always a no-op. Amended claim, proved here: for every
ClassificationResult, lane override and source body, whenever the
sanitized record's title is trim-invariant, re-applying the
guard/sanitize/enrich stage with the same override and body returns the
record unchanged — the lane guard, status force, tag enrichment,
publish-target default and content truncation are unconditionally
idempotent, and title sanitization is idempotent on trim-invariant
output. -/
theorem sanitizer_idempotent (forceLane : Str) (n : NRec) (body : Str)
    (h : trimS (guardSanitize forceLane n body).title
      = (guardSanitize forceLane n body).title) :
    guardSanitize forceLane (guardSanitize forceLane n body) body
      = guardSanitize forceLane n body := by
  refine nrec_ext _ _ ?_ ?_ ?_ ?_ ?_ ?_ ?_ ?_
  · rw [guardSanitize_title forceLane (guardSanitize forceLane n body) body]
    split_ifs with ht
    · rfl
    · by_cases hnt : n.title = []
      · exfalso
        apply ht
        rw [guardSanitize_title forceLane n body, if_pos hnt, hnt]
      · have hr : (guardSanitize forceLane n body).title = sanTitle n.title := by
          rw [guardSanitize_title forceLane n body, if_neg hnt]
        rw [hr] at h ⊢
        exact sanTitle_fix n.title h
  · by_cases hf : forceLane ≠ [] ∧ forceLane ∈ allowedLanes
    · rw [guardSanitize_lane forceLane (guardSanitize forceLane n body) body,
        if_pos hf, if_pos hf.2,
        guardSanitize_lane forceLane n body, if_pos hf, if_pos hf.2]
    · rw [guardSanitize_lane forceLane (guardSanitize forceLane n body) body,
        if_neg hf, if_pos (guardSanitize_lane_allowed forceLane n body)]
  · rw [guardSanitize_status forceLane (guardSanitize forceLane n body) body,
      guardSanitize_status forceLane n body]
  · rw [guardSanitize_tags forceLane (guardSanitize forceLane n body) body,
      guardSanitize_tags forceLane n body]
    exact enrichTags_idem n.tags (lowerStr body)
  · exact guardSanitize_refs forceLane _ body
  · exact guardSanitize_summary forceLane _ body
  · rw [guardSanitize_pubs forceLane (guardSanitize forceLane n body) body]
    have hne : (guardSanitize forceLane n body).publish_targets ≠ [] := by
      rw [guardSanitize_pubs forceLane n body]
      split_ifs with hp
      · simp
      · exact hp
    rw [if_neg hne]
  · rw [guardSanitize_content forceLane (guardSanitize forceLane n body) body,
      guardSanitize_content forceLane n body]
    cases hc : n.content with
    | none => rfl
    | some c =>
      show (match (if c = [] then some c else some (truncContent c)) with
        | some c => if c = [] then some c else some (truncContent c)
        | none => none)
        = if c = [] then some c else some (truncContent c)
      by_cases hce : c = []
      · rw [if_pos hce]
        show (if c = [] then some c else some (truncContent c)) = some c
        rw [if_pos hce]
      · rw [if_neg hce]
        show (if truncContent c = [] then some (truncContent c)
          else some (truncContent (truncContent c))) = some (truncContent c)
        by_cases ht : truncContent c = []
        · rw [if_pos ht]
        · rw [if_neg ht, truncContent_idem]

/-- A classification result whose title starts with a marker character
followed by a space: sanitization leaves a leading space, which the
second pass removes. -/
def c3bad : NRec :=
  { title := [backtickC, ' ', 'a'], lane := ['A'], status := "draft".toList,
    tags := [], source_refs := [], summary := ['s'],
    publish_targets := ["github".toList], content := none }

/-- The Sanitizer/Enricher is not idempotent on `c3bad`: the first pass
yields title " A", the second "A". -/
theorem sanitizer_idempotent_counterexample :
    guardSanitize [] (guardSanitize [] c3bad []) [] ≠ guardSanitize [] c3bad [] := by
  decide

/-- A classification result on which the amended idempotence theorem
applies concretely. -/
def c3good : NRec :=
  { title := "hello world".toList, lane := ['B'], status := [], tags := [],
    source_refs := [], summary := ['s'], publish_targets := [], content := none }

/-- Witness: the trim-invariance hypothesis holds for `c3good` and the
sanitize stage is idempotent there. -/
theorem sanitizer_idempotent_witness :
    trimS (guardSanitize [] c3good []).title = (guardSanitize [] c3good []).title ∧
    guardSanitize [] (guardSanitize [] c3good []) [] = guardSanitize [] c3good [] :=
  ⟨by decide, sanitizer_idempotent [] c3good [] (by decide)⟩

/- ### Trim idempotence -/

/-- The head surviving a whitespace drop is not whitespace. -/
lemma dropWhile_head_false : ∀ (l : Str) (c : Char),
    (l.dropWhile jsWs).head? = some c → jsWs c = false
  | [], c, h => by cases h
  | x :: r, c, h => by
    rw [List.dropWhile_cons] at h
    split_ifs at h with hx
    · exact dropWhile_head_false r c h
    · simp only [List.head?_cons, Option.some.injEq] at h
      subst h
      simpa using hx

/-- A nonempty whitespace drop keeps the last element. -/
lemma dropWhile_getLast : ∀ (l : Str), l.dropWhile jsWs ≠ [] →
    (l.dropWhile jsWs).getLast? = l.getLast?
  | [], h => absurd rfl h
  | x :: r, h => by
    rw [List.dropWhile_cons] at h ⊢
    split_ifs at h ⊢ with hx
    · cases r with
      | nil => exact absurd rfl h
      | cons d r2 =>
        rw [dropWhile_getLast (d :: r2) h, List.getLast?_cons_cons]
    · rfl

/-- Right trim absorbs a trailing whitespace character. -/
lemma rtrim_snoc_ws (y : Str) (d : Char) (hd : jsWs d = true) :
    rtrim (y ++ [d]) = rtrim y := by
  unfold rtrim
  rw [List.reverse_append]
  simp only [List.reverse_cons, List.reverse_nil, List.nil_append,
    List.singleton_append]
  rw [List.dropWhile_cons, if_pos hd]

/-- Trim absorbs a trailing whitespace character. -/
lemma trimS_snoc_ws (z : Str) (d : Char) (hd : jsWs d = true) :
    trimS (z ++ [d]) = trimS z := by
  unfold trimS ltrim
  rw [List.dropWhile_append]
  by_cases he : (z.dropWhile jsWs).isEmpty = true
  · rw [if_pos he]
    have h1 : ([d] : Str).dropWhile jsWs = [] := by
      rw [show ([d] : Str) = d :: [] from rfl, List.dropWhile_cons, if_pos hd]
      rfl
    have h2 : z.dropWhile jsWs = [] := by
      simpa [List.isEmpty_iff] using he
    rw [h1, h2]
  · rw [if_neg he]
    exact rtrim_snoc_ws _ d hd

/-- Every string is its right trim followed by a whitespace suffix. -/
lemma rtrim_decomp (z : Str) : ∃ w, z = rtrim z ++ w ∧ ∀ c ∈ w, jsWs c = true := by
  refine ⟨(z.reverse.takeWhile jsWs).reverse, ?_, ?_⟩
  · have h : z.reverse.takeWhile jsWs ++ z.reverse.dropWhile jsWs = z.reverse :=
      List.takeWhile_append_dropWhile jsWs z.reverse
    calc z = z.reverse.reverse := (List.reverse_reverse z).symm
      _ = (z.reverse.takeWhile jsWs ++ z.reverse.dropWhile jsWs).reverse := by rw [h]
      _ = (z.reverse.dropWhile jsWs).reverse ++ (z.reverse.takeWhile jsWs).reverse := by
          rw [List.reverse_append]
  · intro c hc
    rw [List.mem_reverse] at hc
    exact List.mem_takeWhile_imp hc

/-- Trim is idempotent. -/
lemma trimS_idem (x : Str) : trimS (trimS x) = trimS x := by
  refine trimS_eq_self₂ _ ?_ ?_
  · intro c hc
    have hc2 : ((ltrim x).reverse.dropWhile jsWs).getLast? = some c := by
      have heq : trimS x = ((ltrim x).reverse.dropWhile jsWs).reverse := rfl
      rw [heq, List.head?_reverse] at hc
      exact hc
    have hne : (ltrim x).reverse.dropWhile jsWs ≠ [] := by
      intro h0
      rw [h0] at hc2
      cases hc2
    rw [dropWhile_getLast _ hne, List.getLast?_reverse] at hc2
    exact dropWhile_head_false x c hc2
  · intro c hc
    have hc2 : ((ltrim x).reverse.dropWhile jsWs).head? = some c := by
      have heq : trimS x = ((ltrim x).reverse.dropWhile jsWs).reverse := rfl
      rw [heq, List.getLast?_reverse] at hc
      exact hc
    exact dropWhile_head_false _ c hc2

/-- The trim of a trimmed body with its trailing newline is the trimmed
body itself. -/
lemma trimS_body_nl (xC : Str) : trimS (trimS xC ++ ['\n']) = trimS xC := by
  rw [trimS_snoc_ws _ '\n' (by decide), trimS_idem]

/- ### Nonempty-token count of the whitespace split -/

/-- Number of nonempty tokens (the validator's word count). -/
def countNE (l : List Str) : Nat := (l.filter (fun t => t ≠ [])).length

/-- Number of maximal non-whitespace runs; the flag records whether the
scanner is inside a run. -/
def runsAux : Bool → Str → Nat
  | _, [] => 0
  | b, c :: r => if jsWs c = true then runsAux false r else (if b then 0 else 1) + runsAux true r

/-- One-step equation for the run counter. -/
lemma runsAux_cons (b : Bool) (c : Char) (r : Str) :
    runsAux b (c :: r) = if jsWs c = true then runsAux false r
      else (if b then 0 else 1) + runsAux true r := rfl

/-- Is the first token nonempty? -/
def headNE : List Str → Bool
  | [] => false
  | t :: _ => decide (t ≠ [])

/-- Does the string start with a non-whitespace character? -/
def hdNW : Str → Bool
  | [] => false
  | c :: _ => !jsWs c

/-- Fresh and in-run counts differ exactly by the head run. -/
lemma runsAux_false_true (r : Str) :
    runsAux false r = runsAux true r + (if hdNW r = true then 1 else 0) := by
  cases r with
  | nil => rfl
  | cons d r2 =>
    rw [runsAux_cons, runsAux_cons]
    by_cases hd : jsWs d = true
    · rw [if_pos hd, if_pos hd]
      have h1 : hdNW (d :: r2) = false := by simp [hdNW, hd]
      rw [h1]
      simp
    · rw [if_neg hd, if_neg hd]
      have h1 : hdNW (d :: r2) = true := by simp [hdNW, hd]
      rw [h1]
      simp [Nat.add_comm]

/-- Extending the head token adds a nonempty token exactly when the
head token was empty. -/
lemma countNE_consHead (c : Char) (l : List Str) :
    countNE (consHead c l) = if headNE l = true then countNE l else countNE l + 1 := by
  cases l with
  | nil => simp [consHead, countNE, headNE]
  | cons t ts =>
    by_cases ht : t = []
    · subst ht
      simp [consHead, countNE, headNE, List.filter_cons]
    · simp [consHead, countNE, headNE, List.filter_cons, ht]

/-- The splitter's nonempty-token count equals the run count, and its
first token is nonempty exactly when the string starts in a run. -/
lemma swAux_runs : ∀ (s : Str),
    (countNE (swAux false s) = runsAux false s ∧ headNE (swAux false s) = hdNW s) ∧
      countNE (swAux true s) = runsAux false s
  | [] => ⟨⟨rfl, rfl⟩, rfl⟩
  | c :: r => by
    obtain ⟨⟨ihc, ihh⟩, ihtrue⟩ := swAux_runs r
    by_cases hc : jsWs c = true
    · refine ⟨⟨?_, ?_⟩, ?_⟩
      · rw [swAux_false_cons, if_pos hc, runsAux_cons, if_pos hc]
        have h1 : countNE ([] :: swAux true r) = countNE (swAux true r) := by
          simp [countNE, List.filter_cons]
        rw [h1, ihtrue]
      · rw [swAux_false_cons, if_pos hc]
        show headNE ([] :: swAux true r) = hdNW (c :: r)
        simp [headNE, hdNW, hc]
      · rw [swAux_true_cons, if_pos hc, ihtrue, runsAux_cons, if_pos hc]
    · have hstep : swAux false (c :: r) = consHead c (swAux false r) := by
        rw [swAux_false_cons, if_neg hc]
      have hA : countNE (swAux false (c :: r)) = runsAux false (c :: r) := by
        rw [hstep, countNE_consHead, ihh, ihc, runsAux_cons, if_neg hc,
          runsAux_false_true r]
        by_cases hr : hdNW r = true
        · rw [if_pos hr, if_pos hr]
          simp [Nat.add_comm]
        · rw [if_neg hr, if_neg hr]
          simp [Nat.add_comm]
      refine ⟨⟨hA, ?_⟩, ?_⟩
      · rw [hstep]
        have h1 : headNE (consHead c (swAux false r)) = true := by
          cases hl : swAux false r with
          | nil => simp [consHead, headNE]
          | cons t ts => simp [consHead, headNE]
        rw [h1]
        simp [hdNW, hc]
      · rw [swAux_true_cons_nonws c r (by simpa using hc)]
        exact hA

/-- The run count ignores leading whitespace. -/
lemma runsAux_ltrim : ∀ (s : Str), runsAux false (ltrim s) = runsAux false s
  | [] => rfl
  | c :: r => by
    show runsAux false ((c :: r).dropWhile jsWs) = runsAux false (c :: r)
    rw [List.dropWhile_cons]
    split_ifs with hc
    · show runsAux false (ltrim r) = _
      rw [runsAux_ltrim r, runsAux_cons, if_pos hc]
    · rfl

/-- The run count ignores one trailing whitespace character. -/
lemma runsAux_snoc_ws (d : Char) (hd : jsWs d = true) :
    ∀ (b : Bool) (z : Str), runsAux b (z ++ [d]) = runsAux b z
  | b, [] => by
    show runsAux b [d] = runsAux b []
    rw [runsAux_cons, if_pos hd]
    cases b <;> rfl
  | b, c :: z => by
    rw [List.cons_append, runsAux_cons, runsAux_cons]
    by_cases hc : jsWs c = true
    · rw [if_pos hc, if_pos hc, runsAux_snoc_ws d hd false z]
    · rw [if_neg hc, if_neg hc, runsAux_snoc_ws d hd true z]

/-- The run count ignores a whitespace suffix. -/
lemma runsAux_append_ws : ∀ (w : Str), (∀ c ∈ w, jsWs c = true) →
    ∀ (b : Bool) (z : Str), runsAux b (z ++ w) = runsAux b z
  | [], _, b, z => by simp
  | d :: w2, h, b, z => by
    have hd : jsWs d = true := h d (List.mem_cons_self _ _)
    have hstep : z ++ d :: w2 = (z ++ [d]) ++ w2 := by simp
    rw [hstep,
      runsAux_append_ws w2 (fun c hc => h c (List.mem_cons_of_mem _ hc)) b (z ++ [d]),
      runsAux_snoc_ws d hd b z]

/-- The run count is invariant under trimming. -/
lemma runsAux_trim (z : Str) : runsAux false (trimS z) = runsAux false z := by
  have hrt : runsAux false (rtrim (ltrim z)) = runsAux false (ltrim z) := by
    obtain ⟨w, hw, hws⟩ := rtrim_decomp (ltrim z)
    conv_rhs => rw [hw]
    rw [runsAux_append_ws w hws false (rtrim (ltrim z))]
  show runsAux false (rtrim (ltrim z)) = _
  rw [hrt, runsAux_ltrim]

/-- The validator's word count of a trimmed string is bounded by the
splitter's token count of the original. -/
lemma countNE_trim_le (T : Str) :
    countNE (swAux false (trimS T)) ≤ (swAux false T).length := by
  rw [(swAux_runs (trimS T)).1.1, runsAux_trim, ← (swAux_runs T).1.1]
  exact List.length_filter_le _ _

/-- A non-whitespace character is not a line separator. -/
lemma nonws_noSep (a : Char) (h : jsWs a = false) :
    a.toNat ≠ 8232 ∧ a.toNat ≠ 8233 := by
  constructor <;> intro he
  · have h2 : jsWs a = true := (jsWs_mem_iff a).mpr (by rw [he]; decide)
    rw [h2] at h
    cases h
  · have h2 : jsWs a = true := (jsWs_mem_iff a).mpr (by rw [he]; decide)
    rw [h2] at h
    cases h

/-- The sanitized title carries no line separator: its characters are
spaces or uppercased token characters, and tokens are
whitespace-free. -/
lemma sanTitle_noSep (t : Str) : noLineSep (sanTitle t) := by
  intro c hc
  rw [sanTitle_eq t] at hc
  have hc1 : c ∈ tcAux false (joinSep [' ']
      ((swAux false (collapse2 ((trimS t).filter (fun c => !isMk c)))).take 12)) :=
    List.take_subset _ _ hc
  obtain ⟨a, ha4, hor⟩ := tcAux_mem _ false c hc1
  have ha : a.toNat ≠ 8232 ∧ a.toNat ≠ 8233 := by
    rcases joinSep_mem [' '] _ a ha4 with hsep | ⟨tok, htok, hatok⟩
    · simp only [List.mem_singleton] at hsep
      subst hsep
      exact ⟨by decide, by decide⟩
    · exact nonws_noSep a
        (swAux_token_chars _ false tok (List.take_subset _ _ htok) a hatok).2
  rcases hor with rfl | rfl
  · exact ha
  · have hup := upChar_toNat a
    by_cases hr : 97 ≤ a.toNat ∧ a.toNat ≤ 122
    · rw [if_pos hr] at hup
      constructor <;> omega
    · rw [if_neg hr] at hup
      exact ⟨by rw [hup]; exact ha.1, by rw [hup]; exact ha.2⟩

/-- The guard block's title carries no line separator. -/
lemma guardSanitize_title_noSep (f : Str) (n : NRec) (b : Str) :
    noLineSep (guardSanitize f n b).title := by
  rw [guardSanitize_title f n b]
  split_ifs with h
  · rw [h]
    intro c hc
    cases hc
  · exact sanTitle_noSep n.title

/- ### Validator soundness -/

/-- The validator's error list, written out over an already parsed
document. -/
lemma validateFile_parsed (text : Str) (strict : Bool) (fm0 : List (Str × JValue))
    (b0 : Str) (hp : parseFrontmatterV text = (fm0, b0)) :
    validateFile text strict =
      (reqKeys.foldl (fun acc k => if fmGet fm0 k = none
          then acc ++ ["missing frontmatter key: ".toList ++ k] else acc) [])
      ++ (if trimS (fmStrOr fm0 ("title".toList)) = []
          then ["title is empty".toList] else [])
      ++ (if (trimS (fmStrOr fm0 ("title".toList))).length > 80
          then ["title exceeds 80 chars".toList] else [])
      ++ (if ((splitWsJS (trimS (fmStrOr fm0 ("title".toList)))).filter
            (fun w => w ≠ [])).length > 12
          then ["title exceeds 12 words".toList] else [])
      ++ (if (trimS (fmStrOr fm0 ("title".toList))).any isMk
          then ["title contains markdown characters".toList] else [])
      ++ (if stripQuotesAll (fmStrOr fm0 ("lane".toList)) ∉ allowedLanes
          then ["invalid lane: ".toList ++ stripQuotesAll (fmStrOr fm0 ("lane".toList))]
          else [])
      ++ (if stripQuotesAll (fmStrOr fm0 ("status".toList)) ∉ allowedStatus
          then ["invalid status: ".toList ++ stripQuotesAll (fmStrOr fm0 ("status".toList))]
          else [])
      ++ (if fmArrOr fm0 ("tags".toList) = [] then ["tags empty".toList] else [])
      ++ (if (fmArrOr fm0 ("tags".toList)).length > 10
          then ["too many tags (>10)".toList] else [])
      ++ (if (fmArrOr fm0 ("tags".toList)).filter (fun t => !isSlugTag t) ≠ []
          then ["bad tag slugs: ".toList
            ++ joinSep [','] ((fmArrOr fm0 ("tags".toList)).filter (fun t => !isSlugTag t))]
          else [])
      ++ (if fmArrOr fm0 ("publish_targets".toList) = []
          then ["publish_targets empty".toList] else [])
      ++ (if (fmArrOr fm0 ("publish_targets".toList)).filter (fun t => t ∉ allowedTargets) ≠ []
          then ["invalid publish_targets: ".toList
            ++ joinSep [','] ((fmArrOr fm0 ("publish_targets".toList)).filter
              (fun t => t ∉ allowedTargets))]
          else [])
      ++ (if trimS (fmStrOr fm0 ("summary".toList)) = []
          then ["summary empty".toList] else [])
      ++ (if (trimS (fmStrOr fm0 ("summary".toList))).length > 240
          then ["summary exceeds 240 chars".toList] else [])
      ++ (if (trimS b0).length < 20 then ["content body too short".toList] else [])
      ++ (if strict ∧ (trimS b0).length > 6000
          then ["content body too long (>6000 chars)".toList] else []) := by
  unfold validateFile
  rw [hp]

/-- Title value read back from serialized frontmatter. -/
lemma fmStrOr_title (r : NRec) (h : r.title ≠ []) :
    fmStrOr (fmEntries r) ("title".toList) = r.title := by
  unfold fmStrOr
  rw [(fmGet_fmEntries r).1]
  show (if jTruthy (.str r.title) = true then jToStr (.str r.title) else []) = r.title
  have hj : jTruthy (JValue.str r.title) = true := by simp [jTruthy, h]
  rw [if_pos hj]
  rfl

/-- Lane value read back from serialized frontmatter. -/
lemma fmStrOr_lane (r : NRec) (h : r.lane ≠ []) :
    fmStrOr (fmEntries r) ("lane".toList) = r.lane := by
  unfold fmStrOr
  rw [(fmGet_fmEntries r).2.1, if_neg h]
  show (if jTruthy (.str r.lane) = true then jToStr (.str r.lane) else []) = r.lane
  have hj : jTruthy (JValue.str r.lane) = true := by simp [jTruthy, h]
  rw [if_pos hj]
  rfl

/-- Status value read back from serialized frontmatter. -/
lemma fmStrOr_status_draft (r : NRec) (h : r.status = "draft".toList) :
    fmStrOr (fmEntries r) ("status".toList) = "draft".toList := by
  unfold fmStrOr
  rw [(fmGet_fmEntries r).2.2.1, h]
  decide

/-- Summary value read back from serialized frontmatter. -/
lemma fmStrOr_summary (r : NRec) (h : r.summary ≠ []) :
    fmStrOr (fmEntries r) ("summary".toList) = r.summary := by
  unfold fmStrOr
  rw [(fmGet_fmEntries r).2.2.2.2.2.1]
  show (if jTruthy (.str r.summary) = true then jToStr (.str r.summary) else []) = r.summary
  have hj : jTruthy (JValue.str r.summary) = true := by simp [jTruthy, h]
  rw [if_pos hj]
  rfl

/-- Tag array read back from serialized frontmatter. -/
lemma fmArrOr_tags (r : NRec) :
    fmArrOr (fmEntries r) ("tags".toList) = r.tags := by
  unfold fmArrOr
  rw [(fmGet_fmEntries r).2.2.2.1]

/-- Publish-target array read back from serialized frontmatter. -/
lemma fmArrOr_pubs (r : NRec) :
    fmArrOr (fmEntries r) ("publish_targets".toList) = r.publish_targets := by
  unfold fmArrOr
  rw [(fmGet_fmEntries r).2.2.2.2.2.2]

/-- No missing-key error when every required key is present. -/
lemma reqKeys_fold_nil (fm0 : List (Str × JValue))
    (h : ∀ k ∈ reqKeys, fmGet fm0 k ≠ none) :
    reqKeys.foldl (fun acc k => if fmGet fm0 k = none
      then acc ++ ["missing frontmatter key: ".toList ++ k] else acc) [] = [] := by
  have hgen : ∀ (ks : List Str), (∀ k ∈ ks, fmGet fm0 k ≠ none) →
      ks.foldl (fun acc k => if fmGet fm0 k = none
        then acc ++ ["missing frontmatter key: ".toList ++ k] else acc) [] = [] := by
    intro ks
    induction ks with
    | nil => intro _; rfl
    | cons k ks ih =>
      intro hk
      rw [List.foldl_cons, if_neg (hk k (List.mem_cons_self _ _))]
      exact ih (fun x hx => hk x (List.mem_cons_of_mem _ hx))
  exact hgen reqKeys h

/-- Allowed lanes contain no quote character. -/
lemma allowedLanes_noQuote : ∀ l ∈ allowedLanes, stripQuotesAll l = l := by decide

/-- Every vocabulary term is a valid tag slug. -/
lemma tagVocab_slug : ∀ t ∈ tagVocab, isSlugTag t = true := by decide

/-- Core validator soundness: a record satisfying the sanitizer's
output invariants validates cleanly after serialization. -/
lemma validateFile_sound_core (r : NRec) (body : Str)
    (hTne : trimS r.title ≠ [])
    (hTlen : r.title.length ≤ 80)
    (hTwords : (splitWsJS r.title).length ≤ 12)
    (hTmk : ∀ c ∈ r.title, isMk c = false)
    (hLane : r.lane ∈ allowedLanes)
    (hStatus : r.status = "draft".toList)
    (hTags : ∀ t ∈ r.tags, isSlugTag t = true)
    (hTagsNe : r.tags ≠ [])
    (hTagsLen : r.tags.length ≤ 10)
    (hPub : ∀ p ∈ r.publish_targets, p ∈ allowedTargets)
    (hPubNe : r.publish_targets ≠ [])
    (hSum : trimS r.summary ≠ [])
    (hSumLen : r.summary.length ≤ 240)
    (hBody : 20 ≤ (trimS (contentOr r body)).length)
    (hTsep : noLineSep r.title) (hSsep : noLineSep r.summary) :
    validateFile (outDocOf r body) false = [] := by
  have hTne0 : r.title ≠ [] := fun he => hTne (by rw [he]; rfl)
  have hSum0 : r.summary ≠ [] := fun he => hSum (by rw [he]; rfl)
  have hLne : r.lane ≠ [] := mem_allowedLanes_ne_nil _ hLane
  have hdoc : outDocOf r body
      = toFrontmatter r ++ (trimS (contentOr r body) ++ ['\n']) := by
    unfold outDocOf
    rw [List.append_assoc]
  have hp : parseFrontmatterV (outDocOf r body)
      = (fmEntries r, trimS (contentOr r body)) := by
    rw [hdoc, parseFrontmatterV_serialize r _ hTsep
      (mem_allowedLanes_noSep _ hLane)
      (by rw [hStatus]; exact (by decide : noLineSep ("draft".toList)))
      (fun t ht => isSlugTag_noSep t (hTags t ht)) hSsep
      (fun p hp2 => mem_allowedTargets_noSep p (hPub p hp2)), trimS_body_nl]
  rw [validateFile_parsed (outDocOf r body) false (fmEntries r)
    (trimS (contentOr r body)) hp]
  rw [fmStrOr_title r hTne0, fmStrOr_lane r hLne, fmStrOr_status_draft r hStatus,
    fmStrOr_summary r hSum0, fmArrOr_tags r, fmArrOr_pubs r]
  have hkeys : ∀ k ∈ reqKeys, fmGet (fmEntries r) k ≠ none := by
    intro k hk
    obtain ⟨h1, h2, h3, h4, h5, h6, h7⟩ := fmGet_fmEntries r
    simp only [reqKeys, List.mem_cons, List.not_mem_nil, or_false] at hk
    rcases hk with rfl | rfl | rfl | rfl | rfl | rfl
    · intro hh
      rw [h1] at hh
      cases hh
    · intro hh
      rw [h2] at hh
      cases hh
    · intro hh
      rw [h3] at hh
      cases hh
    · intro hh
      rw [h4] at hh
      cases hh
    · intro hh
      rw [h6] at hh
      cases hh
    · intro hh
      rw [h7] at hh
      cases hh
  rw [reqKeys_fold_nil (fmEntries r) hkeys]
  rw [if_neg hTne]
  rw [if_neg (show ¬ (trimS r.title).length > 80 from by
    have := trimS_length_le r.title
    omega)]
  have hw : ((splitWsJS (trimS r.title)).filter (fun w => w ≠ [])).length ≤ 12 :=
    le_trans (countNE_trim_le r.title) hTwords
  rw [if_neg (show ¬ ((splitWsJS (trimS r.title)).filter (fun w => w ≠ [])).length > 12
    from by omega)]
  have hany : (trimS r.title).any isMk = false := by
    rw [List.any_eq_false]
    intro x hx
    rw [hTmk x (trimS_subset _ x hx)]
    simp
  rw [if_neg (show ¬ (trimS r.title).any isMk = true from by rw [hany]; simp)]
  rw [allowedLanes_noQuote r.lane hLane]
  rw [if_neg (not_not_intro hLane)]
  rw [if_neg (show ¬ stripQuotesAll ("draft".toList) ∉ allowedStatus from by decide)]
  rw [if_neg hTagsNe]
  rw [if_neg (show ¬ r.tags.length > 10 from by omega)]
  have hbt : r.tags.filter (fun t => !isSlugTag t) = [] := by
    rw [List.filter_eq_nil_iff]
    intro t ht
    rw [hTags t ht]
    simp
  rw [if_neg (fun hne => hne hbt)]
  rw [if_neg hPubNe]
  have hbp : r.publish_targets.filter (fun t => t ∉ allowedTargets) = [] := by
    rw [List.filter_eq_nil_iff]
    intro t ht
    simp only [decide_eq_true_eq]
    exact not_not_intro (hPub t ht)
  rw [if_neg (fun hne => hne hbp)]
  rw [if_neg hSum]
  rw [if_neg (show ¬ (trimS r.summary).length > 240 from by
    have := trimS_length_le r.summary
    omega)]
  rw [trimS_idem]
  rw [if_neg (show ¬ (trimS (contentOr r body)).length < 20 from by omega)]
  rw [if_neg (show ¬ ((false = true) ∧ (trimS (contentOr r body)).length > 6000)
    from by simp)]
  simp

/-- Every enriched tag is a valid slug when every incoming tag
normalizes to a valid slug. -/
lemma enrichTags_slug (tags : List Str) (L : Str)
    (h : ∀ t ∈ tags, isSlugTag (normTag t) = true) :
    ∀ x ∈ enrichTags tags L, isSlugTag x = true := by
  intro x hx
  have hE : enrichTags tags L = (tagVocab.foldl
      (fun acc t => if hasSub (hyphToSpace t) L = true then setAdd acc t else acc)
      ((tags.map normTag).foldl setAdd [])).take 7 ++
    List.replicate (3 - ((tagVocab.foldl
      (fun acc t => if hasSub (hyphToSpace t) L = true then setAdd acc t else acc)
      ((tags.map normTag).foldl setAdd [])).take 7).length) ("artifact".toList) := rfl
  rw [hE] at hx
  rcases List.mem_append.mp hx with h1 | h2
  · have h3 := List.take_subset 7 _ h1
    rcases mem_foldl_guard _ tagVocab _ x h3 with h4 | hvoc
    · rcases mem_foldl_setAdd _ [] x h4 with h0 | hmap
      · exact absurd h0 (List.not_mem_nil x)
      · obtain ⟨y, hy, rfl⟩ := List.mem_map.mp hmap
        exact h y hy
    · exact tagVocab_slug x hvoc
  · rw [List.eq_of_mem_replicate h2]
    decide

/-- Cardinality of the enriched tag list. -/
lemma enrichTags_card (tags : List Str) (L : Str) :
    3 ≤ (enrichTags tags L).length ∧ (enrichTags tags L).length ≤ 7 := by
  unfold enrichTags
  exact pad_card _ (List.length_take_le 7 _)

/-- The sanitized title never exceeds 80 characters. -/
lemma guardSanitize_title_len (f : Str) (n : NRec) (b : Str) :
    (guardSanitize f n b).title.length ≤ 80 := by
  rw [guardSanitize_title f n b]
  split_ifs with h
  · simp [h]
  · exact sanTitle_len_le n.title

/-- The sanitized title splits into at most 12 whitespace tokens. -/
lemma guardSanitize_title_words (f : Str) (n : NRec) (b : Str) :
    (splitWsJS (guardSanitize f n b).title).length ≤ 12 := by
  rw [guardSanitize_title f n b]
  split_ifs with h
  · rw [h]
    decide
  · exact sanTitle_tok_le n.title

/-- The sanitized title contains no markdown marker. -/
lemma guardSanitize_title_mk (f : Str) (n : NRec) (b : Str) :
    ∀ c ∈ (guardSanitize f n b).title, isMk c = false := by
  intro c hc
  rw [guardSanitize_title f n b] at hc
  split_ifs at hc with hnt
  · rw [hnt] at hc
    exact absurd hc (List.not_mem_nil c)
  · exact sanTitle_no_mk n.title c hc

/- ### Claim C1 -/

/-- C1: Validator soundness. As literally stated ("for every input
document") the claim fails: the validator enforces conditions the
sanitizer does not establish — a sanitized record can have a too-short
body, an empty or overlong summary, tags that normalize to invalid
slugs, disallowed publish targets, or a summary containing U+2028 or
U+2029 (which `JSON.stringify` emits literally, making the validator's
line regex skip the summary line), each of which yields error
descriptors. Amended claim, proved here: for every oracle result, lane
override and body, if the sanitized title is trim-nonempty, every
oracle tag normalizes to a valid slug, every oracle publish target is
allowed, the summary is nonempty after trimming, at most 240
characters and free of LINE/PARAGRAPH SEPARATOR characters, and the
persisted content body is at least 20 characters after trimming, then
the serialized sanitizer output passes the validator with zero error
descriptors in non-strict mode. -/
theorem validator_soundness (forceLane : Str) (n : NRec) (body : Str)
    (ht : trimS (guardSanitize forceLane n body).title ≠ [])
    (htags : ∀ t ∈ n.tags, isSlugTag (normTag t) = true)
    (hpub : ∀ p ∈ n.publish_targets, p ∈ allowedTargets)
    (hsum : trimS n.summary ≠ [])
    (hsumlen : n.summary.length ≤ 240)
    (hbody : 20 ≤ (trimS (contentOr (guardSanitize forceLane n body) body)).length)
    (hssep : noLineSep n.summary) :
    validateFile (outDocOf (guardSanitize forceLane n body) body) false = [] := by
  apply validateFile_sound_core
  · exact ht
  · exact guardSanitize_title_len forceLane n body
  · exact guardSanitize_title_words forceLane n body
  · exact guardSanitize_title_mk forceLane n body
  · exact guardSanitize_lane_allowed forceLane n body
  · exact guardSanitize_status forceLane n body
  · intro t htmem
    rw [guardSanitize_tags forceLane n body] at htmem
    exact enrichTags_slug n.tags (lowerStr body) htags t htmem
  · rw [guardSanitize_tags forceLane n body]
    have hc := (enrichTags_card n.tags (lowerStr body)).1
    intro he
    rw [he] at hc
    simp at hc
  · rw [guardSanitize_tags forceLane n body]
    have hc := (enrichTags_card n.tags (lowerStr body)).2
    omega
  · intro p hp
    rw [guardSanitize_pubs forceLane n body] at hp
    split_ifs at hp with hnp
    · simp only [List.mem_cons, List.not_mem_nil, or_false] at hp
      rw [hp]
      decide
    · exact hpub p hp
  · rw [guardSanitize_pubs forceLane n body]
    split_ifs with hnp
    · simp
    · exact hnp
  · rw [guardSanitize_summary forceLane n body]
    exact hsum
  · rw [guardSanitize_summary forceLane n body]
    exact hsumlen
  · exact hbody
  · exact guardSanitize_title_noSep forceLane n body
  · rw [guardSanitize_summary forceLane n body]
    exact hssep

/-- Sanitizer output that the validator rejects: a two-character body
is below the validator's 20-character minimum, so the claim does not
hold for every input document. -/
theorem validator_soundness_counterexample :
    validateFile (outDocOf (guardSanitize []
        (heuristicNormalize ('h' :: 'i' :: [])) ('h' :: 'i' :: []))
      ('h' :: 'i' :: [])) false
    = ["content body too short".toList] := by
  decide

/-- Body on which the amended validator-soundness theorem applies. -/
def c1body : Str := "this is a longer test body for checking validation".toList

/-- Witness: the amended soundness hypotheses hold concretely for the
heuristic oracle on `c1body`, and validation yields no error. -/
theorem validator_soundness_witness :
    validateFile (outDocOf (guardSanitize [] (heuristicNormalize c1body) c1body)
      c1body) false = [] :=
  validator_soundness [] (heuristicNormalize c1body) c1body (by decide) (by decide)
    (by decide) (by decide) (by decide) (by decide) (by decide)
